import Mathlib

/-!
Shallow embedding of the `cfg` control-flow-graph package (graph model,
DOT codec, DFS traversal, merge/copy engines) and proofs about it.

Modelling conventions:
* Go pointers to `Node` objects are modelled by values carrying a unique
  internal `id`; pointer equality is `id` equality (every node object
  reachable through the public API has a distinct id).
* Go `panic` is modelled by `Option` (`none` = panic) on operations, and by
  `PResult.fatal` on the decoder, where the source distinguishes returned
  (recoverable) errors from panics.
* Go maps have no observable iteration order in the source (every
  observation sorts); the model keeps node lists sorted by id and edge
  lists sorted by (source id, destination id) as a canonical representation
  of the same abstract state.
* The `graphism/simple` directed-graph engine and the gonum DOT
  marshalling/unmarshalling machinery are dependencies whose sources are
  not part of this repository; where they decide behaviour they are
  modelled from the spec (deterministic id-sorted adjacency, the DOT
  statement grammar of section 6, quoted tokens kept verbatim).
-/

set_option maxRecDepth 20000

namespace Cfg

/-- DOT attributes as an association list from key to value
(Go: `type Attrs map[string]string`); keys are unique. -/
abbrev Attrs := List (String × String)

/-- Go `a[k]` map read: value of key `k`, or `""` when absent. -/
def attrsGet (a : Attrs) (k : String) : String :=
  match a.find? (fun p => p.fst == k) with
  | some p => p.snd
  | none => ""

/-- Go `v, ok := a[k]` map read. -/
def attrsFind (a : Attrs) (k : String) : Option String :=
  (a.find? (fun p => p.fst == k)).map Prod.snd

/-- Go `a[k] = v` map write (upsert, keys stay unique). -/
def attrsSet (a : Attrs) (k v : String) : Attrs :=
  if a.any (fun p => p.fst == k) then
    a.map (fun p => if p.fst == k then (k, v) else p)
  else a ++ [(k, v)]

/-- Lexicographic comparison of character lists by code point (the order
Go `sort.Strings` induces on the ASCII strings at hand). -/
def lexLt : List Char → List Char → Bool
  | [], [] => false
  | [], _ :: _ => true
  | _ :: _, [] => false
  | c :: cs, d :: ds =>
    if c.toNat < d.toNat then true
    else if d.toNat < c.toNat then false
    else lexLt cs ds

/-- Strict string order (Go `<` on strings, for the codec's key sets). -/
def strLtB (s t : String) : Bool := lexLt s.toList t.toList

/-- String order as a Boolean. -/
def strLeB (s t : String) : Bool := !(strLtB t s)

/-- String order as a relation (used by the canonical sorted views). -/
def strLeP (s t : String) : Prop := strLeB s t = true

instance : DecidableRel strLeP := fun s t => instDecidableEqBool (strLeB s t) true

theorem lexLt_asymm : ∀ (a b : List Char), lexLt a b = true → lexLt b a = false
  | [], [] => by simp [lexLt]
  | [], _ :: _ => by simp [lexLt]
  | _ :: _, [] => by simp [lexLt]
  | c :: cs, d :: ds => by
    intro h
    simp only [lexLt] at h ⊢
    by_cases h1 : c.toNat < d.toNat
    · have h2 : ¬ d.toNat < c.toNat := Nat.lt_asymm h1
      simp [h1, h2]
    · by_cases h2 : d.toNat < c.toNat
      · rw [if_neg h1, if_pos h2] at h
        exact absurd h (by simp)
      · rw [if_neg h1, if_neg h2] at h
        rw [if_neg h2, if_neg h1]
        exact lexLt_asymm cs ds h

theorem lexLt_trans : ∀ (a b c : List Char),
    lexLt a b = true → lexLt b c = true → lexLt a c = true
  | [], b, [] => by
    intro h1 h2
    cases b with
    | nil => simp [lexLt] at h1
    | cons x xs => simp [lexLt] at h2
  | [], _, _ :: _ => by intro h1 h2; simp [lexLt]
  | _ :: _, [], _ => by intro h1 h2; simp [lexLt] at h1
  | _ :: _, _ :: _, [] => by intro h1 h2; simp [lexLt] at h2
  | c :: cs, d :: ds, e :: es => by
    intro h1 h2
    simp only [lexLt] at h1 h2 ⊢
    by_cases hcd : c.toNat < d.toNat
    · by_cases hde : d.toNat < e.toNat
      · simp [Nat.lt_trans hcd hde]
      · by_cases hed : e.toNat < d.toNat
        · rw [if_neg hde, if_pos hed] at h2
          exact absurd h2 (by simp)
        · have hde2 : d.toNat = e.toNat :=
            Nat.le_antisymm (Nat.le_of_not_lt hed) (Nat.le_of_not_lt hde)
          have hce : c.toNat < e.toNat := by rw [← hde2]; exact hcd
          simp [hce]
    · by_cases hdc : d.toNat < c.toNat
      · rw [if_neg hcd, if_pos hdc] at h1
        exact absurd h1 (by simp)
      · have hcd2 : c.toNat = d.toNat :=
          Nat.le_antisymm (Nat.le_of_not_lt hdc) (Nat.le_of_not_lt hcd)
        rw [if_neg hcd, if_neg hdc] at h1
        by_cases hde : d.toNat < e.toNat
        · have hce : c.toNat < e.toNat := by rw [hcd2]; exact hde
          simp [hce]
        · by_cases hed : e.toNat < d.toNat
          · rw [if_neg hde, if_pos hed] at h2
            exact absurd h2 (by simp)
          · rw [if_neg hde, if_neg hed] at h2
            have hce : ¬ c.toNat < e.toNat := by rw [hcd2]; exact hde
            have hec : ¬ e.toNat < c.toNat := by rw [hcd2]; exact hed
            rw [if_neg hce, if_neg hec]
            exact lexLt_trans cs ds es h1 h2

theorem char_toNat_inj (c d : Char) (h : c.toNat = d.toNat) : c = d := by
  have hv : c.val = d.val := by
    have h2 : c.val.toNat = d.val.toNat := h
    exact UInt32.toNat.inj h2
  exact Char.ext hv

theorem lexLt_connex : ∀ (a b : List Char), lexLt a b = false → lexLt b a = false → a = b
  | [], [] => fun _ _ => rfl
  | [], _ :: _ => by intro h1 _; simp [lexLt] at h1
  | _ :: _, [] => by intro _ h2; simp [lexLt] at h2
  | c :: cs, d :: ds => by
    intro h1 h2
    simp only [lexLt] at h1 h2
    by_cases hcd : c.toNat < d.toNat
    · rw [if_pos hcd] at h1
      exact absurd h1 (by simp)
    · by_cases hdc : d.toNat < c.toNat
      · rw [if_pos hdc] at h2
        exact absurd h2 (by simp)
      · have hc : c = d := char_toNat_inj c d
          (Nat.le_antisymm (Nat.le_of_not_lt hdc) (Nat.le_of_not_lt hcd))
        rw [if_neg hcd, if_neg hdc] at h1
        rw [hc, lexLt_connex cs ds h1 (by rw [if_neg hdc, if_neg hcd] at h2; exact h2)]

theorem string_toList_inj (s t : String) (h : s.toList = t.toList) : s = t :=
  congrArg String.mk h

theorem strLeP_total (s t : String) : strLeP s t ∨ strLeP t s := by
  by_cases h : strLtB t s = true
  · right
    have h2 : strLtB s t = false := lexLt_asymm _ _ h
    unfold strLeP strLeB
    rw [h2]
    rfl
  · left
    rw [Bool.not_eq_true] at h
    unfold strLeP strLeB
    rw [h]
    rfl

theorem strLeP_trans (s t u : String) (h1 : strLeP s t) (h2 : strLeP t u) : strLeP s u := by
  unfold strLeP strLeB at h1 h2 ⊢
  simp only [Bool.not_eq_true'] at h1 h2 ⊢
  cases hus : strLtB u s with
  | false => rfl
  | true =>
    exfalso
    cases htu : strLtB t u with
    | true =>
      have h3 : strLtB t s = true := lexLt_trans _ _ _ htu hus
      rw [h3] at h1
      exact absurd h1 (by simp)
    | false =>
      have heq : u.toList = t.toList := lexLt_connex _ _ h2 htu
      have hueq : u = t := string_toList_inj _ _ heq
      rw [hueq] at hus
      rw [hus] at h1
      exact absurd h1 (by simp)

instance : IsTotal String strLeP := ⟨strLeP_total⟩

instance : IsTrans String strLeP := ⟨fun s t u => strLeP_trans s t u⟩

theorem strLeP_antisymm (s t : String) (h1 : strLeP s t) (h2 : strLeP t s) : s = t := by
  unfold strLeP strLeB at h1 h2
  simp only [Bool.not_eq_true'] at h1 h2
  exact string_toList_inj _ _ (lexLt_connex _ _ h2 h1)

instance : IsAntisymm String strLeP := ⟨strLeP_antisymm⟩

/-- Go `strings.HasPrefix(s, "\"")`: whether a string starts with a
double quote (spelled out on the character list so that it evaluates in
the kernel). -/
def startsWithQuote (s : String) : Bool :=
  match s.toList with
  | [] => false
  | c :: _ => c == '"'

/-- Whether a string ends with a double quote. -/
def endsWithQuote (s : String) : Bool :=
  match s.toList.getLast? with
  | some c => c == '"'
  | none => false

/-- Order on keyed pairs by key (used for canonical sorted views). -/
def fstLe {b : Type} (p q : String × b) : Prop := strLeP p.fst q.fst

instance {b : Type} : DecidableRel (fstLe (b := b)) := fun p q =>
  inferInstanceAs (Decidable (strLeP p.fst q.fst))

instance {b : Type} : IsTotal (String × b) fstLe := ⟨fun p q => strLeP_total p.fst q.fst⟩

instance {b : Type} : IsTrans (String × b) fstLe :=
  ⟨fun _ _ _ h h2 => strLeP_trans _ _ _ h h2⟩

/-- Whether a string contains a space (Go `strings.Contains(s, " ")`). -/
def containsSpace (s : String) : Bool := s.toList.any (fun c => c == ' ')

/-- Escape of one character inside a Go double-quoted string literal
(model of `strconv.Quote` restricted to the printable characters the
graphs at hand use). -/
def escapeChar (c : Char) : String :=
  if c == '"' then "\\\"" else if c == '\\' then "\\\\" else String.singleton c

/-- Model of Go `strconv.Quote`: wrap in double quotes, escaping. -/
def strconvQuote (s : String) : String :=
  "\"" ++ String.join (s.toList.map escapeChar) ++ "\""

/-- Type of a loop (Go `LoopType`); stored only, never read by the
operations under verification. -/
inductive LoopType where
  | none
  | preTest
  | postTest
  | endless
deriving Repr, DecidableEq

/-- A node of a control flow graph (Go `cfg.Node`).  The embedded
`graph.Node` is the internal unique id.  The structuring-annotation
references (`*Node` fields in Go) are modelled as node ids. -/
structure Node where
  id : Nat
  name : String := ""
  entry : Bool := false
  pre : Int := 0
  revPost : Int := 0
  attrs : Attrs := []
  nBackEdges : Int := 0
  isLatch : Bool := false
  loopType : LoopType := LoopType.none
  loopHead : Option Nat := none
  latch : Option Nat := none
  loopFollow : Option Nat := none
  ifFollow : Option Nat := none
  switchHead : Option Nat := none
  switchFollow : Option Nat := none
deriving Repr, DecidableEq

/-- An edge of a control flow graph (Go `cfg.Edge`); the endpoints are the
node objects the edge was created with. -/
structure Edge where
  src : Node
  dst : Node
  attrs : Attrs := []
deriving Repr, DecidableEq

/-- A control flow graph (Go `cfg.Graph`).  `nodeList`/`edges` model the
embedded `simple.DirectedGraph` (kept canonically sorted, see the header),
`index` models the `nodes` name index, `entry` the entry pointer. -/
structure Graph where
  id : String := ""
  nodeList : List Node := []
  edges : List Edge := []
  entry : Option Node := none
  index : List (String × Nat) := []
deriving Repr, DecidableEq

/-- Go `cfg.NewGraph()`. -/
def NewGraph : Graph := {}

/-- Name-index lookup (Go `g.nodes[name]`, yielding the node id). -/
def indexLookup (ix : List (String × Nat)) (name : String) : Option Nat :=
  (ix.find? (fun p => p.fst == name)).map Prod.snd

/-- Name-index upsert (Go `g.nodes[name] = n`). -/
def indexSet (ix : List (String × Nat)) (name : String) (nid : Nat) : List (String × Nat) :=
  if ix.any (fun p => p.fst == name) then
    ix.map (fun p => if p.fst == name then (name, nid) else p)
  else ix ++ [(name, nid)]

/-- Membership of a node id (Go `g.Has(id)`). -/
def Graph.has (g : Graph) (nid : Nat) : Bool :=
  g.nodeList.any (fun m => m.id == nid)

/-- The node object stored under an id (Go: dereferencing the node
pointer; the graph owns the current state of its member nodes). -/
def Graph.findById (g : Graph) (nid : Nat) : Option Node :=
  g.nodeList.find? (fun m => m.id == nid)

/-- A fresh internal id (Go `simple.DirectedGraph.NewNode`: an id not in
use by the graph). -/
def Graph.freshId (g : Graph) : Nat :=
  g.nodeList.foldl (fun a m => max a (m.id + 1)) 0

/-- Order on nodes by internal id. -/
def nodeIdLe (a c : Node) : Prop := a.id ≤ c.id

instance : DecidableRel nodeIdLe := fun a c => Nat.decLe a.id c.id

instance : IsTotal Node nodeIdLe := ⟨fun a c => Nat.le_total a.id c.id⟩

instance : IsTrans Node nodeIdLe := ⟨fun _ _ _ h h2 => Nat.le_trans h h2⟩

/-- Order on edges by (source id, destination id). -/
def edgeIdLe (e f : Edge) : Prop :=
  e.src.id < f.src.id ∨ (e.src.id = f.src.id ∧ e.dst.id ≤ f.dst.id)

instance : DecidableRel edgeIdLe := fun e f => by unfold edgeIdLe; infer_instance

instance : IsTotal Edge edgeIdLe := ⟨fun e f => by
  unfold edgeIdLe
  rcases Nat.lt_trichotomy e.src.id f.src.id with h | h | h
  · exact Or.inl (Or.inl h)
  · rcases Nat.le_total e.dst.id f.dst.id with h2 | h2
    · exact Or.inl (Or.inr ⟨h, h2⟩)
    · exact Or.inr (Or.inr ⟨h.symm, h2⟩)
  · exact Or.inr (Or.inl h)⟩

instance : IsTrans Edge edgeIdLe := ⟨fun e f k h h2 => by
  unfold edgeIdLe at *
  rcases h with h | ⟨h, hd⟩ <;> rcases h2 with h2 | ⟨h2, hd2⟩
  · exact Or.inl (Nat.lt_trans h h2)
  · exact Or.inl (h2 ▸ h)
  · exact Or.inl (h ▸ h2)
  · exact Or.inr ⟨h.trans h2, Nat.le_trans hd hd2⟩⟩

/-- Keep the node list sorted by id. -/
def insertNodeSorted (n : Node) (l : List Node) : List Node :=
  l.orderedInsert nodeIdLe n

/-- Keep the edge list sorted by (source id, destination id). -/
def insertEdgeSorted (e : Edge) (l : List Edge) : List Edge :=
  l.orderedInsert edgeIdLe e

/-- Go `g.NewNode()`: a fresh node with a unique arbitrary id and an empty
attribute map. -/
def Graph.NewNode (g : Graph) : Node := { id := g.freshId }

/-- Go `g.NewNodeWithName(name)`: panics on an empty name, otherwise a
fresh node carrying the name. -/
def Graph.NewNodeWithName (g : Graph) (name : String) : Option Node :=
  if name == "" then none else some { id := g.freshId, name := name }

/-- Go `g.NodeWithName(name)` (and the panicking internal variant
`g.nodeWithName`, whose panic is the `none` case): name-index lookup. -/
def Graph.NodeWithName (g : Graph) (name : String) : Option Node :=
  (indexLookup g.index name).bind g.findById

/-- Go `g.SetEntry(n)`: panics (`none`) whenever any entry node is already
present; otherwise marks `n` as entry (also through the graph's stored
copy of the object) and records it. -/
def Graph.SetEntry (g : Graph) (n : Node) : Option Graph :=
  match g.entry with
  | some _ => none
  | none =>
    some { g with
      entry := some { n with entry := true },
      nodeList := g.nodeList.map (fun m => if m.id == n.id then { m with entry := true } else m) }

/-- Go `g.AddNode(n)`: panics (`none`) on an id collision, on an entry
conflict with a different node, or on a name owned by a different node;
the name checks are skipped entirely for an empty name. -/
def Graph.AddNode (g : Graph) (n : Node) : Option Graph :=
  if g.has n.id then none
  else
    let g1 : Graph := { g with nodeList := insertNodeSorted n g.nodeList }
    let g2opt : Option Graph :=
      if n.entry then
        match g1.entry with
        | some e => if e.id == n.id then some { g1 with entry := some n } else none
        | none => some { g1 with entry := some n }
      else some g1
    match g2opt with
    | none => none
    | some g2 =>
      if n.name == "" then some g2
      else
        match indexLookup g2.index n.name with
        | some pid =>
          if pid == n.id then some { g2 with index := indexSet g2.index n.name n.id }
          else none
        | none => some { g2 with index := indexSet g2.index n.name n.id }

/-- Go `g.RemoveNode(n)`: drops the id from the node set and all edges
touching it (a no-op there when absent), then unconditionally deletes
`n.name` from the name index and, when `n`'s entry flag is set,
unconditionally clears the graph's entry pointer. -/
def Graph.RemoveNode (g : Graph) (n : Node) : Graph :=
  let g1 : Graph := { g with
    nodeList := g.nodeList.filter (fun m => !(m.id == n.id)),
    edges := g.edges.filter (fun e => !(e.src.id == n.id) && !(e.dst.id == n.id)) }
  let g2 : Graph := { g1 with index := g1.index.filter (fun p => !(p.fst == n.name)) }
  if n.entry then { g2 with entry := none } else g2

/-- Go `g.NewEdge(from, to)`: an edge value with an empty attribute map. -/
def Graph.NewEdge (g : Graph) (u v : Node) : Edge := { src := u, dst := v }

/-- Go `g.SetEdge(e)`: auto-inserts absent endpoints via `AddNode` (whose
panics propagate), panics on a self edge, then records the edge
(replacing any previous edge between the same endpoints). -/
def Graph.SetEdge (g : Graph) (e : Edge) : Option Graph := do
  let g1 ← if g.has e.src.id then some g else g.AddNode e.src
  let g2 ← if g1.has e.dst.id then some g1 else g1.AddNode e.dst
  if e.src.id == e.dst.id then none
  else
    some { g2 with
      edges := insertEdgeSorted e
        (g2.edges.filter (fun x => !(x.src.id == e.src.id && x.dst.id == e.dst.id))) }

/-- Go `g.From(id)`: the successor nodes, in ascending internal-id order
(the deterministic order of the graph engine). -/
def Graph.From (g : Graph) (nid : Nat) : List Node :=
  g.nodeList.filter (fun m => g.edges.any (fun e => e.src.id == nid && e.dst.id == m.id))

/-- Go `g.To(id)`: the predecessor nodes, in ascending internal-id order. -/
def Graph.To (g : Graph) (nid : Nat) : List Node :=
  g.nodeList.filter (fun m => g.edges.any (fun e => e.src.id == m.id && e.dst.id == nid))

/-- Go `g.Edge(u, v)`: the edge between the two ids, when present. -/
def Graph.edgeBetween (g : Graph) (u v : Nat) : Option Edge :=
  g.edges.find? (fun e => e.src.id == u && e.dst.id == v)

/-- Go `g.TrueTarget(n)`: panics (`none`) unless there are exactly two
successors; with labels exactly true/false returns the true-labelled
successor (no diagnostic); otherwise emits a diagnostic (the `true`
flag) and returns the first successor in internal-id order. -/
def Graph.TrueTarget (g : Graph) (n : Node) : Option (Node × Bool) :=
  match g.From n.id with
  | [succ1, succ2] => do
    let e1 ← g.edgeBetween n.id succ1.id
    let e2 ← g.edgeBetween n.id succ2.id
    let l1 := attrsGet e1.attrs "label"
    let l2 := attrsGet e2.attrs "label"
    if l1 == "true" && l2 == "false" then some (succ1, false)
    else if l1 == "false" && l2 == "true" then some (succ2, false)
    else some (succ1, true)
  | _ => none

/-- Go `g.FalseTarget(n)`: as `TrueTarget`, returning the false-labelled
successor, with the same first-successor fallback. -/
def Graph.FalseTarget (g : Graph) (n : Node) : Option (Node × Bool) :=
  match g.From n.id with
  | [succ1, succ2] => do
    let e1 ← g.edgeBetween n.id succ1.id
    let e2 ← g.edgeBetween n.id succ2.id
    let l1 := attrsGet e1.attrs "label"
    let l2 := attrsGet e2.attrs "label"
    if l1 == "true" && l2 == "false" then some (succ2, false)
    else if l1 == "false" && l2 == "true" then some (succ1, false)
    else some (succ1, true)
  | _ => none

/-- One step of `initNodes` (the body of its loop over the node set). -/
def initNodesStep (acc : Graph) (n : Node) : Option Graph :=
  if n.name == "" then none
  else
    match indexLookup acc.index n.name with
    | some pid =>
      if pid == n.id then some { acc with index := indexSet acc.index n.name n.id }
      else none
    | none => some { acc with index := indexSet acc.index n.name n.id }

/-- Go `g.initNodes()`: (re)builds the name index from the node set,
panicking on an empty name or on a name owned by a different node. -/
def Graph.initNodes (g : Graph) : Option Graph :=
  g.nodeList.foldlM initNodesStep g

/-- Go `edgeWithLabel(g, from, to, label)` (the construction-API edge
builder): a labelled edge, with a `color` attribute for the labels
`true`/`false`, added to the graph via `SetEdge`. -/
def edgeWithLabel (g : Graph) (u v : Node) (label : String) : Option Graph :=
  let e0 := g.NewEdge u v
  let e :=
    if label == "" then e0
    else
      let e1 : Edge := { e0 with attrs := attrsSet e0.attrs "label" label }
      if label == "true" then { e1 with attrs := attrsSet e1.attrs "color" "darkgreen" }
      else if label == "false" then { e1 with attrs := attrsSet e1.attrs "color" "red" }
      else e1
  g.SetEdge e

/-! ### Rendering of attributes (Go `Attrs.Attributes`, `Node.Attributes`) -/

/-- Go `Attrs.Attributes()`: keys in lexically sorted order; a `label`
value containing a space and not already starting with a double quote is
quoted via `strconv.Quote`; every other value is emitted verbatim. -/
def Attrs.Attributes (a : Attrs) : List (String × String) :=
  (List.insertionSort strLeP (a.map Prod.fst)).map (fun k =>
    let v := attrsGet a k
    if k == "label" && containsSpace v && !(startsWithQuote v) then (k, strconvQuote v)
    else (k, v))

/-- Go `Node.Attributes()`: for the entry node, synthesizes
`label="entry"`, panicking (`none`) when a different `label` is present. -/
def Node.Attributes (n : Node) : Option (List (String × String)) :=
  if n.entry then
    match attrsFind n.attrs "label" with
    | some prev =>
      if prev == "entry" then some (Attrs.Attributes (attrsSet n.attrs "label" "entry"))
      else none
    | none => some (Attrs.Attributes (attrsSet n.attrs "label" "entry"))
  else some (Attrs.Attributes n.attrs)

/-! ### DOT codec

The byte-level DOT grammar (lexer and parser) lives in the gonum `dot`
dependency, outside this repository's sources.  Modelled from the spec: a
DOT file is a `digraph <id>` block holding node statements
`<name> [attr=val, ...];` and edge statements
`<from> -> <to> [attr=val, ...];`; quoted tokens keep their quotes (the
source looks up the entry fallback under the literal name `"0"`, quotes
included, and guards re-quoting with a leading-quote test). -/

/-- A parsed DOT statement (the abstract form handed to the codec). -/
inductive Stmt where
  | node (id : String) (attrs : List (String × String))
  | edge (src dst : String) (attrs : List (String × String))
deriving Repr, DecidableEq

/-- A parsed DOT file: the digraph name and its statements. -/
structure DotFile where
  name : String := ""
  stmts : List Stmt := []
deriving Repr, DecidableEq

/-- Modelled from the spec: a bare DOT identifier (letters, digits,
underscores, not starting with a digit). -/
def isBareId (s : String) : Bool :=
  match s.toList with
  | [] => false
  | c :: cs => (c.isAlpha || c == '_') && cs.all (fun d => d.isAlphanum || d == '_')

/-- Modelled from the spec: a numeral DOT identifier. -/
def isNumeralId (s : String) : Bool :=
  !(s == "") && s.toList.all Char.isDigit

/-- Modelled from the spec: an already double-quoted DOT identifier. -/
def isQuotedId (s : String) : Bool :=
  decide (2 ≤ s.toList.length) && startsWithQuote s && endsWithQuote s

/-- Modelled from the spec: the DOT marshaller emits an identifier
verbatim when it is bare, a numeral or already quoted, and quotes it
otherwise. -/
def quoteId (s : String) : String :=
  if isBareId s || isNumeralId s || isQuotedId s then s else strconvQuote s

/-- Modelled from the spec: gonum `dot.Marshal` driving the source's
`Attributes` callbacks — node statements in node-set order, then edge
statements in edge-set order, endpoint names read through the graph. -/
def marshalFile (g : Graph) : Option DotFile := do
  let nstmts ← g.nodeList.mapM
    (fun n => (Node.Attributes n).map (fun as => Stmt.node (quoteId n.name) as))
  let estmts ← g.edges.mapM (fun e => do
    let sn ← g.findById e.src.id
    let dn ← g.findById e.dst.id
    some (Stmt.edge (quoteId sn.name) (quoteId dn.name) (Attrs.Attributes e.attrs)))
  some { name := g.id, stmts := nstmts ++ estmts }

/-- Attribute-list suffix of a rendered statement. -/
def renderAttrs : List (String × String) → String
  | [] => ""
  | as => " [" ++ String.intercalate ", " (as.map (fun p => p.fst ++ "=" ++ p.snd)) ++ "]"

/-- One rendered DOT statement line. -/
def renderStmt : Stmt → String
  | Stmt.node i as => "\t" ++ i ++ renderAttrs as ++ ";\n"
  | Stmt.edge s d as => "\t" ++ s ++ " -> " ++ d ++ renderAttrs as ++ ";\n"

/-- Modelled from the spec: the textual form of a DOT file. -/
def renderFile (f : DotFile) : String :=
  "digraph " ++ (if f.name == "" then "" else f.name ++ " ") ++ "\x7b\n"
    ++ String.join (f.stmts.map renderStmt) ++ "\x7d"

/-- Go `g.String()`: marshal the graph to DOT text (`none` = panic in an
`Attributes` callback). -/
def GraphString (g : Graph) : Option String := (marshalFile g).map renderFile

/-- Go `Node.SetAttribute`: `label="entry"` marks the node as entry
(panicking on a conflicting pre-existing label, and not storing the
attribute); every other attribute is stored. -/
def Node.SetAttribute (n : Node) (k v : String) : Option Node :=
  if k == "label" && v == "entry" then
    match attrsFind n.attrs "label" with
    | some prev => if prev == "entry" then some { n with entry := true } else none
    | none => some { n with entry := true }
  else some { n with attrs := attrsSet n.attrs k v }

/-- Replace the graph's stored copy of a member node (Go: mutation of a
node object shared with the graph). -/
def Graph.updateNode (g : Graph) (n : Node) : Graph :=
  { g with
    nodeList := g.nodeList.map (fun m => if m.id == n.id then n else m),
    entry := g.entry.map (fun e => if e.id == n.id then n else e) }

/-- Modelled from the spec: the decoder's find-or-create of the node
behind a DOT identifier (create via `NewNode`/`SetDOTID`/`AddNode`). -/
def dotNode (g : Graph) (idStr : String) : Option (Graph × Node) :=
  match g.nodeList.find? (fun m => m.name == idStr) with
  | some n => some (g, n)
  | none =>
    let n : Node := { id := g.freshId, name := idStr }
    (g.AddNode n).map (fun g2 => (g2, n))

/-- Apply node attributes in statement order through `SetAttribute`,
reflecting each mutation into the graph. -/
def applyNodeAttrs (g : Graph) (n : Node) : List (String × String) → Option (Graph × Node)
  | [] => some (g, n)
  | (k, v) :: rest =>
    match n.SetAttribute k v with
    | none => none
    | some n2 => applyNodeAttrs (g.updateNode n2) n2 rest

/-- Modelled from the spec: decoding of a single DOT statement. -/
def unmarshalStmt (g : Graph) : Stmt → Option Graph
  | Stmt.node i as => do
    let gn ← dotNode g i
    let gn2 ← applyNodeAttrs gn.fst gn.snd as
    some gn2.fst
  | Stmt.edge s d as => do
    let gs ← dotNode g s
    let gd ← dotNode gs.fst d
    let e0 := gd.fst.NewEdge gs.snd gd.snd
    let e := as.foldl (fun e p => { e with attrs := attrsSet e.attrs p.fst p.snd }) e0
    gd.fst.SetEdge e

/-- Modelled from the spec: gonum `dot.Unmarshal` into a fresh graph. -/
def unmarshalFile (f : DotFile) : Option Graph :=
  f.stmts.foldlM unmarshalStmt { NewGraph with id := f.name }

/-- Result of decoding: `ok`, a returned (recoverable) error, or a panic
(fatal to the process). -/
inductive PResult (α : Type) where
  | ok : α → PResult α
  | err : String → PResult α
  | fatal : String → PResult α
deriving Repr, DecidableEq

/-- One step of the entry scan of `ParseBytes`. -/
def entryScanStep (acc : Graph) (n : Node) : Option Graph :=
  if n.entry then
    match acc.entry with
    | some e =>
      if e.id == n.id then some { acc with entry := some n } else none
    | none => some { acc with entry := some n }
  else some acc

/-- The entry scan of `ParseBytes`: adopt each entry-flagged node as the
graph entry, panicking on two distinct flagged nodes. -/
def entryScan (g : Graph) : Option Graph :=
  g.nodeList.foldlM entryScanStep g

/-- Go `cfg.ParseBytes` on an already-lexed DOT file: unmarshal, rebuild
the name index, scan for entry-flagged nodes, and otherwise fall back to
the node literally named `"0"` (quotes included) — panicking when neither
exists. -/
def ParseBytes (f : DotFile) : PResult Graph :=
  match unmarshalFile f with
  | none => PResult.fatal "panic while unmarshalling DOT statements"
  | some g =>
    match g.initNodes with
    | none => PResult.fatal "invalid node"
    | some g1 =>
      match entryScan g1 with
      | none => PResult.fatal "entry node already set in graph"
      | some g2 =>
        match g2.entry with
        | some _ => PResult.ok g2
        | none =>
          match g2.NodeWithName "\"0\"" with
          | none => PResult.fatal "unable to locate entry node or node with name \"0\""
          | some n =>
            match g2.SetEntry n with
            | none => PResult.fatal "entry node already present"
            | some g3 => PResult.ok g3

/-! ### Structural equality of graphs (the round-trip contract's notion:
same node names with the same attributes, same edges by endpoint names
with the same attributes, same entry node name). -/

/-- Attributes in canonical (key-sorted) order. -/
def sortAttrs (a : Attrs) : Attrs := List.insertionSort fstLe a

/-- The name stored for a node id. -/
def nameOf (g : Graph) (nid : Nat) : String :=
  match g.findById nid with
  | some n => n.name
  | none => ""

/-- Node names with their attributes, in name order. -/
def nodeSummary (g : Graph) : List (String × Attrs) :=
  List.insertionSort fstLe (g.nodeList.map (fun n => (n.name, sortAttrs n.attrs)))

def edgeNameLe (p q : (String × String) × Attrs) : Prop :=
  strLtB p.fst.fst q.fst.fst = true ∨ (p.fst.fst = q.fst.fst ∧ strLeP p.fst.snd q.fst.snd)

instance : DecidableRel edgeNameLe := fun p q => by unfold edgeNameLe; infer_instance

/-- Edges by endpoint names with their attributes, in endpoint order. -/
def edgeSummary (g : Graph) : List ((String × String) × Attrs) :=
  List.insertionSort edgeNameLe
    (g.edges.map (fun e => ((nameOf g e.src.id, nameOf g e.dst.id), sortAttrs e.attrs)))

/-- The entry node's name, when an entry is set. -/
def entryName (g : Graph) : Option String := g.entry.map (fun e => e.name)

/-- Structural equality of two graphs. -/
def structEq (g1 g2 : Graph) : Bool :=
  nodeSummary g1 == nodeSummary g2 && edgeSummary g1 == edgeSummary g2
    && entryName g1 == entryName g2

/-! ### Traversal engine (Go `util.go`) -/

/-- Longest prefix of characters whose digit-ness equals `d`, with the
rest. -/
def takeRun (d : Bool) : List Char → List Char × List Char
  | [] => ([], [])
  | c :: cs =>
    if c.isDigit == d then
      let r := takeRun d cs
      (c :: r.fst, r.snd)
    else ([], c :: cs)

/-- Split a string into alternating digit/non-digit runs. -/
def runsAux : Nat → List Char → List (Bool × String)
  | 0, _ => []
  | _, [] => []
  | fuel + 1, c :: cs =>
    let d := c.isDigit
    let r := takeRun d (c :: cs)
    (d, String.mk r.fst) :: runsAux fuel r.snd

/-- The digit/non-digit runs of a string. -/
def runs (s : String) : List (Bool × String) := runsAux s.length s.toList

/-- Numeric value of a digit run. -/
def digitsVal (s : String) : Nat :=
  s.toList.foldl (fun a c => a * 10 + (c.toNat - 48)) 0

/-- Comparison of two runs: digit runs numerically (ties lexically),
anything else lexically. -/
def chunkLess (a b : Bool × String) : Bool :=
  match a.fst, b.fst with
  | true, true =>
    let x := digitsVal a.snd
    let y := digitsVal b.snd
    decide (x < y) || (x == y && strLtB a.snd b.snd)
  | _, _ => strLtB a.snd b.snd

/-- Chunkwise natural comparison. -/
def natLessChunks : List (Bool × String) → List (Bool × String) → Bool
  | [], [] => false
  | [], _ :: _ => true
  | _ :: _, [] => false
  | x :: xs, y :: ys => if x == y then natLessChunks xs ys else chunkLess x y

/-- Modelled from the spec: `natsort.Less`, the natural (numeric-aware)
lexical order on strings. -/
def natLess (a b : String) : Bool := natLessChunks (runs a) (runs b)

def natNameLe (a c : Node) : Prop := natLess c.name a.name = false

instance : DecidableRel natNameLe := fun a c => instDecidableEqBool _ _

/-- Go `sortByDOTID`: nodes ordered by the natural order of their DOT
IDs (all nodes here carry DOT IDs). -/
def sortByDOTID (ns : List Node) : List Node :=
  List.insertionSort natNameLe ns

/-- State of the DFS walk: the graph being annotated, the visited set,
and the running pre / reverse-post counters. -/
structure DfsSt where
  g : Graph
  visited : List Nat
  first : Int
  last : Int
deriving Repr

/-- Write a node's pre-order number (mutation of the shared object). -/
def setPre (g : Graph) (nid : Nat) (v : Int) : Graph :=
  { g with
    nodeList := g.nodeList.map (fun m => if m.id == nid then { m with pre := v } else m),
    entry := g.entry.map (fun e => if e.id == nid then { e with pre := v } else e) }

/-- Write a node's reverse-post-order number. -/
def setRevPost (g : Graph) (nid : Nat) (v : Int) : Graph :=
  { g with
    nodeList := g.nodeList.map (fun m => if m.id == nid then { m with revPost := v } else m),
    entry := g.entry.map (fun e => if e.id == nid then { e with revPost := v } else e) }

mutual

/-- Go `walk` in `InitDFSOrder` (fuelled; the source's recursion always
terminates because every call is on an unvisited node — proved below):
assign the pre number, mark visited, walk unvisited successors in
natural-DOTID order, then assign the reverse-post number. -/
def walkF : Nat → DfsSt → Nat → Option DfsSt
  | 0, _, _ => none
  | fuel + 1, st, nid =>
    let st1 : DfsSt :=
      { st with
        g := setPre st.g nid st.first,
        first := st.first + 1,
        visited := nid :: st.visited }
    match walkSuccs fuel (sortByDOTID (st1.g.From nid)) st1 with
    | none => none
    | some st2 =>
      some { st2 with g := setRevPost st2.g nid st2.last, last := st2.last - 1 }
termination_by fuel _ _ => (fuel, 0)

/-- The loop over a node list that walks each not-yet-visited node (both
the successor loop and the second pass of `InitDFSOrder` have this
shape). -/
def walkSuccs : Nat → List Node → DfsSt → Option DfsSt
  | _, [], st => some st
  | fuel, m :: ms, st =>
    if st.visited.contains m.id then walkSuccs fuel ms st
    else
      match walkF fuel st m.id with
      | none => none
      | some st2 => walkSuccs fuel ms st2
termination_by fuel ms _ => (fuel, ms.length + 1)

end

/-- Go `InitDFSOrder`: walk from the entry node (panicking when unset),
then walk every remaining unvisited node in natural-DOTID order. -/
def InitDFSOrder (g : Graph) : Option Graph :=
  match g.entry with
  | none => none
  | some e =>
    let n := g.nodeList.length
    let st0 : DfsSt := { g := g, visited := [], first := 0, last := Int.ofNat n - 1 }
    match walkF (n + 1) st0 e.id with
    | none => none
    | some st1 =>
      match walkSuccs (n + 1) (sortByDOTID st1.g.nodeList) st1 with
      | none => none
      | some st2 => some st2.g

/-! ### Copy and merge engines -/

/-- Go `cfg.Copy(dst, src)`: copy the graph id, add every source node,
then every source edge, and rebuild the name index. -/
def Copy (dst src : Graph) : Option Graph := do
  let g0 : Graph := { dst with id := src.id }
  let g1 ← src.nodeList.foldlM (fun g n => g.AddNode n) g0
  let g2 ← src.nodeList.foldlM
    (fun g u =>
      (src.From u.id).foldlM
        (fun g v =>
          match src.edgeBetween u.id v.id with
          | some e => g.SetEdge e
          | none => none)
        g)
    g1
  g2.initNodes

/-- Accumulator of the merge loop: the working graph, the recorded
external predecessors with their incoming-edge attributes (last writer
wins), the recorded external successors, and whether a collapsed node was
the entry. -/
structure MergeSt where
  g : Graph
  preds : List (Nat × Attrs)
  succs : List Nat
  isEntry : Bool

/-- Go `preds[p] = attrs` (upsert keyed by the predecessor). -/
def predsUpsert (ps : List (Nat × Attrs)) (pid : Nat) (a : Attrs) : List (Nat × Attrs) :=
  if ps.any (fun q => q.fst == pid) then
    ps.map (fun q => if q.fst == pid then (pid, a) else q)
  else ps ++ [(pid, a)]

/-- Go `succs[s] = true` (set insertion). -/
def succsAdd (ss : List Nat) (sid : Nat) : List Nat :=
  if ss.contains sid then ss else ss ++ [sid]

/-- One iteration of the merge loop over a collapsed node name: look the
node up (panicking when absent), inherit its entry flag, record external
predecessors with their incoming attributes and external successors, and
remove the node. -/
def mergeStep (delNames : List String) (st : MergeSt) (delName : String) : Option MergeSt := do
  let delNode ← st.g.NodeWithName delName
  let isEntry := st.isEntry || delNode.entry
  let preds ← (st.g.To delNode.id).foldlM
    (fun ps p =>
      if delNames.contains p.name then some ps
      else do
        let pn ← st.g.NodeWithName p.name
        let e ← st.g.edgeBetween p.id delNode.id
        some (predsUpsert ps pn.id e.attrs))
    st.preds
  let succs ← (st.g.From delNode.id).foldlM
    (fun ss s =>
      if delNames.contains s.name then some ss
      else do
        let sn ← st.g.NodeWithName s.name
        some (succsAdd ss sn.id))
    st.succs
  some { g := st.g.RemoveNode delNode, preds := preds, succs := succs, isEntry := isEntry }

/-- Go `cfg.Merge(src, delNodes, newName)`: clone the source, create the
new node, process every collapsed name, add the new node only after all
removals, then materialize one attributed edge from every recorded
predecessor and one attribute-less edge to every recorded successor.
The Go iteration order over the `delNodes` set is a list here. -/
def Merge (src : Graph) (delNames : List String) (newName : String) : Option Graph := do
  let dst ← Copy NewGraph src
  let newNode0 ← dst.NewNodeWithName newName
  let st ← delNames.foldlM (mergeStep delNames)
    { g := dst, preds := [], succs := [], isEntry := false }
  let newNode : Node := { newNode0 with entry := st.isEntry }
  let g1 ← st.g.AddNode newNode
  let g2 ← st.preds.foldlM
    (fun g pa => do
      let p ← g.findById pa.fst
      g.SetEdge { src := p, dst := newNode, attrs := pa.snd })
    g1
  let g3 ← st.succs.foldlM
    (fun g sid => do
      let s ← g.findById sid
      g.SetEdge (g.NewEdge newNode s))
    g2
  some g3

/-! ### Views used to state the traversal theorem -/

/-- The internal ids of a graph's nodes. -/
def gIds (g : Graph) : List Nat := g.nodeList.map Node.id

/-- How many nodes of the graph a DFS state has not visited yet. -/
def unvisitedCount (st : DfsSt) : Nat :=
  ((gIds st.g).filter (fun i => !(st.visited.contains i))).length

/-- The pre-order number stored for a node id. -/
def preOf (g : Graph) (i : Nat) : Int :=
  match g.findById i with
  | some n => n.pre
  | none => 0

/-- The reverse-post-order number stored for a node id. -/
def revPostOf (g : Graph) (i : Nat) : Int :=
  match g.findById i with
  | some n => n.revPost
  | none => 0

/-- A node with its traversal numbers blanked (for stating that a
traversal changes nothing else). -/
def eraseOrd (n : Node) : Node := { n with pre := 0, revPost := 0 }

/-- A graph with all traversal numbers blanked. -/
def skel (g : Graph) : Graph :=
  { g with nodeList := g.nodeList.map eraseOrd, entry := g.entry.map eraseOrd }

/-- The list `[a, a+1, ..., a+k-1]` of integers. -/
def intRange (a : Int) (k : Nat) : List Int :=
  (List.range k).map (fun j : Nat => a + (j : Int))

/-- What one complete walk (or sequence of walks) from state `st` to
state `st2` does, `S` being the newly visited ids: it visits exactly
`S` (fresh nodes of the graph), changes nothing but the pre/rev-post
numbers of `S`, advances the counters by `S.length`, and assigns the
pre numbers `st.first ..` and the rev-post numbers `.. st.last`
exactly once each. -/
structure WalkOut (st st2 : DfsSt) (S : List Nat) : Prop where
  vis : st2.visited = S ++ st.visited
  nodup : S.Nodup
  fresh : ∀ i, i ∈ S → i ∈ gIds st.g ∧ ¬ i ∈ st.visited
  skelEq : skel st2.g = skel st.g
  firstEq : st2.first = st.first + S.length
  lastEq : st2.last = st.last - S.length
  outside : ∀ i, ¬ i ∈ S → st2.g.findById i = st.g.findById i
  preVals : (S.map (preOf st2.g)).Perm (intRange st.first S.length)
  revVals : (S.map (revPostOf st2.g)).Perm (intRange (st.last - S.length + 1) S.length)

/-! ### Concrete graphs used by witnesses and counterexamples -/

/-- A two-way branch built through the construction API: entry `a` with a
true-edge to `b` and a false-edge to `c`. -/
def branchGraph : Graph :=
  (do
    let g := NewGraph
    let a ← g.NewNodeWithName "a"
    let g ← g.AddNode a
    let g ← g.SetEntry a
    let b ← g.NewNodeWithName "b"
    let g ← g.AddNode b
    let c ← g.NewNodeWithName "c"
    let g ← g.AddNode c
    let g ← edgeWithLabel g a b "true"
    edgeWithLabel g a c "false").getD NewGraph

/-- A two-way branch whose two outgoing edges carry labels `x` and `y`
(not the true/false pair). -/
def ambiguousGraph : Graph :=
  (do
    let g := NewGraph
    let a ← g.NewNodeWithName "a"
    let g ← g.AddNode a
    let g ← g.SetEntry a
    let b ← g.NewNodeWithName "b"
    let g ← g.AddNode b
    let c ← g.NewNodeWithName "c"
    let g ← g.AddNode c
    let g ← edgeWithLabel g a b "x"
    edgeWithLabel g a c "y").getD NewGraph

/-- A graph with entry node `a` (and a second node `b`), built through the
construction API. -/
def entryGraph : Graph :=
  (do
    let g := NewGraph
    let a ← g.NewNodeWithName "a"
    let g ← g.AddNode a
    let g ← g.SetEntry a
    let b ← g.NewNodeWithName "b"
    g.AddNode b).getD NewGraph

/-- The construction-API state refuting the no-op half of the
remove-node claim: graph `g` whose entry is `k` (id 1), and the
entry-flagged node object `n` (id 0) that was removed from `g` earlier
(so `n` is no longer a member while its entry flag is still set). -/
def removedEntryState : Option (Graph × Node) := do
  let g := NewGraph
  let n ← g.NewNodeWithName "n"
  let g ← g.AddNode n
  let k ← g.NewNodeWithName "k"
  let g ← g.AddNode k
  let g ← g.SetEntry n
  let n2 ← g.findById n.id
  let g := g.RemoveNode n2
  let g ← g.SetEntry k
  some (g, n2)

/-- A graph holding a non-`label` attribute whose value contains a
space. -/
def spacedAttrGraph : Graph :=
  (do
    let g := NewGraph
    let a ← g.NewNodeWithName "n"
    g.AddNode { a with attrs := [("color", "a b")] }).getD NewGraph

/-- Two anonymous (empty-named) nodes added through `AddNode`. -/
def twoAnonGraph : Option Graph := do
  let g := NewGraph
  let g ← g.AddNode g.NewNode
  g.AddNode g.NewNode

/-- A DOT file with a single node `a`: no entry marking and no node
named `"0"`. -/
def noEntryFile : DotFile := { name := "G", stmts := [Stmt.node "a" []] }

/-- The DOT identifiers a statement mentions. -/
def stmtIds : Stmt → List String
  | Stmt.node i _ => [i]
  | Stmt.edge a b _ => [a, b]

/-- The attributes a statement applies to a node. -/
def stmtNodeAttrs : Stmt → List (String × String)
  | Stmt.node _ as => as
  | Stmt.edge _ _ _ => []

/-- All DOT identifiers a file mentions. -/
def dotFileIds (f : DotFile) : List String := (f.stmts.map stmtIds).join

/-- A DOT file with no entry marking whose statements mention a node
literally named `"0"` (quotes included). -/
def c4okFile : DotFile :=
  { name := "G", stmts := [Stmt.node "\"0\"" [], Stmt.node "a" [("color", "red")]] }

/-- The graph `c4okFile` decodes to. -/
def c4okGraph : Graph :=
  match ParseBytes c4okFile with
  | PResult.ok g => g
  | _ => NewGraph

/-- Strict order on nodes by internal id. -/
def nodeIdLt (a c : Node) : Prop := a.id < c.id

/-- Strict order on edges by (source id, destination id). -/
def edgeIdLt (e f : Edge) : Prop :=
  e.src.id < f.src.id ∨ (e.src.id = f.src.id ∧ e.dst.id < f.dst.id)

instance : DecidableRel nodeIdLt := fun a c => Nat.decLt a.id c.id

instance : DecidableRel edgeIdLt := fun e f => by unfold edgeIdLt; infer_instance

/-- The identifying key of an edge in the graph engine. -/
def edgeKey (e : Edge) : Nat × Nat := (e.src.id, e.dst.id)

/-- The canonical well-formedness of a graph as maintained by the
construction API and the decoder: node and edge lists strictly sorted
(hence duplicate-free), names nonempty and unique, edge endpoints
member ids, no self edges, the entry pointer consistent with the entry
flags, and the name index enumerating the node set. -/
structure GoodGraph (g : Graph) : Prop where
  nodesSorted : g.nodeList.Pairwise nodeIdLt
  edgesSorted : g.edges.Pairwise edgeIdLt
  namesNe : ∀ n, n ∈ g.nodeList → ¬ n.name = ""
  namesNodup : (g.nodeList.map Node.name).Nodup
  edgeSrcMem : ∀ e, e ∈ g.edges → e.src.id ∈ gIds g
  edgeDstMem : ∀ e, e ∈ g.edges → e.dst.id ∈ gIds g
  edgeNoSelf : ∀ e, e ∈ g.edges → ¬ e.src.id = e.dst.id
  entryMem : ∀ e, g.entry = some e → e ∈ g.nodeList ∧ e.entry = true
  entryFlag : ∀ n, n ∈ g.nodeList → n.entry = true → g.entry = some n
  idxEq : g.index = g.nodeList.map (fun n => (n.name, n.id))

/-- A recorded predecessor entry is justified: an external node with
that id having an edge (with the recorded attributes) into a collapsed
(`D2`-named) node. -/
def PredWitness (src : Graph) (delNames D2 : List String) (pa : Nat × Attrs) : Prop :=
  ∃ p, p ∈ src.nodeList ∧ p.id = pa.fst ∧ ¬ delNames.contains p.name = true
    ∧ ∃ d e0, d ∈ src.nodeList ∧ D2.contains d.name = true ∧ e0 ∈ src.edges
      ∧ e0.src.id = p.id ∧ e0.dst.id = d.id ∧ e0.attrs = pa.snd

/-- A recorded successor id is justified: an external node with that id
having an incoming edge from a collapsed (`D2`-named) node. -/
def SuccWitness (src : Graph) (delNames D2 : List String) (sid : Nat) : Prop :=
  ∃ s, s ∈ src.nodeList ∧ s.id = sid ∧ ¬ delNames.contains s.name = true
    ∧ ∃ d e0, d ∈ src.nodeList ∧ D2.contains d.name = true ∧ e0 ∈ src.edges
      ∧ e0.src.id = d.id ∧ e0.dst.id = sid

/-- Invariant of the merge loop after processing the prefix `D` of the
collapsed names: the working graph is the source with the `D`-named
nodes (and every edge touching them, their index entries, and the entry
pointer when collapsed) removed, the inherited entry flag is the OR of
the collapsed flags, and the recorded predecessors/successors are
exactly the external neighbours of `D`-nodes (predecessors with the
attributes of one of their collapsed incoming edges). -/
structure MergeInv (src : Graph) (delNames : List String) (D : List String)
    (st : MergeSt) : Prop where
  gid : st.g.id = src.id
  gn : st.g.nodeList = src.nodeList.filter (fun n => !(D.contains n.name))
  ge : st.g.edges = src.edges.filter
      (fun e => !(src.nodeList.any (fun n => n.id == e.src.id && D.contains n.name))
        && !(src.nodeList.any (fun n => n.id == e.dst.id && D.contains n.name)))
  gi : st.g.index = src.index.filter (fun p => !(D.contains p.fst))
  gent : st.g.entry = src.entry.bind
      (fun e => if D.contains e.name = true then none else some e)
  ient : st.isEntry = src.nodeList.any (fun n => D.contains n.name && n.entry)
  pSound : ∀ pa, pa ∈ st.preds → PredWitness src delNames D pa
  pComplete : ∀ p d e0, p ∈ src.nodeList → ¬ delNames.contains p.name = true →
      d ∈ src.nodeList → D.contains d.name = true → e0 ∈ src.edges →
      e0.src.id = p.id → e0.dst.id = d.id → ∃ a, (p.id, a) ∈ st.preds
  pNodup : (st.preds.map Prod.fst).Nodup
  sSound : ∀ sid, sid ∈ st.succs → SuccWitness src delNames D sid
  sComplete : ∀ s d e0, s ∈ src.nodeList → ¬ delNames.contains s.name = true →
      d ∈ src.nodeList → D.contains d.name = true → e0 ∈ src.edges →
      e0.src.id = d.id → e0.dst.id = s.id → s.id ∈ st.succs
  sNodup : st.succs.Nodup

/-- Entry node of the merge witness graph. -/
def mrgNodeA : Node := { id := 0, name := "a", entry := true }

/-- Collapsed node `b` of the merge witness graph. -/
def mrgNodeB : Node := { id := 1, name := "b" }

/-- Collapsed node `c` of the merge witness graph. -/
def mrgNodeC : Node := { id := 2, name := "c" }

/-- External node `d` of the merge witness graph. -/
def mrgNodeD : Node := { id := 3, name := "d" }

/-- Merge witness graph: entry `a`, edges `a -> b` (labelled),
`b -> c` (internal once `b,c` collapse), `c -> d` and `d -> b`. -/
def mrgGraph : Graph :=
  { id := "G",
    nodeList := [mrgNodeA, mrgNodeB, mrgNodeC, mrgNodeD],
    edges :=
      [{ src := mrgNodeA, dst := mrgNodeB, attrs := [("label", "x")] },
       { src := mrgNodeB, dst := mrgNodeC },
       { src := mrgNodeC, dst := mrgNodeD },
       { src := mrgNodeD, dst := mrgNodeB }],
    entry := some mrgNodeA,
    index := [("a", 0), ("b", 1), ("c", 2), ("d", 3)] }

/-- Entry node of the traversal witness graph. -/
def dfsWitNodeA : Node := { id := 0, name := "a", entry := true }

/-- Reachable node of the traversal witness graph. -/
def dfsWitNodeB : Node := { id := 1, name := "b" }

/-- Unreachable node of the traversal witness graph (picked up by the
second pass of `InitDFSOrder`). -/
def dfsWitNodeC : Node := { id := 2, name := "c" }

/-- A graph with entry `a`, edge `a -> b`, and an unreachable node `c`,
exercising both passes of the traversal. -/
def dfsWitGraph : Graph :=
  { id := "G",
    nodeList := [dfsWitNodeA, dfsWitNodeB, dfsWitNodeC],
    edges := [{ src := dfsWitNodeA, dst := dfsWitNodeB }],
    entry := some dfsWitNodeA,
    index := [("a", 0), ("b", 1), ("c", 2)] }

/-- Invariant of the decoder while unmarshalling a file with no
`label="entry"` node marking, over the set `S` of mentioned DOT
identifiers: no node is entry-flagged, the entry pointer is unset, node
names come from `S`, node ids are distinct, and the name index is
consistent with the node set. -/
structure DecodeInv (S : List String) (g : Graph) : Prop where
  flags : ∀ n, n ∈ g.nodeList → n.entry = false
  entryNone : g.entry = none
  names : ∀ n, n ∈ g.nodeList → n.name ∈ S
  idsNodup : (g.nodeList.map Node.id).Nodup
  idxOk : ∀ p, p ∈ g.index → ∃ n, n ∈ g.nodeList ∧ n.name = p.fst ∧ n.id = p.snd

/-! ## Helper lemmas -/

theorem foldl_max_le : ∀ (l : List Node) (a : Nat), a ≤ l.foldl (fun a m => max a (m.id + 1)) a
  | [], _ => Nat.le_refl _
  | x :: xs, a =>
    Nat.le_trans (Nat.le_max_left a (x.id + 1)) (foldl_max_le xs (max a (x.id + 1)))

theorem freshId_gt (g : Graph) : ∀ m, m ∈ g.nodeList → m.id < g.freshId := by
  unfold Graph.freshId
  suffices h : ∀ (l : List Node) (a : Nat), ∀ m, m ∈ l → m.id < l.foldl (fun a m => max a (m.id + 1)) a by
    intro m hm
    exact h g.nodeList 0 m hm
  intro l
  induction l with
  | nil => intro a m hm; cases hm
  | cons x xs ih =>
    intro a m hm
    cases hm with
    | head =>
      have hbase : x.id < max a (x.id + 1) := Nat.lt_of_lt_of_le (Nat.lt_succ_self _) (Nat.le_max_right _ _)
      exact Nat.lt_of_lt_of_le hbase (foldl_max_le xs _)
    | tail _ hm2 => exact ih _ m hm2

theorem freshId_not_has (g : Graph) : g.has g.freshId = false := by
  unfold Graph.has
  rw [List.any_eq_false]
  intro m hm
  simp only [beq_iff_eq]
  exact Nat.ne_of_lt (freshId_gt g m hm)

theorem nodup_id_inj (g : Graph) (hnd : (g.nodeList.map Node.id).Nodup)
    (m n : Node) (hm : m ∈ g.nodeList) (hn : n ∈ g.nodeList) (h : m.id = n.id) : m = n := by
  exact List.inj_on_of_nodup_map hnd hm hn h

theorem findById_of_mem (g : Graph) (hnd : (g.nodeList.map Node.id).Nodup)
    (n : Node) (hn : n ∈ g.nodeList) : g.findById n.id = some n := by
  unfold Graph.findById
  rcases hf : g.nodeList.find? (fun m => m.id == n.id) with _ | m
  · exfalso
    rw [List.find?_eq_none] at hf
    exact absurd (by simp : ((fun m : Node => m.id == n.id) n) = true) (by simpa using hf n hn)
  · have hmem := List.mem_of_find?_eq_some hf
    have hid : m.id = n.id := by simpa using List.find?_some hf
    rw [hf, nodup_id_inj g hnd m n hmem hn hid]

theorem mem_indexSet (ix : List (String × Nat)) (k : String) (v : Nat)
    (p : String × Nat) (hp : p ∈ indexSet ix k v) : p = (k, v) ∨ p ∈ ix := by
  unfold indexSet at hp
  by_cases hc : ix.any (fun q => q.fst == k) = true
  · rw [if_pos hc] at hp
    rw [List.mem_map] at hp
    obtain ⟨q, hq, heq⟩ := hp
    by_cases hqk : q.fst == k
    · rw [if_pos hqk] at heq
      exact Or.inl heq.symm
    · rw [if_neg hqk] at heq
      exact Or.inr (heq ▸ hq)
  · rw [if_neg hc] at hp
    rcases List.mem_append.mp hp with h | h
    · exact Or.inr h
    · exact Or.inl (by simpa using h)

theorem AddNode_decodeInv (S : List String) (g : Graph) (n : Node) (g2 : Graph)
    (hinv : DecodeInv S g) (hent : n.entry = false) (hname : n.name ∈ S)
    (h : g.AddNode n = some g2) :
    DecodeInv S g2 ∧ n ∈ g2.nodeList ∧ g2.nodeList = insertNodeSorted n g.nodeList
      ∧ g2.entry = g.entry ∧ g2.edges = g.edges := by
  unfold Graph.AddNode at h
  by_cases hhas : g.has n.id = true
  · rw [if_pos hhas] at h
    exact absurd h (by simp)
  · rw [if_neg hhas] at h
    simp only [hent, Bool.false_eq_true, if_false] at h
    have hids : ∀ m, m ∈ g.nodeList → ¬ m.id = n.id := by
      intro m hm heq
      apply hhas
      unfold Graph.has
      rw [List.any_eq_true]
      exact ⟨m, hm, by simp [heq]⟩
    have hmemIff : ∀ m : Node, m ∈ insertNodeSorted n g.nodeList ↔ m = n ∨ m ∈ g.nodeList := by
      intro m
      unfold insertNodeSorted
      exact List.mem_orderedInsert nodeIdLe
    have hperm : (insertNodeSorted n g.nodeList).Perm (n :: g.nodeList) :=
      List.perm_orderedInsert nodeIdLe n g.nodeList
    have hmain : ∀ ix2 : List (String × Nat),
        (∀ p, p ∈ ix2 → p = (n.name, n.id) ∨ p ∈ g.index) →
        DecodeInv S { g with nodeList := insertNodeSorted n g.nodeList, index := ix2 } := by
      intro ix2 hix2
      refine ⟨?_, ?_, ?_, ?_, ?_⟩
      · intro m hm
        rcases (hmemIff m).mp hm with h2 | h2
        · rw [h2]; exact hent
        · exact hinv.flags m h2
      · exact hinv.entryNone
      · intro m hm
        rcases (hmemIff m).mp hm with h2 | h2
        · rw [h2]; exact hname
        · exact hinv.names m h2
      · rw [(hperm.map Node.id).nodup_iff]
        refine List.nodup_cons.mpr ⟨?_, hinv.idsNodup⟩
        intro hc
        rw [List.mem_map] at hc
        obtain ⟨m, hm, hmid⟩ := hc
        exact hids m hm hmid
      · intro p hp
        rcases hix2 p hp with h2 | h2
        · refine ⟨n, (hmemIff n).mpr (Or.inl rfl), ?_, ?_⟩
          · rw [h2]
          · rw [h2]
        · obtain ⟨m, hm, hn1, hn2⟩ := hinv.idxOk p h2
          exact ⟨m, (hmemIff m).mpr (Or.inr hm), hn1, hn2⟩
    by_cases hnm : (n.name == "") = true
    · rw [if_pos hnm] at h
      rw [Option.some_inj] at h
      subst h
      refine ⟨?_, (hmemIff n).mpr (Or.inl rfl), rfl, rfl, rfl⟩
      exact hmain g.index (fun p hp => Or.inr hp)
    · rw [if_neg hnm] at h
      rcases hlk : indexLookup g.index n.name with _ | pid
      · rw [hlk] at h
        rw [Option.some_inj] at h
        subst h
        refine ⟨?_, (hmemIff n).mpr (Or.inl rfl), rfl, rfl, rfl⟩
        exact hmain _ (fun p hp => mem_indexSet _ _ _ p hp)
      · rw [hlk] at h
        dsimp only at h
        by_cases hpid : (pid == n.id) = true
        · rw [if_pos hpid] at h
          rw [Option.some_inj] at h
          subst h
          refine ⟨?_, (hmemIff n).mpr (Or.inl rfl), rfl, rfl, rfl⟩
          exact hmain _ (fun p hp => mem_indexSet _ _ _ p hp)
        · rw [if_neg hpid] at h
          exact absurd h (by simp)

theorem dotNode_decodeInv (S : List String) (g : Graph) (idStr : String)
    (g2 : Graph) (n : Node)
    (hinv : DecodeInv S g) (hid : idStr ∈ S)
    (h : dotNode g idStr = some (g2, n)) :
    DecodeInv S g2 ∧ n ∈ g2.nodeList ∧ n.name = idStr ∧ n.entry = false
      ∧ (∀ m, m ∈ g.nodeList → m ∈ g2.nodeList) := by
  unfold dotNode at h
  rcases hf : g.nodeList.find? (fun m => m.name == idStr) with _ | m
  · rw [hf] at h
    dsimp only at h
    rcases hA : g.AddNode { id := g.freshId, name := idStr } with _ | gA
    · rw [hA] at h
      exact absurd h (by simp)
    · rw [hA] at h
      simp only [Option.map] at h
      rw [Option.some_inj] at h
      have hg2 : g2 = gA := congrArg Prod.fst h.symm
      have hn : n = { id := g.freshId, name := idStr } := congrArg Prod.snd h.symm
      subst hg2
      subst hn
      obtain ⟨hinv2, hmem, hlist, hent, hedg⟩ :=
        AddNode_decodeInv S g { id := g.freshId, name := idStr } g2 hinv rfl hid hA
      refine ⟨hinv2, hmem, rfl, rfl, ?_⟩
      intro m hm
      rw [hlist]
      unfold insertNodeSorted
      exact (List.mem_orderedInsert nodeIdLe).mpr (Or.inr hm)
  · rw [hf] at h
    dsimp only at h
    rw [Option.some_inj] at h
    have hg2 : g2 = g := congrArg Prod.fst h.symm
    have hn : n = m := congrArg Prod.snd h.symm
    subst hg2
    subst hn
    have hmem := List.mem_of_find?_eq_some hf
    have hname : n.name = idStr := by simpa using List.find?_some hf
    exact ⟨hinv, hmem, hname, hinv.flags n hmem, fun m2 hm2 => hm2⟩

theorem SetAttribute_shape (n : Node) (k v : String)
    (hne : ¬(k = "label" ∧ v = "entry")) :
    n.SetAttribute k v = some { n with attrs := attrsSet n.attrs k v } := by
  unfold Node.SetAttribute
  rw [if_neg ?hc]
  case hc =>
    intro hb
    simp only [Bool.and_eq_true, beq_iff_eq] at hb
    exact hne hb

theorem updateNode_decodeInv (S : List String) (g : Graph) (n n2 : Node)
    (hinv : DecodeInv S g) (hn : n ∈ g.nodeList)
    (hid : n2.id = n.id) (hnm : n2.name = n.name) (hent : n2.entry = false) :
    DecodeInv S (g.updateNode n2) ∧ n2 ∈ (g.updateNode n2).nodeList := by
  have hids : (g.updateNode n2).nodeList.map Node.id = g.nodeList.map Node.id := by
    unfold Graph.updateNode
    simp only [List.map_map]
    apply List.map_congr_left
    intro m hm
    by_cases hc : (m.id == n2.id) = true
    · simp only [Function.comp_apply, if_pos hc]
      rw [beq_iff_eq] at hc
      exact hc.symm
    · simp only [Function.comp_apply, if_neg hc]
  have hmem2 : n2 ∈ (g.updateNode n2).nodeList := by
    unfold Graph.updateNode
    have := List.mem_map_of_mem (fun m => if (m.id == n2.id) = true then n2 else m) hn
    simpa [hid] using this
  have hmemsh : ∀ m2, m2 ∈ (g.updateNode n2).nodeList →
      m2 = n2 ∨ m2 ∈ g.nodeList := by
    intro m2 hm2
    unfold Graph.updateNode at hm2
    simp only [List.mem_map] at hm2
    obtain ⟨m, hm, hmap⟩ := hm2
    by_cases hc : (m.id == n2.id) = true
    · rw [if_pos hc] at hmap
      exact Or.inl hmap.symm
    · rw [if_neg hc] at hmap
      exact Or.inr (hmap ▸ hm)
  refine ⟨⟨?_, ?_, ?_, ?_, ?_⟩, hmem2⟩
  · intro m2 hm2
    rcases hmemsh m2 hm2 with h2 | h2
    · rw [h2]; exact hent
    · exact hinv.flags m2 h2
  · unfold Graph.updateNode
    simp [hinv.entryNone]
  · intro m2 hm2
    rcases hmemsh m2 hm2 with h2 | h2
    · rw [h2, hnm]
      exact hinv.names n hn
    · exact hinv.names m2 h2
  · rw [hids]
    exact hinv.idsNodup
  · intro p hp
    have hp2 : p ∈ g.index := hp
    obtain ⟨m, hm, h1, h2⟩ := hinv.idxOk p hp2
    by_cases hc : (m.id == n2.id) = true
    · rw [beq_iff_eq] at hc
      have hmn : m = n := nodup_id_inj g hinv.idsNodup m n hm hn (by rw [hc, hid])
      refine ⟨n2, hmem2, ?_, ?_⟩
      · rw [hnm, ← hmn, h1]
      · rw [hid, ← hmn]
        exact h2
    · refine ⟨m, ?_, h1, h2⟩
      unfold Graph.updateNode
      have hmm := List.mem_map_of_mem (fun m => if (m.id == n2.id) = true then n2 else m) hm
      dsimp only at hmm
      rw [if_neg hc] at hmm
      exact hmm

theorem applyNodeAttrs_decodeInv (S : List String) :
    ∀ (as : List (String × String)) (g : Graph) (n : Node) (out : Graph × Node),
    DecodeInv S g → n ∈ g.nodeList → n.entry = false →
    (∀ p, p ∈ as → ¬(p.fst = "label" ∧ p.snd = "entry")) →
    applyNodeAttrs g n as = some out →
    DecodeInv S out.fst
  | [], g, n, out, hinv, _, _, _, h => by
    unfold applyNodeAttrs at h
    rw [Option.some_inj] at h
    rw [← h]
    exact hinv
  | (k, v) :: rest, g, n, out, hinv, hn, hent, hmark, h => by
    unfold applyNodeAttrs at h
    rw [SetAttribute_shape n k v (hmark (k, v) (List.mem_cons_self _ _))] at h
    dsimp only at h
    obtain ⟨hinv2, hmem2⟩ := updateNode_decodeInv S g n
      { n with attrs := attrsSet n.attrs k v } hinv hn rfl rfl hent
    exact applyNodeAttrs_decodeInv S rest (g.updateNode { n with attrs := attrsSet n.attrs k v })
      { n with attrs := attrsSet n.attrs k v } out hinv2 hmem2 hent
      (fun p hp => hmark p (List.mem_cons_of_mem _ hp)) h

theorem has_of_mem (g : Graph) (m : Node) (hm : m ∈ g.nodeList) : g.has m.id = true := by
  unfold Graph.has
  rw [List.any_eq_true]
  exact ⟨m, hm, by simp⟩

theorem decodeInv_edges (S : List String) (g : Graph) (E : List Edge)
    (hinv : DecodeInv S g) : DecodeInv S { g with edges := E } :=
  ⟨hinv.flags, hinv.entryNone, hinv.names, hinv.idsNodup, hinv.idxOk⟩

theorem SetEdge_decodeInv (S : List String) (g : Graph) (e : Edge) (g2 : Graph)
    (hinv : DecodeInv S g)
    (hs : g.has e.src.id = true) (hd : g.has e.dst.id = true)
    (h : g.SetEdge e = some g2) :
    DecodeInv S g2 := by
  unfold Graph.SetEdge at h
  rw [if_pos hs] at h
  simp only [Option.bind_eq_bind, Option.some_bind] at h
  rw [if_pos hd] at h
  by_cases hself : (e.src.id == e.dst.id) = true
  · rw [if_pos hself] at h
    exact absurd h (by simp)
  · rw [if_neg hself] at h
    rw [Option.some_inj] at h
    rw [← h]
    exact decodeInv_edges S g _ hinv

theorem edgeFoldl_endpoints (as : List (String × String)) :
    ∀ (e0 : Edge),
    (as.foldl (fun e p => { e with attrs := attrsSet e.attrs p.fst p.snd }) e0).src = e0.src
    ∧ (as.foldl (fun e p => { e with attrs := attrsSet e.attrs p.fst p.snd }) e0).dst = e0.dst := by
  induction as with
  | nil => intro e0; exact ⟨rfl, rfl⟩
  | cons p rest ih =>
    intro e0
    rw [List.foldl_cons]
    exact ih { e0 with attrs := attrsSet e0.attrs p.fst p.snd }

theorem unmarshalStmt_decodeInv (S : List String) (g : Graph) (st : Stmt) (g2 : Graph)
    (hinv : DecodeInv S g)
    (hids : ∀ i, i ∈ stmtIds st → i ∈ S)
    (hmark : ∀ p, p ∈ stmtNodeAttrs st → ¬(p.fst = "label" ∧ p.snd = "entry"))
    (h : unmarshalStmt g st = some g2) :
    DecodeInv S g2 := by
  cases st with
  | node i as =>
    unfold unmarshalStmt at h
    dsimp only at h
    rcases hD : dotNode g i with _ | ⟨g1, n1⟩
    · rw [hD] at h
      exact absurd h (by simp)
    · rw [hD] at h
      simp only [Option.bind_eq_bind, Option.some_bind] at h
      obtain ⟨hinv1, hmem, hname, hent, _⟩ :=
        dotNode_decodeInv S g i g1 n1 hinv (hids i (by simp [stmtIds])) hD
      rcases hE : applyNodeAttrs g1 n1 as with _ | out
      · rw [hE] at h
        exact absurd h (by simp)
      · rw [hE] at h
        simp only [Option.bind_eq_bind, Option.some_bind, Option.some_inj] at h
        rw [← h]
        exact applyNodeAttrs_decodeInv S as g1 n1 out hinv1 hmem hent
          (fun p hp => hmark p (by simpa [stmtNodeAttrs] using hp)) hE
  | edge a b as =>
    unfold unmarshalStmt at h
    dsimp only at h
    rcases hD : dotNode g a with _ | ⟨g1, n1⟩
    · rw [hD] at h
      exact absurd h (by simp)
    · rw [hD] at h
      simp only [Option.bind_eq_bind, Option.some_bind] at h
      obtain ⟨hinv1, hmem1, _, _, _⟩ :=
        dotNode_decodeInv S g a g1 n1 hinv (hids a (by simp [stmtIds])) hD
      rcases hD2 : dotNode g1 b with _ | ⟨g2x, n2⟩
      · rw [hD2] at h
        exact absurd h (by simp)
      · rw [hD2] at h
        simp only [Option.bind_eq_bind, Option.some_bind] at h
        obtain ⟨hinv2, hmem2, _, _, hmono⟩ :=
          dotNode_decodeInv S g1 b g2x n2 hinv1 (hids b (by simp [stmtIds])) hD2
        have hends := edgeFoldl_endpoints as (g2x.NewEdge n1 n2)
        apply SetEdge_decodeInv S g2x _ g2 hinv2 ?_ ?_ h
        · rw [hends.1]
          exact has_of_mem g2x n1 (hmono n1 hmem1)
        · rw [hends.2]
          exact has_of_mem g2x n2 hmem2

theorem unmarshalFold_decodeInv (S : List String) :
    ∀ (stmts : List Stmt) (g g2 : Graph),
    DecodeInv S g →
    (∀ st, st ∈ stmts →
      (∀ i, i ∈ stmtIds st → i ∈ S)
        ∧ (∀ p, p ∈ stmtNodeAttrs st → ¬(p.fst = "label" ∧ p.snd = "entry"))) →
    stmts.foldlM unmarshalStmt g = some g2 → DecodeInv S g2
  | [], g, g2, hinv, _, h => by
    rw [List.foldlM_nil] at h
    injection h with h
    rw [← h]
    exact hinv
  | st :: rest, g, g2, hinv, hst, h => by
    rw [List.foldlM_cons] at h
    rcases hS : unmarshalStmt g st with _ | gmid
    · rw [hS] at h
      exact absurd h (by simp)
    · rw [hS] at h
      simp only [Option.bind_eq_bind, Option.some_bind] at h
      have h1 := hst st (List.mem_cons_self _ _)
      have hinvMid := unmarshalStmt_decodeInv S g st gmid hinv h1.1 h1.2 hS
      exact unmarshalFold_decodeInv S rest gmid g2 hinvMid
        (fun st2 hst2 => hst st2 (List.mem_cons_of_mem _ hst2)) h

theorem unmarshalFile_decodeInv (f : DotFile) (g : Graph)
    (hmark : ∀ st, st ∈ f.stmts →
      ∀ p, p ∈ stmtNodeAttrs st → ¬(p.fst = "label" ∧ p.snd = "entry"))
    (h : unmarshalFile f = some g) :
    DecodeInv (dotFileIds f) g := by
  apply unmarshalFold_decodeInv (dotFileIds f) f.stmts { NewGraph with id := f.name } g ?_ ?_ h
  · refine ⟨?_, rfl, ?_, ?_, ?_⟩
    · intro n hn
      exact absurd hn (List.not_mem_nil n)
    · intro n hn
      exact absurd hn (List.not_mem_nil n)
    · exact List.nodup_nil
    · intro p hp
      exact absurd hp (List.not_mem_nil p)
  · intro st hst
    refine ⟨?_, hmark st hst⟩
    intro i hi
    unfold dotFileIds
    rw [List.mem_join]
    exact ⟨stmtIds st, List.mem_map_of_mem stmtIds hst, hi⟩

theorem initNodesFold_decodeInv (S : List String) :
    ∀ (l : List Node) (acc g2 : Graph),
    DecodeInv S acc → (∀ n, n ∈ l → n ∈ acc.nodeList) →
    l.foldlM initNodesStep acc = some g2 →
    DecodeInv S g2 ∧ g2.nodeList = acc.nodeList ∧ g2.entry = acc.entry
  | [], acc, g2, hinv, _, h => by
    rw [List.foldlM_nil] at h
    injection h with h
    rw [← h]
    exact ⟨hinv, rfl, rfl⟩
  | n :: rest, acc, g2, hinv, hl, h => by
    rw [List.foldlM_cons] at h
    rcases hS : initNodesStep acc n with _ | accMid
    · rw [hS] at h
      exact absurd h (by simp)
    · rw [hS] at h
      simp only [Option.bind_eq_bind, Option.some_bind] at h
      have hshape : accMid.nodeList = acc.nodeList ∧ accMid.entry = acc.entry
          ∧ DecodeInv S accMid := by
        unfold initNodesStep at hS
        by_cases hnm : (n.name == "") = true
        · rw [if_pos hnm] at hS
          exact absurd hS (by simp)
        · rw [if_neg hnm] at hS
          have hmk : ∀ ix2 : List (String × Nat),
              (∀ p, p ∈ ix2 → p = (n.name, n.id) ∨ p ∈ acc.index) →
              some { acc with index := ix2 } = some accMid →
              accMid.nodeList = acc.nodeList ∧ accMid.entry = acc.entry
                ∧ DecodeInv S accMid := by
            intro ix2 hix2 heq
            rw [Option.some_inj] at heq
            rw [← heq]
            refine ⟨rfl, rfl, hinv.flags, hinv.entryNone, hinv.names, hinv.idsNodup, ?_⟩
            intro p hp
            rcases hix2 p hp with h2 | h2
            · exact ⟨n, hl n (List.mem_cons_self _ _), by rw [h2], by rw [h2]⟩
            · exact hinv.idxOk p h2
          rcases hlk : indexLookup acc.index n.name with _ | pid
          · rw [hlk] at hS
            dsimp only at hS
            exact hmk _ (fun p hp => mem_indexSet _ _ _ p hp) hS
          · rw [hlk] at hS
            dsimp only at hS
            by_cases hpid : (pid == n.id) = true
            · rw [if_pos hpid] at hS
              exact hmk _ (fun p hp => mem_indexSet _ _ _ p hp) hS
            · rw [if_neg hpid] at hS
              exact absurd hS (by simp)
      obtain ⟨hL, hE, hinvMid⟩ := hshape
      obtain ⟨hinv2, hL2, hE2⟩ := initNodesFold_decodeInv S rest accMid g2 hinvMid
        (fun m hm => by rw [hL]; exact hl m (List.mem_cons_of_mem _ hm)) h
      exact ⟨hinv2, by rw [hL2, hL], by rw [hE2, hE]⟩

theorem initNodes_decodeInv (S : List String) (g g2 : Graph)
    (hinv : DecodeInv S g) (h : g.initNodes = some g2) :
    DecodeInv S g2 ∧ g2.nodeList = g.nodeList ∧ g2.entry = g.entry :=
  initNodesFold_decodeInv S g.nodeList g g2 hinv (fun _ hn => hn) h

theorem entryScanFold_id :
    ∀ (l : List Node) (acc : Graph), (∀ n, n ∈ l → n.entry = false) →
    l.foldlM entryScanStep acc = some acc
  | [], _, _ => rfl
  | n :: rest, acc, hl => by
    rw [List.foldlM_cons]
    have hstep : entryScanStep acc n = some acc := by
      unfold entryScanStep
      rw [hl n (List.mem_cons_self _ _)]
      simp
    rw [hstep]
    simp only [Option.bind_eq_bind, Option.some_bind]
    exact entryScanFold_id rest acc (fun m hm => hl m (List.mem_cons_of_mem _ hm))

theorem entryScan_noFlags (g : Graph) (hf : ∀ n, n ∈ g.nodeList → n.entry = false) :
    entryScan g = some g :=
  entryScanFold_id g.nodeList g hf

theorem NodeWithName_decodeInv (S : List String) (g : Graph) (name : String) (n : Node)
    (hinv : DecodeInv S g) (h : g.NodeWithName name = some n) :
    n ∈ g.nodeList ∧ n.name = name := by
  unfold Graph.NodeWithName indexLookup at h
  rcases hf : g.index.find? (fun p => p.fst == name) with _ | p
  · rw [hf] at h
    exact absurd h (by simp)
  · rw [hf] at h
    simp only [Option.map_some', Option.bind_eq_bind, Option.some_bind] at h
    have hpmem := List.mem_of_find?_eq_some hf
    have hpname : p.fst = name := by simpa using List.find?_some hf
    obtain ⟨m, hm, hmn, hmi⟩ := hinv.idxOk p hpmem
    have hfm : g.findById m.id = some m := findById_of_mem g hinv.idsNodup m hm
    rw [hmi] at hfm
    rw [hfm] at h
    injection h with h
    rw [← h]
    exact ⟨hm, by rw [hmn, hpname]⟩

/-! ## Theorems about the claims -/

/-- Claim C5: for a node with exactly two successors whose two outgoing
edge labels are exactly the set true/false, `TrueTarget` returns the
true-labelled successor and `FalseTarget` the false-labelled one (with no
diagnostic); if the successor count is anything other than two (for
example one or three), both operations fail with the invalid-branch
panic. -/
theorem C5_branch_targets (g : Graph) (n : Node) :
    ((g.From n.id).length ≠ 2 → g.TrueTarget n = none ∧ g.FalseTarget n = none)
    ∧ (∀ s1 s2 e1 e2, g.From n.id = [s1, s2] →
        g.edgeBetween n.id s1.id = some e1 → g.edgeBetween n.id s2.id = some e2 →
        ((attrsGet e1.attrs "label" = "true" ∧ attrsGet e2.attrs "label" = "false" →
            g.TrueTarget n = some (s1, false) ∧ g.FalseTarget n = some (s2, false))
          ∧ (attrsGet e1.attrs "label" = "false" ∧ attrsGet e2.attrs "label" = "true" →
            g.TrueTarget n = some (s2, false) ∧ g.FalseTarget n = some (s1, false)))) := by
  constructor
  · intro hlen
    rcases hF : g.From n.id with _ | ⟨a, _ | ⟨b, _ | ⟨c, t⟩⟩⟩ <;>
      simp [Graph.TrueTarget, Graph.FalseTarget, hF] at hlen ⊢
  · intro s1 s2 e1 e2 hF he1 he2
    refine ⟨fun hl => ?_, fun hl => ?_⟩ <;>
      simp [Graph.TrueTarget, Graph.FalseTarget, hF, he1, he2, hl.1, hl.2]

/-- Witness for C5 on a concrete two-way branch built through the
construction API. -/
theorem C5_witness :
    branchGraph.TrueTarget { id := 0, name := "a", entry := true }
        = some ({ id := 1, name := "b" }, false)
    ∧ branchGraph.FalseTarget { id := 0, name := "a", entry := true }
        = some ({ id := 2, name := "c" }, false) := by
  have h := (C5_branch_targets branchGraph { id := 0, name := "a", entry := true }).2
    { id := 1, name := "b" } { id := 2, name := "c" }
    { src := { id := 0, name := "a" }, dst := { id := 1, name := "b" },
      attrs := [("label", "true"), ("color", "darkgreen")] }
    { src := { id := 0, name := "a" }, dst := { id := 2, name := "c" },
      attrs := [("label", "false"), ("color", "red")] }
    (by decide) (by decide) (by decide)
  exact h.1 ⟨by decide, by decide⟩

/-- Claim C6: with exactly two successors whose labels are not exactly
the true/false pair, the branch-target queries do not fail: both emit a
diagnostic (the `true` flag of the result) and return the first successor
in internal-id order, which is the successor with the smaller internal
id; being pure functions of the graph, they return the same result on
every evaluation. -/
theorem C6_ambiguous_branch (g : Graph) (n s1 s2 : Node) (e1 e2 : Edge)
    (hsorted : (g.nodeList.map Node.id).Sorted (· < ·))
    (hF : g.From n.id = [s1, s2])
    (he1 : g.edgeBetween n.id s1.id = some e1)
    (he2 : g.edgeBetween n.id s2.id = some e2)
    (hbad : ¬ ((attrsGet e1.attrs "label" = "true" ∧ attrsGet e2.attrs "label" = "false")
        ∨ (attrsGet e1.attrs "label" = "false" ∧ attrsGet e2.attrs "label" = "true"))) :
    g.TrueTarget n = some (s1, true) ∧ g.FalseTarget n = some (s1, true)
      ∧ s1.id < s2.id := by
  have hb1 : ¬ (attrsGet e1.attrs "label" = "true" ∧ attrsGet e2.attrs "label" = "false") :=
    fun h => hbad (Or.inl h)
  have hb2 : ¬ (attrsGet e1.attrs "label" = "false" ∧ attrsGet e2.attrs "label" = "true") :=
    fun h => hbad (Or.inr h)
  have hsub : List.Sublist ((g.From n.id).map Node.id) (g.nodeList.map Node.id) := by
    unfold Graph.From
    exact (List.filter_sublist _).map _
  have hlt : s1.id < s2.id := by
    have hs := hsorted.sublist hsub
    rw [hF] at hs
    simp [List.sorted_cons] at hs
    exact hs
  refine ⟨?_, ?_, hlt⟩ <;>
    · simp only [Graph.TrueTarget, Graph.FalseTarget, hF, he1, he2, Option.bind_eq_bind,
        Option.some_bind]
      split_ifs with h1 h2
      · exact absurd (by simpa using h1) hb1
      · exact absurd (by simpa using h2) hb2
      · rfl

/-- Witness for C6 on a concrete two-way branch with labels x/y. -/
theorem C6_witness :
    ambiguousGraph.TrueTarget { id := 0, name := "a", entry := true }
        = some ({ id := 1, name := "b" }, true)
    ∧ ambiguousGraph.FalseTarget { id := 0, name := "a", entry := true }
        = some ({ id := 1, name := "b" }, true) := by
  have h := C6_ambiguous_branch ambiguousGraph { id := 0, name := "a", entry := true }
    { id := 1, name := "b" } { id := 2, name := "c" }
    { src := { id := 0, name := "a" }, dst := { id := 1, name := "b" },
      attrs := [("label", "x")] }
    { src := { id := 0, name := "a" }, dst := { id := 2, name := "c" },
      attrs := [("label", "y")] }
    (by decide) (by decide) (by decide) (by decide) (by decide)
  exact ⟨h.1, h.2.1⟩

/-- Claim C7 fails as stated: re-setting the node that already is the
entry node panics all the same — the source checks only that some entry
is present, never whether it is the same node. -/
theorem C7_counterexample :
    (entryGraph.findById 0).isSome = true
    ∧ (entryGraph.findById 0).map (fun a => decide (entryGraph.entry = some a)) = some true
    ∧ (entryGraph.findById 0).bind (fun a => entryGraph.SetEntry a) = none := by decide

/-- Claim C7 (amended): `set_entry(g, n)` fails whenever any entry node
is already set in `g` — including when that entry is `n` itself — and
succeeds exactly when no entry is set, marking `n.is_entry = true`
(also through the graph's stored copy of `n`) and making `n` the
graph's entry. -/
theorem C7_setEntry (g : Graph) (n : Node) :
    ((g.SetEntry n).isSome ↔ g.entry = none)
    ∧ (∀ g2, g.SetEntry n = some g2 →
        g2.entry = some { n with entry := true }
        ∧ g2.edges = g.edges ∧ g2.index = g.index ∧ g2.id = g.id
        ∧ (∀ m, m ∈ g.nodeList → ¬ m.id = n.id → m ∈ g2.nodeList)
        ∧ (∀ m, m ∈ g.nodeList → m.id = n.id → { m with entry := true } ∈ g2.nodeList)) := by
  unfold Graph.SetEntry
  cases hE : g.entry with
  | some e => simp
  | none =>
    refine ⟨by simp, ?_⟩
    intro g2 h
    rw [Option.some_inj] at h
    subst h
    refine ⟨rfl, rfl, rfl, rfl, ?_, ?_⟩
    · intro m hm hne
      have := List.mem_map_of_mem
        (fun m => if m.id == n.id then { m with entry := true } else m) hm
      simpa [hne] using this
    · intro m hm heq
      have := List.mem_map_of_mem
        (fun m => if m.id == n.id then { m with entry := true } else m) hm
      simpa [heq] using this

/-- Witness for C7 (amended) at a concrete graph and node. -/
theorem C7_witness :
    ((NewGraph.SetEntry { id := 0, name := "a" }).isSome ↔ NewGraph.entry = none)
    ∧ ({ entry := some { id := 0, name := "a", entry := true } } : Graph).entry
        = some { ({ id := 0, name := "a" } : Node) with entry := true } :=
  ⟨(C7_setEntry NewGraph { id := 0, name := "a" }).1,
    ((C7_setEntry NewGraph { id := 0, name := "a" }).2
      { entry := some { id := 0, name := "a", entry := true } } (by decide)).1⟩

/-- Claim C8 fails as stated: removing a node that is not a member of the
graph is not a no-op — here the non-member node's entry flag is set, and
`RemoveNode` clears the graph's entry pointer (which pointed at a
different, still-present node). -/
theorem C8_counterexample :
    removedEntryState.map (fun p =>
        (p.fst.has p.snd.id, p.fst.entry.isSome,
          (p.fst.RemoveNode p.snd).entry.isSome,
          decide ((p.fst.RemoveNode p.snd).nodeList = p.fst.nodeList)))
      = some (false, true, false, true) := by decide

/-- Claim C8 (amended): `remove_node(g, n)` removes the node with `n`'s
id and every edge touching it; it always deletes `n.name` from the name
index and always clears the entry pointer when `n`'s entry flag is set.
When `n` is not a member the node and edge sets are untouched (given
edges only join members), but the name-index deletion and the
entry-pointer clearing still happen, so the operation is not a no-op. -/
theorem C8_removeNode (g : Graph) (n : Node) :
    (∀ m, m ∈ (g.RemoveNode n).nodeList ↔ m ∈ g.nodeList ∧ ¬ m.id = n.id)
    ∧ (∀ e, e ∈ (g.RemoveNode n).edges ↔
        e ∈ g.edges ∧ ¬ e.src.id = n.id ∧ ¬ e.dst.id = n.id)
    ∧ (∀ p, p ∈ (g.RemoveNode n).index ↔ p ∈ g.index ∧ ¬ p.fst = n.name)
    ∧ (g.RemoveNode n).entry = (if n.entry then none else g.entry)
    ∧ (g.has n.id = false →
        (∀ e, e ∈ g.edges → g.has e.src.id = true ∧ g.has e.dst.id = true) →
        (g.RemoveNode n).nodeList = g.nodeList ∧ (g.RemoveNode n).edges = g.edges) := by
  have hmem : ∀ m, m ∈ (g.RemoveNode n).nodeList ↔ m ∈ g.nodeList ∧ ¬ m.id = n.id := by
    intro m
    unfold Graph.RemoveNode
    by_cases hn : n.entry <;> simp [hn, List.mem_filter]
  have hedge : ∀ e, e ∈ (g.RemoveNode n).edges ↔
      e ∈ g.edges ∧ ¬ e.src.id = n.id ∧ ¬ e.dst.id = n.id := by
    intro e
    unfold Graph.RemoveNode
    by_cases hn : n.entry <;> simp [hn, List.mem_filter, and_assoc]
  refine ⟨hmem, hedge, ?_, ?_, ?_⟩
  · intro p
    unfold Graph.RemoveNode
    by_cases hn : n.entry <;> simp [hn, List.mem_filter]
  · unfold Graph.RemoveNode
    by_cases hn : n.entry <;> simp [hn]
  · intro habs hclosed
    have hid : ∀ m, m ∈ g.nodeList → ¬ m.id = n.id := by
      intro m hm heq
      have : g.has n.id = true := by
        unfold Graph.has
        rw [List.any_eq_true]
        exact ⟨m, hm, by simp [heq]⟩
      rw [habs] at this
      exact Bool.false_ne_true this
    constructor
    · unfold Graph.RemoveNode
      by_cases hn : n.entry <;>
        · simp only [hn]
          first
          | exact List.filter_eq_self.mpr (fun m hm => by simp [hid m hm])
          | simp only [if_true, if_false]
            exact List.filter_eq_self.mpr (fun m hm => by simp [hid m hm])
    · have hcl : ∀ e, e ∈ g.edges → ¬ e.src.id = n.id ∧ ¬ e.dst.id = n.id := by
        intro e he
        have h1 := (hclosed e he).1
        have h2 := (hclosed e he).2
        constructor
        · intro heq
          rw [heq] at h1
          rw [habs] at h1
          exact Bool.false_ne_true h1
        · intro heq
          rw [heq] at h2
          rw [habs] at h2
          exact Bool.false_ne_true h2
      unfold Graph.RemoveNode
      by_cases hn : n.entry <;>
        · simp only [hn]
          first
          | exact List.filter_eq_self.mpr
              (fun e he => by simp [(hcl e he).1, (hcl e he).2])
          | simp only [if_true, if_false]
            exact List.filter_eq_self.mpr
              (fun e he => by simp [(hcl e he).1, (hcl e he).2])

/-- Witness for C8 (amended) at a concrete graph and node. -/
theorem C8_witness :
    (entryGraph.RemoveNode { id := 5, name := "z" }).nodeList = entryGraph.nodeList
    ∧ (entryGraph.RemoveNode { id := 5, name := "z" }).edges = entryGraph.edges :=
  (C8_removeNode entryGraph { id := 5, name := "z" }).2.2.2.2 (by decide)
    (by
      intro e he
      have hnil : entryGraph.edges = [] := by decide
      rw [hnil] at he
      exact absurd he (List.not_mem_nil e))

/-- Claim C9 fails as stated: a non-`label` attribute value containing
whitespace is emitted verbatim, unquoted — only `label` values are ever
quoted (and only on a space). -/
theorem C9_counterexample :
    containsSpace "a b" = true
    ∧ Attrs.Attributes [("color", "a b")] = [("color", "a b")]
    ∧ GraphString spacedAttrGraph = some "digraph \x7b\n\tn [color=a b];\n\x7d" := by
  refine ⟨by decide, by decide, by decide⟩

/-- Claim C9 (amended): rendering emits the attributes of a node or edge
in lexically sorted key order (the emitted keys are a sorted permutation
of the attribute keys); a `label` value containing a space (and not
already starting with a double quote) is double-quoted on output, while
every other value — the values of all non-`label` keys, whitespace or
not, and `label` values without spaces — is emitted verbatim. -/
theorem C9_attr_rendering (a : Attrs) :
    ((Attrs.Attributes a).map Prod.fst).Sorted strLeP
    ∧ ((Attrs.Attributes a).map Prod.fst).Perm (a.map Prod.fst)
    ∧ (∀ p, p ∈ Attrs.Attributes a → ¬ p.fst = "label" → p.snd = attrsGet a p.fst)
    ∧ (∀ p, p ∈ Attrs.Attributes a → p.fst = "label" →
        containsSpace (attrsGet a p.fst) = true →
        startsWithQuote (attrsGet a p.fst) = false →
        p.snd = strconvQuote (attrsGet a p.fst))
    ∧ (∀ p, p ∈ Attrs.Attributes a → p.fst = "label" →
        containsSpace (attrsGet a p.fst) = false → p.snd = attrsGet a p.fst) := by
  have hfst : (Attrs.Attributes a).map Prod.fst
      = List.insertionSort strLeP (a.map Prod.fst) := by
    unfold Attrs.Attributes
    rw [List.map_map]
    have h2 : (Prod.fst ∘ fun k =>
        if k == "label" && containsSpace (attrsGet a k) && !(startsWithQuote (attrsGet a k))
        then (k, strconvQuote (attrsGet a k)) else (k, attrsGet a k))
        = fun k => k := by
      funext k
      by_cases hb : (k == "label" && containsSpace (attrsGet a k)
          && !(startsWithQuote (attrsGet a k))) = true
      · simp only [Function.comp_apply, if_pos hb]
      · simp only [Function.comp_apply, if_neg hb]
    rw [h2]
    exact List.map_id _
  refine ⟨?_, ?_, ?_, ?_, ?_⟩
  · rw [hfst]
    exact List.sorted_insertionSort _ _
  · rw [hfst]
    exact List.perm_insertionSort _ _
  · intro p hp hne
    unfold Attrs.Attributes at hp
    rw [List.mem_map] at hp
    obtain ⟨k, hk, hpk⟩ := hp
    subst hpk
    by_cases hb : (k == "label" && containsSpace (attrsGet a k)
        && !(startsWithQuote (attrsGet a k))) = true
    · exfalso
      rw [if_pos hb] at hne
      simp only [Bool.and_eq_true, beq_iff_eq] at hb
      exact hne hb.1.1
    · rw [if_neg hb]
  · intro p hp heq hsp hq
    unfold Attrs.Attributes at hp
    rw [List.mem_map] at hp
    obtain ⟨k, hk, hpk⟩ := hp
    subst hpk
    by_cases hb : (k == "label" && containsSpace (attrsGet a k)
        && !(startsWithQuote (attrsGet a k))) = true
    · rw [if_pos hb]
    · exfalso
      rw [if_neg hb] at heq hsp hq
      simp only at heq hsp hq
      subst heq
      apply hb
      simp [hsp, hq]
  · intro p hp heq hsp
    unfold Attrs.Attributes at hp
    rw [List.mem_map] at hp
    obtain ⟨k, hk, hpk⟩ := hp
    subst hpk
    by_cases hb : (k == "label" && containsSpace (attrsGet a k)
        && !(startsWithQuote (attrsGet a k))) = true
    · exfalso
      rw [if_pos hb] at heq hsp
      simp only [Bool.and_eq_true, beq_iff_eq] at hb
      simp only at hsp
      rw [hsp] at hb
      exact Bool.false_ne_true hb.1.2
    · rw [if_neg hb]

/-- Witness for C9 (amended) at a concrete attribute map. -/
theorem C9_witness :
    ((Attrs.Attributes [("z", "1"), ("label", "a b"), ("color", "x y")]).map
        Prod.fst).Sorted strLeP
    ∧ Attrs.Attributes [("z", "1"), ("label", "a b"), ("color", "x y")]
        = [("color", "x y"), ("label", "\"a b\""), ("z", "1")] :=
  ⟨(C9_attr_rendering [("z", "1"), ("label", "a b"), ("color", "x y")]).1, by decide⟩

/-- Claim C10: `AddNode` accepts a node whose name is the empty string
without failing — the name-uniqueness check and the name-index insertion
are skipped entirely — so a graph can come to contain several distinct
empty-named nodes through `AddNode`, even though `NewNodeWithName`
rejects an empty name. -/
theorem C10_addNode_emptyName (g : Graph) (n : Node)
    (hname : n.name = "") (hid : g.has n.id = false) (hentry : n.entry = false) :
    (∃ g2, g.AddNode n = some g2 ∧ g2.index = g.index
      ∧ g2.nodeList.Perm (n :: g.nodeList))
    ∧ NewGraph.NewNodeWithName "" = none
    ∧ twoAnonGraph.map (fun g2 => g2.nodeList.map (fun m => (m.id, m.name)))
        = some [(0, ""), (1, "")] := by
  refine ⟨?_, by decide, by decide⟩
  refine ⟨{ g with nodeList := insertNodeSorted n g.nodeList }, ?_, rfl, ?_⟩
  · unfold Graph.AddNode
    simp [hid, hentry, hname]
  · exact List.perm_orderedInsert _ _ _

/-- Witness for C10 at a concrete graph and node. -/
theorem C10_witness :
    (∃ g2, entryGraph.AddNode { id := 7 } = some g2 ∧ g2.index = entryGraph.index
      ∧ g2.nodeList.Perm ({ id := 7 } :: entryGraph.nodeList))
    ∧ NewGraph.NewNodeWithName "" = none :=
  ⟨(C10_addNode_emptyName entryGraph { id := 7 } rfl (by decide) rfl).1,
    (C10_addNode_emptyName entryGraph { id := 7 } rfl (by decide) rfl).2.1⟩


/-- Claim C4 fails as stated: a syntactically valid DOT input with no
entry marking and no node named `"0"` makes decoding panic — a fatal
abort reaching the process, not a recoverable error result. -/
theorem C4_counterexample :
    ParseBytes noEntryFile
      = PResult.fatal "unable to locate entry node or node with name \"0\""
    ∧ ∀ msg, ¬ ParseBytes noEntryFile = PResult.err msg := by
  refine ⟨by decide, ?_⟩
  intro msg h
  rw [(by decide :
    ParseBytes noEntryFile
      = PResult.fatal "unable to locate entry node or node with name \"0\"")] at h
  exact PResult.noConfusion h

/-- Claim C4 (amended): for every syntactically valid DOT input in which
no node carries the attribute `label="entry"`, whenever decoding succeeds
its entry is the node literally named `"0"` (quotes included, as DOT
quoting is preserved in names), and when no statement mentions the
identifier `"0"` decoding always fails with a panic — a fatal abort, not
a recoverable error result. -/
theorem C4_entry_fallback (f : DotFile)
    (hmark : ∀ st, st ∈ f.stmts →
      ∀ p, p ∈ stmtNodeAttrs st → ¬(p.fst = "label" ∧ p.snd = "entry")) :
    (∀ g, ParseBytes f = PResult.ok g →
      ∃ e, g.entry = some e ∧ e.name = "\"0\"" ∧ e.entry = true)
    ∧ (¬ "\"0\"" ∈ dotFileIds f → ∃ m, ParseBytes f = PResult.fatal m) := by
  unfold ParseBytes
  rcases hU : unmarshalFile f with _ | g0
  · dsimp only
    refine ⟨?_, ?_⟩
    · intro g hgg
      exact absurd hgg (by simp)
    · intro _
      exact ⟨_, rfl⟩
  · dsimp only
    have hInv0 := unmarshalFile_decodeInv f g0 hmark hU
    rcases hI : g0.initNodes with _ | g1
    · dsimp only
      refine ⟨?_, ?_⟩
      · intro g hgg
        exact absurd hgg (by simp)
      · intro _
        exact ⟨_, rfl⟩
    · dsimp only
      obtain ⟨hInv1, hL1, hE1⟩ := initNodes_decodeInv (dotFileIds f) g0 g1 hInv0 hI
      have hScan : entryScan g1 = some g1 := entryScan_noFlags g1 hInv1.flags
      rw [hScan]
      dsimp only
      rw [hInv1.entryNone]
      dsimp only
      rcases hW : g1.NodeWithName "\"0\"" with _ | n
      · dsimp only
        refine ⟨?_, ?_⟩
        · intro g hgg
          exact absurd hgg (by simp)
        · intro _
          exact ⟨_, rfl⟩
      · dsimp only
        obtain ⟨hnmem, hname⟩ :=
          NodeWithName_decodeInv (dotFileIds f) g1 "\"0\"" n hInv1 hW
        rcases hSE : g1.SetEntry n with _ | g3
        · exfalso
          unfold Graph.SetEntry at hSE
          rw [hInv1.entryNone] at hSE
          exact absurd hSE (by simp)
        · dsimp only
          have hentry : g3.entry = some { n with entry := true } := by
            unfold Graph.SetEntry at hSE
            rw [hInv1.entryNone] at hSE
            injection hSE with hSE
            rw [← hSE]
          refine ⟨?_, ?_⟩
          · intro g hgg
            injection hgg with hgg
            rw [← hgg]
            exact ⟨{ n with entry := true }, hentry, by simpa using hname, rfl⟩
          · intro h0
            exfalso
            apply h0
            rw [← hname]
            exact hInv1.names n hnmem

/-- Witness for C4 (amended) at a concrete file containing a node
literally named `"0"` (and no entry marking). -/
theorem C4_witness :
    ∃ e, c4okGraph.entry = some e ∧ e.name = "\"0\"" ∧ e.entry = true :=
  (C4_entry_fallback c4okFile (by decide)).1 c4okGraph (by decide)

/-! ### Lemmas for the traversal theorem -/

theorem eraseOrd_setPre_fun (nid : Nat) (v : Int) (m : Node) :
    eraseOrd (if (m.id == nid) = true then { m with pre := v } else m) = eraseOrd m := by
  by_cases hc : (m.id == nid) = true
  · rw [if_pos hc]
    rfl
  · rw [if_neg hc]

theorem eraseOrd_setRevPost_fun (nid : Nat) (v : Int) (m : Node) :
    eraseOrd (if (m.id == nid) = true then { m with revPost := v } else m) = eraseOrd m := by
  by_cases hc : (m.id == nid) = true
  · rw [if_pos hc]
    rfl
  · rw [if_neg hc]

theorem setPre_skel (g : Graph) (nid : Nat) (v : Int) : skel (setPre g nid v) = skel g := by
  unfold skel setPre
  simp only [List.map_map, Option.map_map, Function.comp_def]
  rw [List.map_congr_left (fun m _ => eraseOrd_setPre_fun nid v m)]
  cases hE : g.entry with
  | none => rfl
  | some e =>
    simp only [Option.map_some', Function.comp_apply]
    rw [eraseOrd_setPre_fun nid v e]

theorem setRevPost_skel (g : Graph) (nid : Nat) (v : Int) :
    skel (setRevPost g nid v) = skel g := by
  unfold skel setRevPost
  simp only [List.map_map, Option.map_map, Function.comp_def]
  rw [List.map_congr_left (fun m _ => eraseOrd_setRevPost_fun nid v m)]
  cases hE : g.entry with
  | none => rfl
  | some e =>
    simp only [Option.map_some', Function.comp_apply]
    rw [eraseOrd_setRevPost_fun nid v e]

theorem gIds_of_skelEq (g g2 : Graph) (h : skel g2 = skel g) : gIds g2 = gIds g := by
  have h2 : g2.nodeList.map eraseOrd = g.nodeList.map eraseOrd := congrArg Graph.nodeList h
  have h3 := congrArg (List.map Node.id) h2
  simp only [List.map_map] at h3
  have h4 : (Node.id ∘ eraseOrd) = Node.id := rfl
  rw [h4] at h3
  exact h3

theorem findById_setPre (g : Graph) (nid : Nat) (v : Int) (i : Nat) :
    (setPre g nid v).findById i
      = (g.findById i).map
          (fun m => if (m.id == nid) = true then { m with pre := v } else m) := by
  unfold Graph.findById setPre
  dsimp only
  rw [List.find?_map]
  have hp : ((fun m : Node => m.id == i)
      ∘ (fun m => if (m.id == nid) = true then { m with pre := v } else m))
      = (fun m : Node => m.id == i) := by
    funext m
    by_cases hc : (m.id == nid) = true
    · simp only [Function.comp_apply, if_pos hc]
    · simp only [Function.comp_apply, if_neg hc]
  rw [hp]

theorem findById_setRevPost (g : Graph) (nid : Nat) (v : Int) (i : Nat) :
    (setRevPost g nid v).findById i
      = (g.findById i).map
          (fun m => if (m.id == nid) = true then { m with revPost := v } else m) := by
  unfold Graph.findById setRevPost
  dsimp only
  rw [List.find?_map]
  have hp : ((fun m : Node => m.id == i)
      ∘ (fun m => if (m.id == nid) = true then { m with revPost := v } else m))
      = (fun m : Node => m.id == i) := by
    funext m
    by_cases hc : (m.id == nid) = true
    · simp only [Function.comp_apply, if_pos hc]
    · simp only [Function.comp_apply, if_neg hc]
  rw [hp]

theorem findById_id_of_some (g : Graph) (i : Nat) (m : Node)
    (h : g.findById i = some m) : m.id = i := by
  unfold Graph.findById at h
  simpa using List.find?_some h

theorem findById_mem_of_some (g : Graph) (i : Nat) (m : Node)
    (h : g.findById i = some m) : m ∈ g.nodeList := by
  unfold Graph.findById at h
  exact List.mem_of_find?_eq_some h

theorem findById_isSome_of_mem_ids (g : Graph) (i : Nat) (h : i ∈ gIds g) :
    ∃ m, g.findById i = some m := by
  unfold gIds at h
  rw [List.mem_map] at h
  obtain ⟨m, hm, hmi⟩ := h
  rcases hf : g.findById i with _ | m2
  · exfalso
    unfold Graph.findById at hf
    rw [List.find?_eq_none] at hf
    exact hf m hm (by simp [hmi])
  · exact ⟨m2, rfl⟩

theorem findById_setPre_ne (g : Graph) (nid : Nat) (v : Int) (i : Nat) (h : ¬ i = nid) :
    (setPre g nid v).findById i = g.findById i := by
  rw [findById_setPre]
  rcases hf : g.findById i with _ | m
  · rfl
  · have hmi := findById_id_of_some g i m hf
    simp only [Option.map_some']
    rw [if_neg (by rw [hmi]; simpa using h)]

theorem findById_setRevPost_ne (g : Graph) (nid : Nat) (v : Int) (i : Nat) (h : ¬ i = nid) :
    (setRevPost g nid v).findById i = g.findById i := by
  rw [findById_setRevPost]
  rcases hf : g.findById i with _ | m
  · rfl
  · have hmi := findById_id_of_some g i m hf
    simp only [Option.map_some']
    rw [if_neg (by rw [hmi]; simpa using h)]

theorem intRange_succ_left (a : Int) (k : Nat) :
    intRange a (k + 1) = a :: intRange (a + 1) k := by
  unfold intRange
  rw [List.range_succ_eq_map]
  simp only [List.map_cons, List.map_map, Nat.cast_zero, add_zero]
  congr 1
  apply List.map_congr_left
  intro j _
  simp only [Function.comp_apply, Nat.cast_succ]
  ring

theorem intRange_append (a : Int) (k j : Nat) :
    intRange a (k + j) = intRange a k ++ intRange (a + k) j := by
  unfold intRange
  rw [List.range_add, List.map_append, List.map_map]
  congr 1
  apply List.map_congr_left
  intro x _
  simp only [Function.comp_apply, Nat.cast_add]
  ring

theorem contains_iff (l : List Nat) (x : Nat) : l.contains x = true ↔ x ∈ l :=
  List.elem_iff

theorem contains_mono_cons (vis : List Nat) (x i : Nat)
    (h : vis.contains i = true) : (x :: vis).contains i = true := by
  rw [contains_iff] at h ⊢
  exact List.mem_cons_of_mem x h

theorem filter_notmem_mono (ys vis : List Nat) (x : Nat) :
    (ys.filter (fun i => !((x :: vis).contains i))).length
      ≤ (ys.filter (fun i => !(vis.contains i))).length := by
  apply List.Sublist.length_le
  apply List.monotone_filter_right
  intro i hi
  rw [Bool.not_eq_true'] at hi ⊢
  cases hc : vis.contains i with
  | false => rfl
  | true =>
    rw [contains_mono_cons vis x i hc] at hi
    exact absurd hi (by simp)

theorem filter_notmem_lt (l : List Nat) : ∀ (vis : List Nat) (x : Nat),
    x ∈ l → ¬ x ∈ vis →
    (l.filter (fun i => !((x :: vis).contains i))).length
      < (l.filter (fun i => !(vis.contains i))).length := by
  induction l with
  | nil => intro vis x hx; cases hx
  | cons y ys ih =>
    intro vis x hx hnv
    by_cases hyx : y = x
    · subst hyx
      have hc1 : (y :: vis).contains y = true := by
        rw [contains_iff]
        exact List.mem_cons_self y vis
      have hc2 : vis.contains y = false := by
        cases hc : vis.contains y with
        | false => rfl
        | true => exact absurd ((contains_iff vis y).mp hc) hnv
      rw [List.filter_cons, List.filter_cons, hc1, hc2]
      simp only [Bool.not_true, Bool.not_false, if_true, Bool.false_eq_true, if_false,
        List.length_cons]
      have := filter_notmem_mono ys vis y
      omega
    · have hx2 : x ∈ ys := by
        cases hx with
        | head => exact absurd rfl hyx
        | tail _ h => exact h
      have hagree : ((x :: vis).contains y) = (vis.contains y) := by
        cases hc : vis.contains y with
        | true => exact contains_mono_cons vis x y hc
        | false =>
          cases hc2 : (x :: vis).contains y with
          | false => rfl
          | true =>
            exfalso
            have hmem := (contains_iff _ y).mp hc2
            rw [List.mem_cons] at hmem
            rcases hmem with h2 | h2
            · exact hyx h2
            · rw [(contains_iff vis y).mpr h2] at hc
              exact absurd hc (by simp)
      rw [List.filter_cons, List.filter_cons, hagree]
      cases hcy : vis.contains y with
      | true =>
        simp only [Bool.not_true, Bool.false_eq_true, if_false]
        exact ih vis x hx2 hnv
      | false =>
        simp only [Bool.not_false, if_true, List.length_cons]
        have := ih vis x hx2 hnv
        omega

theorem WalkOut_refl (st : DfsSt) : WalkOut st st [] := by
  refine ⟨rfl, List.nodup_nil, ?_, rfl, ?_, ?_, ?_, ?_, ?_⟩
  · intro i hi
    exact absurd hi (List.not_mem_nil i)
  · simp
  · simp
  · intro i _
    rfl
  · simp [intRange]
  · simp [intRange]

theorem WalkOut_trans (st1 st2 st3 : DfsSt) (S1 S2 : List Nat)
    (h12 : WalkOut st1 st2 S1) (h23 : WalkOut st2 st3 S2) :
    WalkOut st1 st3 (S2 ++ S1) := by
  have hIds : gIds st2.g = gIds st1.g := gIds_of_skelEq _ _ h12.skelEq
  have hdisj : ∀ i, i ∈ S2 → ¬ i ∈ S1 := by
    intro i h2 h1
    have := (h23.fresh i h2).2
    rw [h12.vis] at this
    exact this (List.mem_append.mpr (Or.inl h1))
  refine ⟨?_, ?_, ?_, ?_, ?_, ?_, ?_, ?_, ?_⟩
  · rw [h23.vis, h12.vis, List.append_assoc]
  · rw [List.nodup_append]
    exact ⟨h23.nodup, h12.nodup, fun i h2 h1 => hdisj i h2 h1⟩
  · intro i hi
    rcases List.mem_append.mp hi with h2 | h1
    · have := h23.fresh i h2
      refine ⟨by rw [← hIds]; exact this.1, ?_⟩
      intro hvis
      apply this.2
      rw [h12.vis]
      exact List.mem_append.mpr (Or.inr hvis)
    · exact h12.fresh i h1
  · rw [h23.skelEq, h12.skelEq]
  · rw [h23.firstEq, h12.firstEq, List.length_append]
    push_cast
    ring
  · rw [h23.lastEq, h12.lastEq, List.length_append]
    push_cast
    ring
  · intro i hi
    rw [List.mem_append] at hi
    push_neg at hi
    rw [h23.outside i hi.1, h12.outside i hi.2]
  · rw [List.map_append]
    have hS1 : S1.map (preOf st3.g) = S1.map (preOf st2.g) := by
      apply List.map_congr_left
      intro i hi
      have hni : ¬ i ∈ S2 := fun h2 => hdisj i h2 hi
      unfold preOf
      rw [h23.outside i hni]
    rw [hS1]
    have hcat : intRange st1.first (S2 ++ S1).length
        = intRange st1.first S1.length ++ intRange (st1.first + S1.length) S2.length := by
      rw [List.length_append, Nat.add_comm S2.length S1.length]
      exact intRange_append st1.first S1.length S2.length
    rw [hcat]
    have h2vals := h23.preVals
    rw [h12.firstEq] at h2vals
    exact (List.Perm.append h2vals h12.preVals).trans List.perm_append_comm
  · rw [List.map_append]
    have hS1 : S1.map (revPostOf st3.g) = S1.map (revPostOf st2.g) := by
      apply List.map_congr_left
      intro i hi
      have hni : ¬ i ∈ S2 := fun h2 => hdisj i h2 hi
      unfold revPostOf
      rw [h23.outside i hni]
    rw [hS1]
    have h2vals := h23.revVals
    rw [h12.lastEq] at h2vals
    have hcat : intRange (st1.last - (S2 ++ S1).length + 1) (S2 ++ S1).length
        = intRange (st1.last - S1.length - S2.length + 1) S2.length
            ++ intRange (st1.last - S1.length + 1) S1.length := by
      rw [List.length_append]
      have h1 : st1.last - ((S2.length + S1.length : Nat) : Int) + 1
          = st1.last - (S1.length : Int) - (S2.length : Int) + 1 := by
        push_cast
        ring
      rw [h1, intRange_append]
      congr 2
      ring
    rw [hcat]
    exact List.Perm.append h2vals h12.revVals

theorem filter_notmem_append_mono (l : List Nat) : ∀ (S vis : List Nat),
    (l.filter (fun i => !((S ++ vis).contains i))).length
      ≤ (l.filter (fun i => !(vis.contains i))).length
  | [], _ => by rw [List.nil_append]
  | x :: S2, vis =>
    le_trans (filter_notmem_mono l (S2 ++ vis) x) (filter_notmem_append_mono l S2 vis)

theorem unvisitedCount_mono (st st2 : DfsSt) (S : List Nat) (h : WalkOut st st2 S) :
    unvisitedCount st2 ≤ unvisitedCount st := by
  unfold unvisitedCount
  rw [gIds_of_skelEq _ _ h.skelEq, h.vis]
  exact filter_notmem_append_mono (gIds st.g) S st.visited

theorem unvisitedCount_pos (st : DfsSt) (nid : Nat)
    (hmem : nid ∈ gIds st.g) (hnv : ¬ nid ∈ st.visited) : 0 < unvisitedCount st := by
  have hin : nid ∈ (gIds st.g).filter (fun i => !(st.visited.contains i)) := by
    rw [List.mem_filter]
    refine ⟨hmem, ?_⟩
    rw [Bool.not_eq_true']
    cases hc : st.visited.contains nid with
    | false => rfl
    | true => exact absurd ((contains_iff _ _).mp hc) hnv
  unfold unvisitedCount
  exact List.length_pos.mpr (List.ne_nil_of_mem hin)

theorem mem_sortByDOTID (ns : List Node) (m : Node) :
    m ∈ sortByDOTID ns ↔ m ∈ ns :=
  (List.perm_insertionSort natNameLe ns).mem_iff

theorem From_mem_nodeList (g : Graph) (nid : Nat) (m : Node) (h : m ∈ g.From nid) :
    m ∈ g.nodeList := by
  unfold Graph.From at h
  exact (List.mem_filter.mp h).1

theorem walkSuccs_spec (fuel : Nat)
    (hP : ∀ (st : DfsSt) (nid : Nat),
      (gIds st.g).Nodup → nid ∈ gIds st.g → ¬ nid ∈ st.visited →
      unvisitedCount st ≤ fuel →
      ∃ S st2, walkF fuel st nid = some st2 ∧ WalkOut st st2 S ∧ nid ∈ S) :
    ∀ (ms : List Node) (st : DfsSt),
      (gIds st.g).Nodup → (∀ m, m ∈ ms → m.id ∈ gIds st.g) →
      unvisitedCount st ≤ fuel →
      ∃ S st2, walkSuccs fuel ms st = some st2 ∧ WalkOut st st2 S
        ∧ (∀ m, m ∈ ms → m.id ∈ st2.visited)
  | [], st, hnd, _, _ =>
    ⟨[], st, by rw [walkSuccs.eq_def], WalkOut_refl st,
      fun m hm => absurd hm (List.not_mem_nil m)⟩
  | m :: rest, st, hnd, hms, hcount => by
    by_cases hvis : st.visited.contains m.id = true
    · have heq : walkSuccs fuel (m :: rest) st = walkSuccs fuel rest st := by
        conv_lhs => rw [walkSuccs.eq_def]
        dsimp only
        rw [if_pos hvis]
      obtain ⟨S, st2, hw, hout, hcov⟩ := walkSuccs_spec fuel hP rest st hnd
        (fun m2 h2 => hms m2 (List.mem_cons_of_mem m h2)) hcount
      refine ⟨S, st2, by rw [heq]; exact hw, hout, ?_⟩
      intro m2 hm2
      rcases List.mem_cons.mp hm2 with h2 | h2
      · rw [h2, hout.vis]
        exact List.mem_append.mpr (Or.inr ((contains_iff _ _).mp hvis))
      · exact hcov m2 h2
    · have hnv : ¬ m.id ∈ st.visited := fun h2 => hvis ((contains_iff _ _).mpr h2)
      obtain ⟨S1, stM, hw1, hout1, hnidS⟩ :=
        hP st m.id hnd (hms m (List.mem_cons_self m rest)) hnv hcount
      have hnd2 : (gIds stM.g).Nodup := by
        rw [gIds_of_skelEq _ _ hout1.skelEq]
        exact hnd
      have hms2 : ∀ m2, m2 ∈ rest → m2.id ∈ gIds stM.g := by
        intro m2 h2
        rw [gIds_of_skelEq _ _ hout1.skelEq]
        exact hms m2 (List.mem_cons_of_mem m h2)
      have hcount2 : unvisitedCount stM ≤ fuel :=
        le_trans (unvisitedCount_mono st stM S1 hout1) hcount
      obtain ⟨S2, st2, hw2, hout2, hcov2⟩ := walkSuccs_spec fuel hP rest stM hnd2 hms2 hcount2
      refine ⟨S2 ++ S1, st2, ?_, WalkOut_trans st stM st2 S1 S2 hout1 hout2, ?_⟩
      · conv_lhs => rw [walkSuccs.eq_def]
        dsimp only
        rw [if_neg hvis, hw1]
        exact hw2
      · intro m2 hm2
        rcases List.mem_cons.mp hm2 with h2 | h2
        · rw [h2, hout2.vis, hout1.vis]
          exact List.mem_append.mpr (Or.inr (List.mem_append.mpr (Or.inl hnidS)))
        · exact hcov2 m2 h2

theorem walkF_spec : ∀ (fuel : Nat) (st : DfsSt) (nid : Nat),
    (gIds st.g).Nodup → nid ∈ gIds st.g → ¬ nid ∈ st.visited →
    unvisitedCount st ≤ fuel →
    ∃ S st2, walkF fuel st nid = some st2 ∧ WalkOut st st2 S ∧ nid ∈ S := by
  intro fuel
  induction fuel with
  | zero =>
    intro st nid hnd hmem hnv hcount
    exfalso
    have := unvisitedCount_pos st nid hmem hnv
    omega
  | succ fuel ih =>
    intro st nid hnd hmem hnv hcount
    obtain ⟨m0, hm0⟩ := findById_isSome_of_mem_ids st.g nid hmem
    have hm0id : m0.id = nid := findById_id_of_some _ _ _ hm0
    have hskel1 : skel (setPre st.g nid st.first) = skel st.g := setPre_skel _ _ _
    have hIds1 : gIds (setPre st.g nid st.first) = gIds st.g := gIds_of_skelEq _ _ hskel1
    have hnd1 : (gIds ({ st with
        g := setPre st.g nid st.first,
        first := st.first + 1,
        visited := nid :: st.visited } : DfsSt).g).Nodup := by
      dsimp only
      rw [hIds1]
      exact hnd
    have hcnt1 : unvisitedCount { st with
        g := setPre st.g nid st.first,
        first := st.first + 1,
        visited := nid :: st.visited } < unvisitedCount st := by
      unfold unvisitedCount
      dsimp only
      rw [hIds1]
      exact filter_notmem_lt (gIds st.g) st.visited nid hmem hnv
    have hcnt1b : unvisitedCount { st with
        g := setPre st.g nid st.first,
        first := st.first + 1,
        visited := nid :: st.visited } ≤ fuel := by omega
    have hmsmem : ∀ m, m ∈ sortByDOTID ((setPre st.g nid st.first).From nid) →
        m.id ∈ gIds ({ st with
        g := setPre st.g nid st.first,
        first := st.first + 1,
        visited := nid :: st.visited } : DfsSt).g := by
      intro m hm
      rw [mem_sortByDOTID] at hm
      have h2 := From_mem_nodeList _ _ _ hm
      dsimp only
      unfold gIds
      exact List.mem_map_of_mem Node.id h2
    obtain ⟨S1, st2, hw1, hout1, hcov⟩ := walkSuccs_spec fuel ih
      (sortByDOTID ((setPre st.g nid st.first).From nid))
      { st with
        g := setPre st.g nid st.first,
        first := st.first + 1,
        visited := nid :: st.visited }
      hnd1 hmsmem hcnt1b
    have hnidS1 : ¬ nid ∈ S1 := by
      intro h2
      have := (hout1.fresh nid h2).2
      exact this (List.mem_cons_self nid st.visited)
    have hcomp : walkF (fuel + 1) st nid
        = match walkSuccs fuel (sortByDOTID ((setPre st.g nid st.first).From nid))
            { st with
        g := setPre st.g nid st.first,
        first := st.first + 1,
        visited := nid :: st.visited } with
          | none => none
          | some st2 => some { st2 with
        g := setRevPost st2.g nid st2.last,
        last := st2.last - 1 } := by
      rw [walkF.eq_def]
    -- value of the pre/rev-post numbers written at nid
    have h1 : st2.g.findById nid
        = ({ st with
        g := setPre st.g nid st.first,
        first := st.first + 1,
        visited := nid :: st.visited } : DfsSt).g.findById nid :=
      hout1.outside nid hnidS1
    have h2 : ({ st with
        g := setPre st.g nid st.first,
        first := st.first + 1,
        visited := nid :: st.visited } : DfsSt).g.findById nid
        = some { m0 with pre := st.first } := by
      dsimp only
      rw [findById_setPre, hm0]
      simp only [Option.map_some']
      rw [if_pos (by simp [hm0id])]
    have h3 : (setRevPost st2.g nid st2.last).findById nid
        = some { m0 with pre := st.first, revPost := st2.last } := by
      rw [findById_setRevPost, h1, h2]
      simp only [Option.map_some']
      rw [if_pos (by simp [hm0id])]
    have hpre_nid : preOf (setRevPost st2.g nid st2.last) nid = st.first := by
      unfold preOf
      rw [h3]
    have hrev_nid : revPostOf (setRevPost st2.g nid st2.last) nid = st2.last := by
      unfold revPostOf
      rw [h3]
    have hSne : ∀ i, i ∈ S1 → ¬ i = nid := fun i hi he => hnidS1 (he ▸ hi)
    have hpre_S1 : S1.map (preOf (setRevPost st2.g nid st2.last)) = S1.map (preOf st2.g) := by
      apply List.map_congr_left
      intro i hi
      unfold preOf
      rw [findById_setRevPost_ne st2.g nid st2.last i (hSne i hi)]
    have hrev_S1 : S1.map (revPostOf (setRevPost st2.g nid st2.last))
        = S1.map (revPostOf st2.g) := by
      apply List.map_congr_left
      intro i hi
      unfold revPostOf
      rw [findById_setRevPost_ne st2.g nid st2.last i (hSne i hi)]
    refine ⟨S1 ++ [nid],
      { st2 with g := setRevPost st2.g nid st2.last, last := st2.last - 1 }, ?_, ?_, ?_⟩
    · rw [hcomp, hw1]
    · refine ⟨?_, ?_, ?_, ?_, ?_, ?_, ?_, ?_, ?_⟩
      · dsimp only
        rw [hout1.vis]
        dsimp only
        simp
      · rw [List.nodup_append]
        refine ⟨hout1.nodup, List.nodup_singleton nid, ?_⟩
        intro a ha hb
        rw [List.mem_singleton] at hb
        exact hSne a ha hb
      · intro i hi
        rcases List.mem_append.mp hi with h4 | h4
        · have h5 := hout1.fresh i h4
          dsimp only at h5
          rw [hIds1] at h5
          exact ⟨h5.1, fun h6 => h5.2 (List.mem_cons_of_mem nid h6)⟩
        · rw [List.mem_singleton] at h4
          rw [h4]
          exact ⟨hmem, hnv⟩
      · dsimp only
        rw [setRevPost_skel]
        have h4 := hout1.skelEq
        dsimp only at h4
        rw [h4, hskel1]
      · dsimp only
        rw [hout1.firstEq]
        dsimp only
        rw [List.length_append, List.length_singleton]
        push_cast
        ring
      · dsimp only
        rw [hout1.lastEq]
        dsimp only
        rw [List.length_append, List.length_singleton]
        push_cast
        ring
      · intro i hi
        rw [List.mem_append] at hi
        push_neg at hi
        have hine : ¬ i = nid := by
          intro he
          exact hi.2 (by rw [he]; exact List.mem_singleton_self nid)
        dsimp only
        rw [findById_setRevPost_ne st2.g nid st2.last i hine]
        rw [hout1.outside i hi.1]
        dsimp only
        rw [findById_setPre_ne st.g nid st.first i hine]
      · dsimp only
        rw [List.map_append, List.map_singleton, hpre_nid, hpre_S1]
        have hvals := hout1.preVals
        dsimp only at hvals
        rw [List.length_append, List.length_singleton,
          intRange_succ_left st.first S1.length]
        exact (List.perm_append_singleton _ _).trans (hvals.cons st.first)
      · dsimp only
        rw [List.map_append, List.map_singleton, hrev_nid, hrev_S1]
        have hvals := hout1.revVals
        have hlast := hout1.lastEq
        dsimp only at hvals hlast
        rw [List.length_append, List.length_singleton]
        have hstart : st.last - ((S1.length + 1 : Nat) : Int) + 1
            = st.last - (S1.length : Int) := by
          push_cast
          ring
        rw [hstart, hlast, intRange_succ_left]
        exact (List.perm_append_singleton _ _).trans (hvals.cons _)
    · exact List.mem_append.mpr (Or.inr (List.mem_singleton_self nid))

/-- C3: for every graph with distinct node ids whose entry node is set
(and is one of the graph's nodes), `InitDFSOrder` succeeds, changes
nothing but the pre / reverse-post numbers, and assigns as the pre
values over all nodes (reachable or not) exactly the integers
`0 .. n-1`, and likewise as the reverse-post values exactly the
integers `0 .. n-1`, where `n` is the number of nodes. -/
theorem C3_dfs_numbering (g : Graph) (e : Node)
    (hnd : (gIds g).Nodup) (he : g.entry = some e) (hemem : e.id ∈ gIds g) :
    ∃ g2, InitDFSOrder g = some g2 ∧ skel g2 = skel g
      ∧ ((gIds g).map (preOf g2)).Perm (intRange 0 g.nodeList.length)
      ∧ ((gIds g).map (revPostOf g2)).Perm (intRange 0 g.nodeList.length) := by
  have hcnt0 : unvisitedCount
      { g := g, visited := [], first := 0,
        last := Int.ofNat g.nodeList.length - 1 } = g.nodeList.length := by
    unfold unvisitedCount
    dsimp only
    simp [gIds]
  obtain ⟨S1, st1, hw1, hout1, heS1⟩ :=
    walkF_spec (g.nodeList.length + 1)
      { g := g, visited := [], first := 0,
        last := Int.ofNat g.nodeList.length - 1 } e.id
      hnd hemem (List.not_mem_nil e.id) (by rw [hcnt0]; omega)
  have hnd1 : (gIds st1.g).Nodup := by
    rw [gIds_of_skelEq _ _ hout1.skelEq]
    exact hnd
  have hms1 : ∀ m, m ∈ sortByDOTID st1.g.nodeList → m.id ∈ gIds st1.g := by
    intro m hm
    exact List.mem_map.mpr ⟨m, (mem_sortByDOTID _ m).mp hm, rfl⟩
  have hcount1 : unvisitedCount st1 ≤ g.nodeList.length + 1 := by
    have h2 := unvisitedCount_mono _ st1 S1 hout1
    rw [hcnt0] at h2
    omega
  obtain ⟨S2, st2, hw2, hout2, hcov2⟩ :=
    walkSuccs_spec (g.nodeList.length + 1) (walkF_spec (g.nodeList.length + 1))
      (sortByDOTID st1.g.nodeList) st1 hnd1 hms1 hcount1
  have houtAll := WalkOut_trans _ st1 st2 S1 S2 hout1 hout2
  have hvis2 : st2.visited = S2 ++ S1 := by
    rw [houtAll.vis]
    simp
  have hsubGS : gIds g ⊆ S2 ++ S1 := by
    intro i hi
    have hi1 : i ∈ gIds st1.g := by
      rw [gIds_of_skelEq _ _ hout1.skelEq]
      exact hi
    obtain ⟨m, hm, hmid⟩ := List.mem_map.mp hi1
    have h3 := hcov2 m ((mem_sortByDOTID _ m).mpr hm)
    rw [hvis2] at h3
    rw [← hmid]
    exact h3
  have hsubSG : (S2 ++ S1) ⊆ gIds g := by
    intro i hi
    exact (houtAll.fresh i hi).1
  have hperm : (S2 ++ S1).Perm (gIds g) :=
    (houtAll.nodup.subperm hsubSG).antisymm (hnd.subperm hsubGS)
  have hlen : (S2 ++ S1).length = g.nodeList.length := by
    rw [hperm.length_eq]
    simp [gIds]
  have hrun : InitDFSOrder g = some st2.g := by
    unfold InitDFSOrder
    rw [he]
    dsimp only
    rw [hw1]
    dsimp only
    rw [hw2]
  refine ⟨st2.g, hrun, houtAll.skelEq, ?_, ?_⟩
  · have hpre := houtAll.preVals
    have h1 := (hperm.map (preOf st2.g)).symm.trans hpre
    rw [hlen] at h1
    exact h1
  · have hrev := houtAll.revVals
    have h1 := (hperm.map (revPostOf st2.g)).symm.trans hrev
    rw [hlen] at h1
    have hco : intRange (Int.ofNat g.nodeList.length - 1
        - (g.nodeList.length : Int) + 1) g.nodeList.length
        = intRange 0 g.nodeList.length := by
      congr 1
      simp only [Int.ofNat_eq_natCast]
      omega
    rw [hco] at h1
    exact h1

theorem find?_of_unique {α : Type} (p : α → Bool) :
    ∀ (L : List α) (d : α), d ∈ L → p d = true →
      (∀ x, x ∈ L → p x = true → x = d) → L.find? p = some d
  | [], d, hd, _, _ => absurd hd (List.not_mem_nil d)
  | a :: L, d, hd, hp, hu => by
    by_cases ha : p a = true
    · rw [List.find?_cons_of_pos _ ha, hu a (List.mem_cons_self a L) ha]
    · rw [List.find?_cons_of_neg _ ha]
      rcases List.mem_cons.mp hd with h | h
      · exact absurd (h ▸ hp) ha
      · exact find?_of_unique p L d h hp (fun x hx hpx => hu x (List.mem_cons_of_mem a hx) hpx)

theorem filter_or_perm {α : Type} (p q : α → Bool) (hdisj : ∀ a, p a = true → q a = true → False) :
    ∀ l : List α, (l.filter (fun a => p a || q a)).Perm (l.filter p ++ l.filter q)
  | [] => by simp
  | a :: l => by
    by_cases hp : p a = true
    · have hq : ¬ q a = true := fun h => hdisj a hp h
      rw [List.filter_cons, List.filter_cons, List.filter_cons]
      rw [if_pos (by rw [hp]; rfl), if_pos hp, if_neg hq]
      exact (filter_or_perm p q hdisj l).cons a
    · by_cases hq : q a = true
      · rw [List.filter_cons, List.filter_cons, List.filter_cons]
        rw [if_pos (by rw [hq, Bool.or_true]), if_neg hp, if_pos hq]
        exact ((filter_or_perm p q hdisj l).cons a).trans List.perm_middle.symm
      · rw [List.filter_cons, List.filter_cons, List.filter_cons]
        rw [if_neg (by simp [hp, hq]), if_neg hp, if_neg hq]
        exact filter_or_perm p q hdisj l

theorem sorted_strict_perm_eq {α : Type} (r : α → α → Prop)
    (hasym : ∀ a b, r a b → r b a → False) :
    ∀ l1 l2 : List α, l1.Perm l2 → l1.Pairwise r → l2.Pairwise r → l1 = l2
  | [], l2, hperm, _, _ => (List.Perm.nil_eq hperm).symm ▸ rfl
  | a :: l1, l2, hperm, h1, h2 => by
    have ha2 : a ∈ l2 := hperm.mem_iff.mp (List.mem_cons_self a l1)
    match l2, ha2 with
    | b :: l2, hb => ?_
    have hab : a = b := by
      by_contra hne
      have ha2b : a ∈ l2 := by
        rcases List.mem_cons.mp hb with h | h
        · exact absurd h hne
        · exact h
      have hba : r b a := (List.pairwise_cons.mp h2).1 a ha2b
      have hb1 : b ∈ a :: l1 := hperm.mem_iff.mpr (List.mem_cons_self b l2)
      have hb1t : b ∈ l1 := by
        rcases List.mem_cons.mp hb1 with h | h
        · exact absurd h.symm hne
        · exact h
      have hab2 : r a b := (List.pairwise_cons.mp h1).1 b hb1t
      exact hasym a b hab2 hba
    subst hab
    have hperm2 : l1.Perm l2 := (List.perm_cons a).mp hperm
    rw [sorted_strict_perm_eq r hasym l1 l2 hperm2
      (List.pairwise_cons.mp h1).2 (List.pairwise_cons.mp h2).2]

theorem orderedInsert_eq_append {α : Type} (r : α → α → Prop) [DecidableRel r] :
    ∀ (l : List α) (a : α), (∀ b, b ∈ l → ¬ r a b) → l.orderedInsert r a = l ++ [a]
  | [], a, _ => rfl
  | b :: l, a, h => by
    rw [List.orderedInsert, if_neg (h b (List.mem_cons_self b l)),
      orderedInsert_eq_append r l a (fun c hc => h c (List.mem_cons_of_mem b hc))]
    rfl

theorem good_ids_nodup (g : Graph) (hwf : GoodGraph g) : (gIds g).Nodup := by
  have h : (g.nodeList.map Node.id).Pairwise (fun a b => a < b) :=
    List.pairwise_map.mpr (hwf.nodesSorted.imp (fun h => h))
  exact h.imp (fun h => Nat.ne_of_lt h)

theorem good_edgeKeys_nodup (g : Graph) (hwf : GoodGraph g) :
    (g.edges.map edgeKey).Nodup := by
  have h : (g.edges.map edgeKey).Pairwise
      (fun a b => a.1 < b.1 ∨ (a.1 = b.1 ∧ a.2 < b.2)) :=
    List.pairwise_map.mpr (hwf.edgesSorted.imp (fun h => h))
  refine h.imp ?_
  intro a b hab he
  rcases hab with h1 | ⟨h1, h2⟩
  · exact absurd (congrArg Prod.fst he) (Nat.ne_of_lt h1)
  · exact absurd (congrArg Prod.snd he) (Nat.ne_of_lt h2)

theorem good_node_inj (g : Graph) (hwf : GoodGraph g) :
    ∀ x, x ∈ g.nodeList → ∀ y, y ∈ g.nodeList → x.id = y.id → x = y := by
  intro x hx y hy hxy
  exact List.inj_on_of_nodup_map (good_ids_nodup g hwf) hx hy hxy

theorem good_name_inj (g : Graph) (hwf : GoodGraph g) :
    ∀ x, x ∈ g.nodeList → ∀ y, y ∈ g.nodeList → x.name = y.name → x = y := by
  intro x hx y hy hxy
  exact List.inj_on_of_nodup_map hwf.namesNodup hx hy hxy

theorem good_edge_inj (g : Graph) (hwf : GoodGraph g) :
    ∀ x, x ∈ g.edges → ∀ y, y ∈ g.edges → edgeKey x = edgeKey y → x = y := by
  intro x hx y hy hxy
  exact List.inj_on_of_nodup_map (good_edgeKeys_nodup g hwf) hx hy hxy

theorem find?_append_none {α : Type} (l1 l2 : List α) (p : α → Bool)
    (h : l1.find? p = none) : (l1 ++ l2).find? p = l2.find? p := by
  rw [List.find?_append, h]
  rfl

theorem find?_append_some {α : Type} (l1 l2 : List α) (p : α → Bool) (x : α)
    (h : l1.find? p = some x) : (l1 ++ l2).find? p = some x := by
  rw [List.find?_append, h]
  rfl

theorem good_find_entry (g : Graph) (hwf : GoodGraph g) :
    g.nodeList.find? (fun m => m.entry) = g.entry := by
  rcases hsrc : g.entry with _ | e
  · apply List.find?_eq_none.mpr
    intro m hm hme
    have h2 := hwf.entryFlag m hm hme
    rw [hsrc] at h2
    exact absurd h2 (by simp)
  · obtain ⟨hmem, hflag⟩ := hwf.entryMem e hsrc
    apply find?_of_unique _ g.nodeList e hmem hflag
    intro x hx hpx
    have h2 := hwf.entryFlag x hx hpx
    rw [hsrc] at h2
    exact (Option.some_inj.mp h2).symm

theorem good_addNode_step (src : Graph) (hwf : GoodGraph src) (P R : List Node) (n : Node)
    (hsplit : src.nodeList = P ++ n :: R) :
    Graph.AddNode
      { id := src.id,
        nodeList := P,
        edges := [],
        entry := P.find? (fun m => m.entry),
        index := P.map (fun m => (m.name, m.id)) } n
    = some { id := src.id,
             nodeList := P ++ [n],
             edges := [],
             entry := (P ++ [n]).find? (fun m => m.entry),
             index := (P ++ [n]).map (fun m => (m.name, m.id)) } := by
  have hmemn : n ∈ src.nodeList := by
    rw [hsplit]
    exact List.mem_append.mpr (Or.inr (List.mem_cons_self n R))
  have hPlt : ∀ m, m ∈ P → m.id < n.id := by
    have hs := hwf.nodesSorted
    rw [hsplit] at hs
    obtain ⟨_, _, hcross⟩ := List.pairwise_append.mp hs
    intro m hm
    exact hcross m hm n (List.mem_cons_self n R)
  have hPname : ∀ m, m ∈ P → ¬ m.name = n.name := by
    have hs := hwf.namesNodup
    rw [hsplit, List.map_append] at hs
    obtain ⟨_, _, hcross⟩ := List.nodup_append.mp hs
    intro m hm he
    exact hcross (List.mem_map.mpr ⟨m, hm, rfl⟩)
      (he ▸ List.mem_map.mpr ⟨n, List.mem_cons_self n R, rfl⟩)
  have hPnone : P.find? (fun m => m.entry) = none ∨ ¬ n.entry = true := by
    by_cases hent : n.entry = true
    · refine Or.inl (List.find?_eq_none.mpr ?_)
      intro m hm hme
      have h1 := hwf.entryFlag m (hsplit ▸ List.mem_append.mpr (Or.inl hm)) hme
      have h2 := hwf.entryFlag n hmemn hent
      rw [h2] at h1
      have h3 := Option.some_inj.mp h1
      exact absurd (congrArg Node.id h3.symm) (Nat.ne_of_lt (hPlt m hm))
    · exact Or.inr hent
  have hins : insertNodeSorted n P = P ++ [n] := by
    unfold insertNodeSorted
    exact orderedInsert_eq_append nodeIdLe P n
      (fun b hb hr => absurd hr (Nat.not_le.mpr (hPlt b hb)))
  have hlk : (P.map (fun m => (m.name, m.id))).find?
      (fun p => p.fst == n.name) = none := by
    apply List.find?_eq_none.mpr
    intro q hq hqb
    obtain ⟨m, hm, hmq⟩ := List.mem_map.mp hq
    rw [beq_iff_eq] at hqb
    exact hPname m hm (by rw [← hmq] at hqb; exact hqb)
  have hany : (P.map (fun m => (m.name, m.id))).any
      (fun p => p.fst == n.name) = false := by
    rw [← Bool.not_eq_true, List.any_eq_true]
    push_neg
    intro q hq
    have := List.find?_eq_none.mp hlk q hq
    simpa using this
  unfold Graph.AddNode
  rw [if_neg ?hhas]
  case hhas =>
    intro hb
    unfold Graph.has at hb
    dsimp only at hb
    rw [List.any_eq_true] at hb
    obtain ⟨m, hm, hmb⟩ := hb
    rw [beq_iff_eq] at hmb
    exact absurd hmb (Nat.ne_of_lt (hPlt m hm))
  dsimp only
  rw [hins]
  by_cases hent : n.entry = true
  · rw [if_pos hent]
    have hPn : P.find? (fun m => m.entry) = none := by
      rcases hPnone with h | h
      · exact h
      · exact absurd hent h
    rw [hPn]
    dsimp only
    rw [if_neg (by simpa using hwf.namesNe n hmemn)]
    unfold indexLookup
    rw [hlk]
    simp only [Option.map_none']
    unfold indexSet
    rw [hany, if_neg (by simp)]
    rw [find?_append_none _ _ _ hPn, List.find?_cons_of_pos _ hent, List.map_append]
    rfl
  · rw [if_neg hent]
    dsimp only
    rw [if_neg (by simpa using hwf.namesNe n hmemn)]
    unfold indexLookup
    rw [hlk]
    simp only [Option.map_none']
    unfold indexSet
    rw [hany, if_neg (by simp)]
    rw [List.map_append]
    rcases hfp : P.find? (fun m => m.entry) with _ | x
    · rw [hfp, find?_append_none _ _ _ hfp, List.find?_cons_of_neg _ hent, List.find?_nil]
      rfl
    · rw [hfp, find?_append_some _ _ _ _ hfp]
      rfl

theorem good_addNode_fold (src : Graph) (hwf : GoodGraph src) :
    ∀ (R P : List Node), src.nodeList = P ++ R →
      R.foldlM (fun (g : Graph) (m : Node) => g.AddNode m)
        { id := src.id,
          nodeList := P,
          edges := [],
          entry := P.find? (fun m => m.entry),
          index := P.map (fun m => (m.name, m.id)) }
      = some { id := src.id,
               nodeList := src.nodeList,
               edges := [],
               entry := src.entry,
               index := src.index }
  | [], P, hsplit => by
    rw [List.append_nil] at hsplit
    subst hsplit
    rw [List.foldlM_nil, good_find_entry src hwf, ← hwf.idxEq]
    rfl
  | m :: R, P, hsplit => by
    rw [List.foldlM_cons, good_addNode_step src hwf P R m hsplit]
    simp only [Option.bind_eq_bind, Option.some_bind]
    exact good_addNode_fold src hwf R (P ++ [m]) (by rw [hsplit, List.append_assoc]; rfl)

theorem copy_phase1 (src : Graph) (hwf : GoodGraph src) :
    src.nodeList.foldlM (fun (g : Graph) (m : Node) => g.AddNode m)
      { NewGraph with id := src.id }
      = some { id := src.id,
               nodeList := src.nodeList,
               edges := [],
               entry := src.entry,
               index := src.index } :=
  good_addNode_fold src hwf src.nodeList [] rfl

theorem edgeIdLt_asymm (a b : Edge) (h1 : edgeIdLt a b) (h2 : edgeIdLt b a) : False := by
  unfold edgeIdLt at h1 h2
  rcases h1 with h1 | ⟨h1, h1b⟩ <;> rcases h2 with h2 | ⟨h2, h2b⟩ <;> omega

theorem pairwise_edge_lt_of_le (E : List Edge) (hle : E.Pairwise edgeIdLe)
    (hknd : (E.map edgeKey).Nodup) : E.Pairwise edgeIdLt := by
  have hne : E.Pairwise (fun a b => ¬ edgeKey a = edgeKey b) := by
    have h := List.pairwise_map.mp hknd
    exact h.imp (fun h => h)
  refine (hle.and hne).imp ?_
  intro a b hab
  obtain ⟨h1, h2⟩ := hab
  unfold edgeIdLe at h1
  unfold edgeIdLt
  rcases h1 with h1 | ⟨h1, h1b⟩
  · exact Or.inl h1
  · refine Or.inr ⟨h1, ?_⟩
    rcases Nat.lt_or_ge a.dst.id b.dst.id with h3 | h3
    · exact h3
    · exfalso
      apply h2
      unfold edgeKey
      rw [h1]
      rw [Nat.le_antisymm h1b h3]

theorem From_iff (g : Graph) (nid : Nat) (m : Node) :
    m ∈ g.From nid ↔ m ∈ g.nodeList
      ∧ ∃ e, e ∈ g.edges ∧ e.src.id = nid ∧ e.dst.id = m.id := by
  unfold Graph.From
  rw [List.mem_filter, List.any_eq_true]
  constructor
  · rintro ⟨hm, e, he, hb⟩
    rw [Bool.and_eq_true, beq_iff_eq, beq_iff_eq] at hb
    exact ⟨hm, e, he, hb.1, hb.2⟩
  · rintro ⟨hm, e, he, h1, h2⟩
    refine ⟨hm, e, he, ?_⟩
    rw [Bool.and_eq_true, beq_iff_eq, beq_iff_eq]
    exact ⟨h1, h2⟩

theorem To_iff (g : Graph) (nid : Nat) (m : Node) :
    m ∈ g.To nid ↔ m ∈ g.nodeList
      ∧ ∃ e, e ∈ g.edges ∧ e.src.id = m.id ∧ e.dst.id = nid := by
  unfold Graph.To
  rw [List.mem_filter, List.any_eq_true]
  constructor
  · rintro ⟨hm, e, he, hb⟩
    rw [Bool.and_eq_true, beq_iff_eq, beq_iff_eq] at hb
    exact ⟨hm, e, he, hb.1, hb.2⟩
  · rintro ⟨hm, e, he, h1, h2⟩
    refine ⟨hm, e, he, ?_⟩
    rw [Bool.and_eq_true, beq_iff_eq, beq_iff_eq]
    exact ⟨h1, h2⟩

theorem find_edge_unique (E : List Edge) (hknd : (E.map edgeKey).Nodup)
    (e : Edge) (he : e ∈ E) :
    E.find? (fun f => f.src.id == e.src.id && f.dst.id == e.dst.id) = some e := by
  apply find?_of_unique _ E e he
  · rw [Bool.and_eq_true, beq_iff_eq, beq_iff_eq]
    exact ⟨rfl, rfl⟩
  · intro x hx hpx
    rw [Bool.and_eq_true, beq_iff_eq, beq_iff_eq] at hpx
    apply List.inj_on_of_nodup_map hknd hx he
    unfold edgeKey
    rw [hpx.1, hpx.2]

theorem setEdge_fresh (g : Graph) (e : Edge)
    (hs : g.has e.src.id = true) (hd : g.has e.dst.id = true)
    (hne : ¬ e.src.id = e.dst.id)
    (hfresh : ∀ f, f ∈ g.edges → ¬ (f.src.id = e.src.id ∧ f.dst.id = e.dst.id)) :
    g.SetEdge e = some { g with edges := insertEdgeSorted e g.edges } := by
  have hfilt : g.edges.filter
      (fun x => !(x.src.id == e.src.id && x.dst.id == e.dst.id)) = g.edges := by
    apply List.filter_eq_self.mpr
    intro f hf
    rw [Bool.not_eq_eq_eq_not, Bool.not_true, Bool.and_eq_false_iff]
    by_cases h1 : f.src.id = e.src.id
    · refine Or.inr ?_
      rw [beq_eq_false_iff_ne]
      exact fun h2 => hfresh f hf ⟨h1, h2⟩
    · refine Or.inl ?_
      rw [beq_eq_false_iff_ne]
      exact h1
  unfold Graph.SetEdge
  rw [if_pos hs]
  simp only [Option.bind_eq_bind, Option.some_bind]
  rw [if_pos hd]
  rw [if_neg (by simpa using hne)]
  rw [hfilt]

theorem filterMap_eq_map_of_some {α β : Type} (f : α → Option β) (F : α → β) :
    ∀ l : List α, (∀ a, a ∈ l → f a = some (F a)) → l.filterMap f = l.map F
  | [], _ => rfl
  | a :: l, h => by
    rw [List.filterMap_cons, h a (List.mem_cons_self a l), List.map_cons,
      filterMap_eq_map_of_some f F l (fun b hb => h b (List.mem_cons_of_mem a hb))]

theorem has_of_id_mem (g : Graph) (i : Nat) (h : i ∈ gIds g) : g.has i = true := by
  obtain ⟨m, hm, hmi⟩ := List.mem_map.mp h
  unfold Graph.has
  rw [List.any_eq_true]
  exact ⟨m, hm, by rw [beq_iff_eq, hmi]⟩

theorem edges_nodup (src : Graph) (hwf : GoodGraph src) : src.edges.Nodup :=
  (good_edgeKeys_nodup src hwf).of_map edgeKey

theorem copy_inner (src : Graph) (hwf : GoodGraph src) (u : Node) :
    ∀ (vs : List Node) (g : Graph),
      (∀ v, v ∈ vs → ∃ e, e ∈ src.edges ∧ e.src.id = u.id ∧ e.dst.id = v.id) →
      (vs.map Node.id).Nodup →
      (∀ v, v ∈ vs → ∀ f, f ∈ g.edges → ¬ (f.src.id = u.id ∧ f.dst.id = v.id)) →
      g.nodeList = src.nodeList →
      g.edges.Pairwise edgeIdLe →
      ∃ g2,
        vs.foldlM
          (fun (g : Graph) (v : Node) =>
            match src.edgeBetween u.id v.id with
            | some e => g.SetEdge e
            | none => none) g = some g2
        ∧ g2.nodeList = g.nodeList ∧ g2.entry = g.entry ∧ g2.index = g.index
        ∧ g2.id = g.id ∧ g2.edges.Pairwise edgeIdLe
        ∧ g2.edges.Perm (g.edges ++ vs.filterMap (fun v => src.edgeBetween u.id v.id))
  | [], g, _, _, _, _, hsort =>
    ⟨g, by rw [List.foldlM_nil]; rfl, rfl, rfl, rfl, rfl, hsort, by simp⟩
  | v :: vs, g, hex, hnd, hfr, hnl, hsort => by
    obtain ⟨e, he, hes, hed⟩ := hex v (List.mem_cons_self v vs)
    have hlk : src.edgeBetween u.id v.id = some e := by
      unfold Graph.edgeBetween
      apply find?_of_unique _ _ e he
      · rw [Bool.and_eq_true, beq_iff_eq, beq_iff_eq]
        exact ⟨hes, hed⟩
      · intro x hx hpx
        rw [Bool.and_eq_true, beq_iff_eq, beq_iff_eq] at hpx
        apply good_edge_inj src hwf x hx e he
        unfold edgeKey
        rw [hpx.1, hpx.2, hes, hed]
    have hgids : gIds g = gIds src := by
      unfold gIds
      rw [hnl]
    have hset : g.SetEdge e = some { g with edges := insertEdgeSorted e g.edges } := by
      apply setEdge_fresh
      · apply has_of_id_mem
        rw [hgids]
        exact hwf.edgeSrcMem e he
      · apply has_of_id_mem
        rw [hgids]
        exact hwf.edgeDstMem e he
      · exact hwf.edgeNoSelf e he
      · intro f hf hcon
        exact hfr v (List.mem_cons_self v vs) f hf
          ⟨by rw [hcon.1, hes], by rw [hcon.2, hed]⟩
    have hnd2 : (vs.map Node.id).Nodup := (List.nodup_cons.mp (by simpa using hnd)).2
    have hvid : ¬ v.id ∈ vs.map Node.id := (List.nodup_cons.mp (by simpa using hnd)).1
    obtain ⟨g2, hfold2, hn2, he2, hi2, hid2, hs2, hp2⟩ :=
      copy_inner src hwf u vs { g with edges := insertEdgeSorted e g.edges }
        (fun v2 h2 => hex v2 (List.mem_cons_of_mem v h2))
        hnd2
        (by
          intro v2 h2 f hf hcon
          rcases (List.mem_orderedInsert edgeIdLe).mp hf with h3 | h3
          · apply hvid
            have h4 : v.id = v2.id := by
              rw [← hed, ← h3]
              exact hcon.2
            rw [h4]
            exact List.mem_map.mpr ⟨v2, h2, rfl⟩
          · exact hfr v2 (List.mem_cons_of_mem v h2) f h3 hcon)
        hnl
        (List.Sorted.orderedInsert e g.edges hsort)
    refine ⟨g2, ?_, by rw [hn2], by rw [he2], by rw [hi2], by rw [hid2], hs2, ?_⟩
    · rw [List.foldlM_cons, hlk]
      dsimp only
      rw [hset]
      simp only [Option.bind_eq_bind, Option.some_bind]
      exact hfold2
    · rw [List.filterMap_cons, hlk]
      have h1 : (insertEdgeSorted e g.edges).Perm (e :: g.edges) :=
        List.perm_orderedInsert edgeIdLe e g.edges
      refine hp2.trans ?_
      refine (h1.append_right _).trans ?_
      exact List.perm_middle.symm

theorem nodup_filterMap_inj {α β : Type} (f : α → Option β) :
    ∀ l : List α,
      (∀ a b, a ∈ l → b ∈ l → ∀ x, f a = some x → f b = some x → a = b) →
      l.Nodup → (l.filterMap f).Nodup
  | [], _, _ => List.nodup_nil
  | a :: l, hinj, hnd => by
    rw [List.filterMap_cons]
    have hnd2 := (List.nodup_cons.mp hnd).2
    have hmem := (List.nodup_cons.mp hnd).1
    have ih := nodup_filterMap_inj f l
      (fun c b hc hb x h1 h2 =>
        hinj c b (List.mem_cons_of_mem a hc) (List.mem_cons_of_mem a hb) x h1 h2) hnd2
    rcases hfa : f a with _ | x
    · exact ih
    · rw [List.nodup_cons]
      refine ⟨?_, ih⟩
      intro hx
      obtain ⟨b, hb, hbx⟩ := List.mem_filterMap.mp hx
      have hab := hinj a b (List.mem_cons_self a l) (List.mem_cons_of_mem a hb) x hfa hbx
      rw [hab] at hmem
      exact hmem hb

theorem nodeList_nodup (g : Graph) (hwf : GoodGraph g) : g.nodeList.Nodup :=
  (good_ids_nodup g hwf).of_map Node.id

theorem From_map_id_nodup (g : Graph) (hwf : GoodGraph g) (nid : Nat) :
    ((g.From nid).map Node.id).Nodup := by
  unfold Graph.From
  exact ((List.filter_sublist _).map Node.id).nodup (good_ids_nodup g hwf)

theorem fromEnum_perm (src : Graph) (hwf : GoodGraph src) (u : Node) :
    ((src.From u.id).filterMap (fun v => src.edgeBetween u.id v.id)).Perm
      (src.edges.filter (fun e => e.src.id == u.id)) := by
  have hlkv : ∀ v, v ∈ src.From u.id → ∀ x, src.edgeBetween u.id v.id = some x →
      x ∈ src.edges ∧ x.src.id = u.id ∧ x.dst.id = v.id := by
    intro v _ x hx
    unfold Graph.edgeBetween at hx
    have hmem := List.mem_of_find?_eq_some hx
    have hp := List.find?_some hx
    rw [Bool.and_eq_true, beq_iff_eq, beq_iff_eq] at hp
    exact ⟨hmem, hp.1, hp.2⟩
  have hsub1 : (src.From u.id).filterMap (fun v => src.edgeBetween u.id v.id)
      ⊆ src.edges.filter (fun e => e.src.id == u.id) := by
    intro x hx
    obtain ⟨v, hv, hvx⟩ := List.mem_filterMap.mp hx
    obtain ⟨h1, h2, _⟩ := hlkv v hv x hvx
    exact List.mem_filter.mpr ⟨h1, by rw [beq_iff_eq]; exact h2⟩
  have hsub2 : src.edges.filter (fun e => e.src.id == u.id)
      ⊆ (src.From u.id).filterMap (fun v => src.edgeBetween u.id v.id) := by
    intro e he
    obtain ⟨he2, hbeq⟩ := List.mem_filter.mp he
    rw [beq_iff_eq] at hbeq
    obtain ⟨m, hm, hmi⟩ := List.mem_map.mp (hwf.edgeDstMem e he2)
    have hmF : m ∈ src.From u.id :=
      (From_iff src u.id m).mpr ⟨hm, e, he2, hbeq, hmi.symm⟩
    have hlk : src.edgeBetween u.id m.id = some e := by
      unfold Graph.edgeBetween
      apply find?_of_unique _ _ e he2
      · rw [Bool.and_eq_true, beq_iff_eq, beq_iff_eq]
        exact ⟨hbeq, hmi.symm⟩
      · intro x hx hpx
        rw [Bool.and_eq_true, beq_iff_eq, beq_iff_eq] at hpx
        apply good_edge_inj src hwf x hx e he2
        unfold edgeKey
        rw [hpx.1, hpx.2, hbeq, hmi]
    exact List.mem_filterMap.mpr ⟨m, hmF, hlk⟩
  have hnd1 : ((src.From u.id).filterMap (fun v => src.edgeBetween u.id v.id)).Nodup := by
    apply nodup_filterMap_inj
    · intro a b ha hb x h1 h2
      obtain ⟨_, _, hda⟩ := hlkv a ha x h1
      obtain ⟨_, _, hdb⟩ := hlkv b hb x h2
      have hFromSub : ∀ c, c ∈ src.From u.id → c ∈ src.nodeList := by
        intro c hc
        exact ((From_iff src u.id c).mp hc).1
      exact good_node_inj src hwf a (hFromSub a ha) b (hFromSub b hb)
        (by rw [← hda, ← hdb])
    · exact ((List.filter_sublist _).nodup (nodeList_nodup src hwf))
  have hnd2 : (src.edges.filter (fun e => e.src.id == u.id)).Nodup :=
    (edges_nodup src hwf).filter _
  exact (hnd1.subperm hsub1).antisymm (hnd2.subperm hsub2)

theorem good_initNodesStep (g : Graph)
    (hnne : ∀ n, n ∈ g.nodeList → ¬ n.name = "")
    (hnnd : (g.nodeList.map Node.name).Nodup)
    (hidx : g.index = g.nodeList.map (fun n => (n.name, n.id)))
    (n : Node) (hn : n ∈ g.nodeList) : initNodesStep g n = some g := by
  have huq : ∀ q, q ∈ g.index → (q.fst == n.name) = true → q = (n.name, n.id) := by
    intro q hq hqp
    rw [hidx] at hq
    obtain ⟨m, hm, hmq⟩ := List.mem_map.mp hq
    rw [beq_iff_eq] at hqp
    have hmn : m = n := List.inj_on_of_nodup_map hnnd hm hn
      (by rw [← hmq] at hqp; exact hqp)
    rw [← hmq, hmn]
  have hfind : g.index.find? (fun p => p.fst == n.name) = some (n.name, n.id) := by
    apply find?_of_unique _ _ (n.name, n.id)
      (by rw [hidx]; exact List.mem_map.mpr ⟨n, hn, rfl⟩) (by simp)
    exact huq
  have hany : g.index.any (fun p => p.fst == n.name) = true := by
    rw [List.any_eq_true]
    refine ⟨(n.name, n.id), ?_, by simp⟩
    rw [hidx]
    exact List.mem_map.mpr ⟨n, hn, rfl⟩
  have hmap : g.index.map
      (fun p => if p.fst == n.name then (n.name, n.id) else p) = g.index := by
    rw [List.map_congr_left (g := id) ?hpt, List.map_id]
    case hpt =>
      intro q hq
      by_cases hb : (q.fst == n.name) = true
      · rw [if_pos hb, huq q hq hb]
        rfl
      · rw [if_neg hb]
        rfl
  unfold initNodesStep
  rw [if_neg (by simpa using hnne n hn)]
  unfold indexLookup
  rw [hfind]
  simp only [Option.map_some']
  rw [if_pos (by simp)]
  unfold indexSet
  rw [hany, if_pos rfl, hmap]

theorem good_initNodes_fold (g : Graph)
    (hnne : ∀ n, n ∈ g.nodeList → ¬ n.name = "")
    (hnnd : (g.nodeList.map Node.name).Nodup)
    (hidx : g.index = g.nodeList.map (fun n => (n.name, n.id))) :
    ∀ R : List Node, (∀ n, n ∈ R → n ∈ g.nodeList) →
      R.foldlM initNodesStep g = some g
  | [], _ => by rw [List.foldlM_nil]; rfl
  | n :: R, h => by
    rw [List.foldlM_cons,
      good_initNodesStep g hnne hnnd hidx n (h n (List.mem_cons_self n R))]
    simp only [Option.bind_eq_bind, Option.some_bind]
    exact good_initNodes_fold g hnne hnnd hidx R
      (fun m hm => h m (List.mem_cons_of_mem n hm))

theorem good_initNodes (g : Graph)
    (hnne : ∀ n, n ∈ g.nodeList → ¬ n.name = "")
    (hnnd : (g.nodeList.map Node.name).Nodup)
    (hidx : g.index = g.nodeList.map (fun n => (n.name, n.id))) :
    g.initNodes = some g := by
  unfold Graph.initNodes
  exact good_initNodes_fold g hnne hnnd hidx g.nodeList (fun m hm => hm)

theorem copy_phase2_fold (src : Graph) (hwf : GoodGraph src) :
    ∀ (R U : List Node), src.nodeList = U ++ R →
      ∀ g : Graph, g.nodeList = src.nodeList → g.entry = src.entry →
        g.index = src.index → g.id = src.id →
        g.edges.Pairwise edgeIdLe →
        g.edges.Perm (src.edges.filter (fun e => U.any (fun m => e.src.id == m.id))) →
        ∃ g2,
          R.foldlM
            (fun (g : Graph) (u : Node) =>
              (src.From u.id).foldlM
                (fun (g : Graph) (v : Node) =>
                  match src.edgeBetween u.id v.id with
                  | some e => g.SetEdge e
                  | none => none) g) g = some g2
          ∧ g2.nodeList = src.nodeList ∧ g2.entry = src.entry
          ∧ g2.index = src.index ∧ g2.id = src.id
          ∧ g2.edges.Pairwise edgeIdLe
          ∧ g2.edges.Perm
              (src.edges.filter (fun e => (U ++ R).any (fun m => e.src.id == m.id)))
  | [], U, hsplit, g, hnl, hen, hix, hid, hsort, hperm => by
    refine ⟨g, by rw [List.foldlM_nil]; rfl, hnl, hen, hix, hid, hsort, ?_⟩
    rw [List.append_nil]
    exact hperm
  | u :: R, U, hsplit, g, hnl, hen, hix, hid, hsort, hperm => by
    have hUlt : ∀ m, m ∈ U → m.id < u.id := by
      have hs := hwf.nodesSorted
      rw [hsplit] at hs
      obtain ⟨_, _, hcross⟩ := List.pairwise_append.mp hs
      intro m hm
      exact hcross m hm u (List.mem_cons_self u R)
    obtain ⟨g2, hfold1, hn1, he1, hi1, hd1, hs1, hp1⟩ :=
      copy_inner src hwf u (src.From u.id) g
        (fun v hv => ((From_iff src u.id v).mp hv).2)
        (From_map_id_nodup src hwf u.id)
        (by
          intro v _ f hf hcon
          have hfe := hperm.mem_iff.mp hf
          obtain ⟨_, hb⟩ := List.mem_filter.mp hfe
          rw [List.any_eq_true] at hb
          obtain ⟨m, hm, hmb⟩ := hb
          rw [beq_iff_eq] at hmb
          have := hUlt m hm
          omega)
        hnl hsort
    have hq : ∀ e : Edge,
        ((U ++ [u]).any (fun m => e.src.id == m.id))
          = ((U.any (fun m => e.src.id == m.id)) || (e.src.id == u.id)) := by
      intro e
      rw [List.any_append]
      simp
    have hdisj : ∀ e : Edge, (U.any (fun m => e.src.id == m.id)) = true →
        (e.src.id == u.id) = true → False := by
      intro e h1 h2
      rw [List.any_eq_true] at h1
      obtain ⟨m, hm, hmb⟩ := h1
      rw [beq_iff_eq] at hmb h2
      have := hUlt m hm
      omega
    have hnewperm : g2.edges.Perm
        (src.edges.filter (fun e => (U ++ [u]).any (fun m => e.src.id == m.id))) := by
      have h1 : g2.edges.Perm
          (src.edges.filter (fun e => U.any (fun m => e.src.id == m.id))
            ++ src.edges.filter (fun e => e.src.id == u.id)) := by
        refine hp1.trans ?_
        exact hperm.append (fromEnum_perm src hwf u)
      refine h1.trans ?_
      have h2 := filter_or_perm (fun e : Edge => U.any (fun m => e.src.id == m.id))
        (fun e : Edge => e.src.id == u.id) hdisj src.edges
      refine h2.symm.trans ?_
      rw [List.filter_congr ?hc]
      case hc =>
        intro e _
        rw [hq e]
    obtain ⟨g3, hfold2, hn2, he2, hi2, hd2, hs2, hp2⟩ :=
      copy_phase2_fold src hwf R (U ++ [u])
        (by rw [hsplit, List.append_assoc]; rfl)
        g2 (by rw [hn1, hnl]) (by rw [he1, hen]) (by rw [hi1, hix]) (by rw [hd1, hid])
        hs1 hnewperm
    refine ⟨g3, ?_, hn2, he2, hi2, hd2, hs2, ?_⟩
    · rw [List.foldlM_cons]
      rw [hfold1]
      simp only [Option.bind_eq_bind, Option.some_bind]
      exact hfold2
    · refine hp2.trans ?_
      rw [List.filter_congr ?hc2]
      case hc2 =>
        intro e _
        rw [List.append_assoc]
        rfl

theorem copy_good (src : Graph) (hwf : GoodGraph src) : Copy NewGraph src = some src := by
  obtain ⟨g2, hfold, hn, hee, hi, hid, hsorted, hperm⟩ :=
    copy_phase2_fold src hwf src.nodeList [] rfl
      { id := src.id,
        nodeList := src.nodeList,
        edges := [],
        entry := src.entry,
        index := src.index }
      rfl rfl rfl rfl List.Pairwise.nil (by simp)
  have hall : src.edges.filter
      (fun e => ([] ++ src.nodeList).any (fun m => e.src.id == m.id)) = src.edges := by
    apply List.filter_eq_self.mpr
    intro e he
    obtain ⟨m, hm, hmi⟩ := List.mem_map.mp (hwf.edgeSrcMem e he)
    rw [List.any_eq_true]
    exact ⟨m, by simpa using hm, by rw [beq_iff_eq, hmi]⟩
  rw [hall] at hperm
  have hlt : g2.edges.Pairwise edgeIdLt := by
    apply pairwise_edge_lt_of_le _ hsorted
    exact ((hperm.map edgeKey).nodup_iff).mpr (good_edgeKeys_nodup src hwf)
  have hedges : g2.edges = src.edges :=
    sorted_strict_perm_eq edgeIdLt edgeIdLt_asymm g2.edges src.edges hperm hlt
      hwf.edgesSorted
  have hg2 : g2 = src := by
    obtain ⟨a, b, c, d, e2⟩ := g2
    obtain ⟨a2, b2, c2, d2, e3⟩ := src
    simp only at hn hee hi hid hedges
    rw [hn, hee, hi, hid, hedges]
  unfold Copy
  dsimp only
  rw [copy_phase1 src hwf]
  simp only [Option.bind_eq_bind, Option.some_bind]
  rw [hfold, Option.some_bind, hg2]
  exact good_initNodes src hwf.namesNe hwf.namesNodup hwf.idxEq

theorem containsS_iff (l : List String) (x : String) : l.contains x = true ↔ x ∈ l :=
  List.elem_iff

theorem containsS_append (l1 l2 : List String) (x : String) :
    (l1 ++ l2).contains x = (l1.contains x || l2.contains x) := by
  rcases h1 : (l1 ++ l2).contains x with _ | _
  · rcases h2 : l1.contains x with _ | _
    · rcases h3 : l2.contains x with _ | _
      · rfl
      · exfalso
        rw [← Bool.not_eq_true] at h1
        exact h1 ((containsS_iff _ _).mpr
          (List.mem_append.mpr (Or.inr ((containsS_iff _ _).mp h3))))
    · exfalso
      rw [← Bool.not_eq_true] at h1
      exact h1 ((containsS_iff _ _).mpr
        (List.mem_append.mpr (Or.inl ((containsS_iff _ _).mp h2))))
  · rcases List.mem_append.mp ((containsS_iff _ _).mp h1) with h | h
    · rw [(containsS_iff _ _).mpr h]
      rfl
    · rw [(containsS_iff l2 x).mpr h, Bool.or_true]

theorem containsS_singleton (x y : String) : [y].contains x = (x == y) := by
  rcases h : (x == y) with _ | _
  · rw [← Bool.not_eq_true]
    intro hc
    have := (containsS_iff _ _).mp hc
    rw [List.mem_singleton] at this
    rw [this] at h
    simp at h
  · rw [beq_iff_eq] at h
    exact (containsS_iff _ _).mpr (by rw [h]; exact List.mem_singleton_self y)

theorem nodeWithName_sub (src : Graph) (hwf : GoodGraph src) (G : Graph)
    (qn : Node → Bool) (qi : String × Nat → Bool)
    (hGn : G.nodeList = src.nodeList.filter qn)
    (hGi : G.index = src.index.filter qi)
    (d : Node) (hd : d ∈ src.nodeList) (hqn : qn d = true)
    (hqi : qi (d.name, d.id) = true) :
    G.NodeWithName d.name = some d := by
  have hfindIx : G.index.find? (fun p => p.fst == d.name) = some (d.name, d.id) := by
    rw [hGi, hwf.idxEq]
    apply find?_of_unique _ _ (d.name, d.id)
      (List.mem_filter.mpr ⟨List.mem_map.mpr ⟨d, hd, rfl⟩, hqi⟩)
      (by simp)
    intro q hq hqp
    obtain ⟨m, hm, hmq⟩ := List.mem_map.mp (List.mem_filter.mp hq).1
    rw [beq_iff_eq] at hqp
    have hmn : m = d := good_name_inj src hwf m hm d hd (by rw [← hmq] at hqp; exact hqp)
    rw [← hmq, hmn]
  have hfindN : G.findById d.id = some d := by
    unfold Graph.findById
    rw [hGn]
    apply find?_of_unique _ _ d (List.mem_filter.mpr ⟨hd, hqn⟩) (by simp)
    intro x hx hpx
    rw [beq_iff_eq] at hpx
    exact good_node_inj src hwf x (List.mem_filter.mp hx).1 d hd hpx
  unfold Graph.NodeWithName
  unfold indexLookup
  rw [hfindIx]
  simp only [Option.map_some']
  simp only [Option.bind_eq_bind, Option.some_bind]
  exact hfindN

theorem edgeBetween_sub (src : Graph) (hwf : GoodGraph src) (G : Graph)
    (qe : Edge → Bool) (hGe : G.edges = src.edges.filter qe)
    (e : Edge) (he : e ∈ src.edges) (hqe : qe e = true) :
    G.edgeBetween e.src.id e.dst.id = some e := by
  unfold Graph.edgeBetween
  rw [hGe]
  apply find?_of_unique _ _ e (List.mem_filter.mpr ⟨he, hqe⟩) (by simp)
  intro x hx hpx
  rw [Bool.and_eq_true, beq_iff_eq, beq_iff_eq] at hpx
  apply good_edge_inj src hwf x (List.mem_filter.mp hx).1 e he
  unfold edgeKey
  rw [hpx.1, hpx.2]

theorem predsUpsert_mem (ps : List (Nat × Attrs)) (pid : Nat) (a : Attrs) :
    ∀ pa, pa ∈ predsUpsert ps pid a → pa = (pid, a) ∨ pa ∈ ps := by
  intro pa hpa
  unfold predsUpsert at hpa
  by_cases hany : (ps.any (fun q => q.fst == pid)) = true
  · rw [if_pos hany] at hpa
    obtain ⟨q, hq, hqe⟩ := List.mem_map.mp hpa
    by_cases hb : (q.fst == pid) = true
    · rw [if_pos hb] at hqe
      exact Or.inl hqe.symm
    · rw [if_neg hb] at hqe
      exact Or.inr (hqe ▸ hq)
  · rw [if_neg hany] at hpa
    rcases List.mem_append.mp hpa with h | h
    · exact Or.inr h
    · rw [List.mem_singleton] at h
      exact Or.inl h

theorem predsUpsert_keys (ps : List (Nat × Attrs)) (pid : Nat) (a : Attrs) :
    (predsUpsert ps pid a).map Prod.fst = ps.map Prod.fst
      ∨ (predsUpsert ps pid a).map Prod.fst = ps.map Prod.fst ++ [pid] := by
  unfold predsUpsert
  by_cases hany : (ps.any (fun q => q.fst == pid)) = true
  · rw [if_pos hany]
    refine Or.inl ?_
    rw [List.map_map]
    apply List.map_congr_left
    intro q hq
    by_cases hb : (q.fst == pid) = true
    · rw [beq_iff_eq] at hb
      simp only [Function.comp_apply]
      rw [if_pos (by rw [beq_iff_eq]; exact hb)]
      exact hb.symm
    · simp only [Function.comp_apply]
      rw [if_neg hb]
  · rw [if_neg hany]
    refine Or.inr ?_
    rw [List.map_append]
    rfl

theorem predsUpsert_self_mem (ps : List (Nat × Attrs)) (pid : Nat) (a : Attrs) :
    (pid, a) ∈ predsUpsert ps pid a := by
  unfold predsUpsert
  by_cases hany : (ps.any (fun q => q.fst == pid)) = true
  · rw [if_pos hany]
    rw [List.any_eq_true] at hany
    obtain ⟨q, hq, hqb⟩ := hany
    refine List.mem_map.mpr ⟨q, hq, ?_⟩
    rw [if_pos hqb]
  · rw [if_neg hany]
    exact List.mem_append.mpr (Or.inr (List.mem_singleton_self _))

theorem predsUpsert_nodup (ps : List (Nat × Attrs)) (pid : Nat) (a : Attrs)
    (hnd : (ps.map Prod.fst).Nodup) : ((predsUpsert ps pid a).map Prod.fst).Nodup := by
  unfold predsUpsert
  by_cases hany : (ps.any (fun q => q.fst == pid)) = true
  · rw [if_pos hany]
    have hkeys : (ps.map (fun q => if q.fst == pid then (pid, a) else q)).map Prod.fst
        = ps.map Prod.fst := by
      rw [List.map_map]
      apply List.map_congr_left
      intro q hq
      by_cases hb : (q.fst == pid) = true
      · simp only [Function.comp_apply]
        rw [if_pos hb]
        rw [beq_iff_eq] at hb
        exact hb.symm
      · simp only [Function.comp_apply]
        rw [if_neg hb]
    rw [hkeys]
    exact hnd
  · rw [if_neg hany]
    rw [List.map_append, List.nodup_append]
    refine ⟨hnd, by simp, ?_⟩
    intro k hk hk2
    simp only [List.map_cons, List.map_nil, List.mem_singleton] at hk2
    subst hk2
    obtain ⟨q, hq, hqk⟩ := List.mem_map.mp hk
    rw [List.any_eq_true] at hany
    exact hany ⟨q, hq, by rw [beq_iff_eq]; exact hqk⟩

theorem predsUpsert_keys_sub (ps : List (Nat × Attrs)) (pid : Nat) (a : Attrs) :
    ∀ k, k ∈ ps.map Prod.fst → k ∈ (predsUpsert ps pid a).map Prod.fst := by
  intro k hk
  rcases predsUpsert_keys ps pid a with h | h
  · rw [h]
    exact hk
  · rw [h]
    exact List.mem_append.mpr (Or.inl hk)

theorem succsAdd_mem (ss : List Nat) (sid : Nat) :
    ∀ x, x ∈ succsAdd ss sid → x = sid ∨ x ∈ ss := by
  intro x hx
  unfold succsAdd at hx
  by_cases hc : (ss.contains sid) = true
  · rw [if_pos hc] at hx
    exact Or.inr hx
  · rw [if_neg hc] at hx
    rcases List.mem_append.mp hx with h | h
    · exact Or.inr h
    · rw [List.mem_singleton] at h
      exact Or.inl h

theorem succsAdd_self (ss : List Nat) (sid : Nat) : sid ∈ succsAdd ss sid := by
  unfold succsAdd
  by_cases hc : (ss.contains sid) = true
  · rw [if_pos hc]
    exact (contains_iff ss sid).mp hc
  · rw [if_neg hc]
    exact List.mem_append.mpr (Or.inr (List.mem_singleton_self _))

theorem succsAdd_sub (ss : List Nat) (sid : Nat) :
    ∀ x, x ∈ ss → x ∈ succsAdd ss sid := by
  intro x hx
  unfold succsAdd
  by_cases hc : (ss.contains sid) = true
  · rw [if_pos hc]
    exact hx
  · rw [if_neg hc]
    exact List.mem_append.mpr (Or.inl hx)

theorem succsAdd_nodup (ss : List Nat) (sid : Nat) (h : ss.Nodup) :
    (succsAdd ss sid).Nodup := by
  unfold succsAdd
  by_cases hc : (ss.contains sid) = true
  · rw [if_pos hc]
    exact h
  · rw [if_neg hc]
    rw [List.nodup_append]
    refine ⟨h, List.nodup_singleton sid, ?_⟩
    intro x hx hx2
    rw [List.mem_singleton] at hx2
    exact hc ((contains_iff ss sid).mpr (hx2 ▸ hx))

theorem bool_ext (a b : Bool) (h : a = true ↔ b = true) : a = b := by
  cases a <;> cases b <;> simp_all

theorem bool_shuffle (x y z w : Bool) :
    (!(x || y) && !(z || w)) = ((!x && !z) && (!y && !w)) := by
  cases x <;> cases y <;> cases z <;> cases w <;> rfl

theorem anyD_append (src : Graph) (hwf : GoodGraph src) (D : List String) (dn : String)
    (d : Node) (hd : d ∈ src.nodeList) (hdname : d.name = dn) (i : Nat) :
    (src.nodeList.any (fun n => n.id == i && (D ++ [dn]).contains n.name))
      = ((src.nodeList.any (fun n => n.id == i && D.contains n.name)) || (i == d.id)) := by
  apply bool_ext
  constructor
  · intro h
    rw [List.any_eq_true] at h
    obtain ⟨n, hn, hb⟩ := h
    rw [Bool.and_eq_true] at hb
    obtain ⟨hbi, hbc⟩ := hb
    rw [containsS_append, containsS_singleton, Bool.or_eq_true] at hbc
    rcases hbc with hc | hc
    · rw [Bool.or_eq_true]
      refine Or.inl ?_
      rw [List.any_eq_true]
      exact ⟨n, hn, by rw [Bool.and_eq_true]; exact ⟨hbi, hc⟩⟩
    · rw [beq_iff_eq] at hc hbi
      have hnd2 : n = d := good_name_inj src hwf n hn d hd (by rw [hc, hdname])
      rw [Bool.or_eq_true]
      refine Or.inr ?_
      rw [beq_iff_eq, ← hbi, hnd2]
  · intro h
    rw [Bool.or_eq_true] at h
    rcases h with h | h
    · rw [List.any_eq_true] at h ⊢
      obtain ⟨n, hn, hb⟩ := h
      rw [Bool.and_eq_true] at hb
      refine ⟨n, hn, ?_⟩
      rw [Bool.and_eq_true, containsS_append, Bool.or_eq_true]
      exact ⟨hb.1, Or.inl hb.2⟩
    · rw [beq_iff_eq] at h
      rw [List.any_eq_true]
      refine ⟨d, hd, ?_⟩
      rw [Bool.and_eq_true, beq_iff_eq, containsS_append, containsS_singleton,
        Bool.or_eq_true]
      exact ⟨h.symm, Or.inr (by rw [beq_iff_eq]; exact hdname)⟩

theorem predsFold_inv (src : Graph) (hwf : GoodGraph src) (delNames D : List String)
    (G : Graph) (d : Node) (hd : d ∈ src.nodeList)
    (hGn : G.nodeList = src.nodeList.filter (fun n => !(D.contains n.name)))
    (hGe : G.edges = src.edges.filter
      (fun e => !(src.nodeList.any (fun n => n.id == e.src.id && D.contains n.name))
        && !(src.nodeList.any (fun n => n.id == e.dst.id && D.contains n.name))))
    (hGi : G.index = src.index.filter (fun p => !(D.contains p.fst))) :
    ∀ (ts : List Node) (ps : List (Nat × Attrs)),
      (∀ p, p ∈ ts → p ∈ G.To d.id) →
      (∀ pa, pa ∈ ps → PredWitness src delNames (D ++ [d.name]) pa) →
      (ps.map Prod.fst).Nodup →
      ∃ ps2,
        ts.foldlM
          (fun (ps : List (Nat × Attrs)) (p : Node) =>
            if delNames.contains p.name then some ps
            else do
              let pn ← G.NodeWithName p.name
              let e ← G.edgeBetween p.id d.id
              some (predsUpsert ps pn.id e.attrs)) ps = some ps2
        ∧ (∀ pa, pa ∈ ps2 → PredWitness src delNames (D ++ [d.name]) pa)
        ∧ (ps2.map Prod.fst).Nodup
        ∧ (∀ k, k ∈ ps.map Prod.fst → k ∈ ps2.map Prod.fst)
        ∧ (∀ p, p ∈ ts → ¬ delNames.contains p.name = true → p.id ∈ ps2.map Prod.fst)
  | [], ps, _, hsound, hnd =>
    ⟨ps, by rw [List.foldlM_nil]; rfl, hsound, hnd, fun k hk => hk,
      fun p hp _ => absurd hp (List.not_mem_nil p)⟩
  | p :: ts, ps, hts, hsound, hnd => by
    by_cases hskip : delNames.contains p.name = true
    · obtain ⟨ps2, hfold, hs2, hn2, hk2, hc2⟩ :=
        predsFold_inv src hwf delNames D G d hd hGn hGe hGi ts ps
          (fun q hq => hts q (List.mem_cons_of_mem p hq)) hsound hnd
      refine ⟨ps2, ?_, hs2, hn2, hk2, ?_⟩
      · rw [List.foldlM_cons, if_pos hskip]
        simp only [Option.bind_eq_bind, Option.some_bind]
        exact hfold
      · intro q hq hqn
        rcases List.mem_cons.mp hq with h | h
        · exact absurd (h ▸ hskip) hqn
        · exact hc2 q h hqn
    · obtain ⟨hpG, e0, he0G, hsrc, hdst⟩ := (To_iff G d.id p).mp (hts p (List.mem_cons_self p ts))
      have hpf := List.mem_filter.mp (hGn ▸ hpG)
      have hpsrc : p ∈ src.nodeList := hpf.1
      have hpn : G.NodeWithName p.name = some p :=
        nodeWithName_sub src hwf G _ _ hGn hGi p hpsrc hpf.2 hpf.2
      have he0f := List.mem_filter.mp (hGe ▸ he0G)
      have he0src : e0 ∈ src.edges := he0f.1
      have hlkE : G.edgeBetween p.id d.id = some e0 := by
        have h := edgeBetween_sub src hwf G _ hGe e0 he0src he0f.2
        rw [hsrc, hdst] at h
        exact h
      obtain ⟨ps2, hfold, hs2, hn2, hk2, hc2⟩ :=
        predsFold_inv src hwf delNames D G d hd hGn hGe hGi ts
          (predsUpsert ps p.id e0.attrs)
          (fun q hq => hts q (List.mem_cons_of_mem p hq))
          (by
            intro pa hpa
            rcases predsUpsert_mem ps p.id e0.attrs pa hpa with h | h
            · subst h
              refine ⟨p, hpsrc, rfl, hskip, d, e0, hd, ?_, he0src, hsrc, hdst, rfl⟩
              rw [containsS_append, containsS_singleton, Bool.or_eq_true]
              exact Or.inr (by simp)
            · exact hsound pa h)
          (predsUpsert_nodup ps p.id e0.attrs hnd)
      refine ⟨ps2, ?_, hs2, hn2, ?_, ?_⟩
      · rw [List.foldlM_cons, if_neg hskip, hpn]
        simp only [Option.bind_eq_bind, Option.some_bind]
        rw [hlkE]
        simp only [Option.bind_eq_bind, Option.some_bind]
        exact hfold
      · intro k hk
        exact hk2 k (predsUpsert_keys_sub ps p.id e0.attrs k hk)
      · intro q hq hqn
        rcases List.mem_cons.mp hq with h | h
        · subst h
          exact hk2 q.id (List.mem_map.mpr ⟨(q.id, e0.attrs),
            predsUpsert_self_mem ps q.id e0.attrs, rfl⟩)
        · exact hc2 q h hqn

theorem succsFold_inv (src : Graph) (hwf : GoodGraph src) (delNames D : List String)
    (G : Graph) (d : Node) (hd : d ∈ src.nodeList)
    (hGn : G.nodeList = src.nodeList.filter (fun n => !(D.contains n.name)))
    (hGe : G.edges = src.edges.filter
      (fun e => !(src.nodeList.any (fun n => n.id == e.src.id && D.contains n.name))
        && !(src.nodeList.any (fun n => n.id == e.dst.id && D.contains n.name))))
    (hGi : G.index = src.index.filter (fun p => !(D.contains p.fst))) :
    ∀ (ts : List Node) (ss : List Nat),
      (∀ s, s ∈ ts → s ∈ G.From d.id) →
      (∀ sid, sid ∈ ss → SuccWitness src delNames (D ++ [d.name]) sid) →
      ss.Nodup →
      ∃ ss2,
        ts.foldlM
          (fun (ss : List Nat) (s : Node) =>
            if delNames.contains s.name then some ss
            else do
              let sn ← G.NodeWithName s.name
              some (succsAdd ss sn.id)) ss = some ss2
        ∧ (∀ sid, sid ∈ ss2 → SuccWitness src delNames (D ++ [d.name]) sid)
        ∧ ss2.Nodup
        ∧ (∀ k, k ∈ ss → k ∈ ss2)
        ∧ (∀ s, s ∈ ts → ¬ delNames.contains s.name = true → s.id ∈ ss2)
  | [], ss, _, hsound, hnd =>
    ⟨ss, by rw [List.foldlM_nil]; rfl, hsound, hnd, fun k hk => hk,
      fun s hs _ => absurd hs (List.not_mem_nil s)⟩
  | s :: ts, ss, hts, hsound, hnd => by
    by_cases hskip : delNames.contains s.name = true
    · obtain ⟨ss2, hfold, hs2, hn2, hk2, hc2⟩ :=
        succsFold_inv src hwf delNames D G d hd hGn hGe hGi ts ss
          (fun q hq => hts q (List.mem_cons_of_mem s hq)) hsound hnd
      refine ⟨ss2, ?_, hs2, hn2, hk2, ?_⟩
      · rw [List.foldlM_cons, if_pos hskip]
        simp only [Option.bind_eq_bind, Option.some_bind]
        exact hfold
      · intro q hq hqn
        rcases List.mem_cons.mp hq with h | h
        · exact absurd (h ▸ hskip) hqn
        · exact hc2 q h hqn
    · obtain ⟨hpG, e0, he0G, hsrc, hdst⟩ := (From_iff G d.id s).mp (hts s (List.mem_cons_self s ts))
      have hpf := List.mem_filter.mp (hGn ▸ hpG)
      have hpsrc : s ∈ src.nodeList := hpf.1
      have hpn : G.NodeWithName s.name = some s :=
        nodeWithName_sub src hwf G _ _ hGn hGi s hpsrc hpf.2 hpf.2
      have he0f := List.mem_filter.mp (hGe ▸ he0G)
      have he0src : e0 ∈ src.edges := he0f.1
      obtain ⟨ss2, hfold, hs2, hn2, hk2, hc2⟩ :=
        succsFold_inv src hwf delNames D G d hd hGn hGe hGi ts
          (succsAdd ss s.id)
          (fun q hq => hts q (List.mem_cons_of_mem s hq))
          (by
            intro sid hsid
            rcases succsAdd_mem ss s.id sid hsid with h | h
            · subst h
              refine ⟨s, hpsrc, rfl, hskip, d, e0, hd, ?_, he0src, hsrc, hdst⟩
              rw [containsS_append, containsS_singleton, Bool.or_eq_true]
              exact Or.inr (by simp)
            · exact hsound sid h)
          (succsAdd_nodup ss s.id hnd)
      refine ⟨ss2, ?_, hs2, hn2, ?_, ?_⟩
      · rw [List.foldlM_cons, if_neg hskip, hpn]
        simp only [Option.bind_eq_bind, Option.some_bind]
        exact hfold
      · intro k hk
        exact hk2 k (succsAdd_sub ss s.id k hk)
      · intro q hq hqn
        rcases List.mem_cons.mp hq with h | h
        · subst h
          exact hk2 q.id (succsAdd_self ss q.id)
        · exact hc2 q h hqn

theorem removeNode_fields (g : Graph) (n : Node) :
    (g.RemoveNode n).id = g.id
    ∧ (g.RemoveNode n).nodeList = g.nodeList.filter (fun m => !(m.id == n.id))
    ∧ (g.RemoveNode n).edges = g.edges.filter
        (fun e => !(e.src.id == n.id) && !(e.dst.id == n.id))
    ∧ (g.RemoveNode n).index = g.index.filter (fun p => !(p.fst == n.name))
    ∧ (g.RemoveNode n).entry = (if n.entry = true then none else g.entry) := by
  unfold Graph.RemoveNode
  dsimp only
  by_cases h : n.entry = true
  · rw [if_pos h, if_pos h]
    exact ⟨rfl, rfl, rfl, rfl, rfl⟩
  · rw [if_neg h, if_neg h]
    exact ⟨rfl, rfl, rfl, rfl, rfl⟩

theorem name_beq_id (src : Graph) (hwf : GoodGraph src) (n d : Node)
    (hn : n ∈ src.nodeList) (hd : d ∈ src.nodeList) :
    (n.name == d.name) = (n.id == d.id) := by
  apply bool_ext
  rw [beq_iff_eq, beq_iff_eq]
  constructor
  · intro h
    rw [good_name_inj src hwf n hn d hd h]
  · intro h
    rw [good_node_inj src hwf n hn d hd h]

theorem anyEnt_append (src : Graph) (hwf : GoodGraph src) (D : List String) (dn : String)
    (d : Node) (hd : d ∈ src.nodeList) (hdname : d.name = dn) :
    (src.nodeList.any (fun n => (D ++ [dn]).contains n.name && n.entry))
      = ((src.nodeList.any (fun n => D.contains n.name && n.entry)) || d.entry) := by
  apply bool_ext
  constructor
  · intro h
    rw [List.any_eq_true] at h
    obtain ⟨n, hn, hb⟩ := h
    rw [Bool.and_eq_true, containsS_append, containsS_singleton, Bool.or_eq_true] at hb
    obtain ⟨hc, hent⟩ := hb
    rcases hc with hc | hc
    · rw [Bool.or_eq_true]
      refine Or.inl ?_
      rw [List.any_eq_true]
      exact ⟨n, hn, by rw [Bool.and_eq_true]; exact ⟨hc, hent⟩⟩
    · rw [beq_iff_eq] at hc
      have hnd2 : n = d := good_name_inj src hwf n hn d hd (by rw [hc, hdname])
      rw [Bool.or_eq_true]
      exact Or.inr (by rw [← hnd2]; exact hent)
  · intro h
    rw [Bool.or_eq_true] at h
    rcases h with h | h
    · rw [List.any_eq_true] at h ⊢
      obtain ⟨n, hn, hb⟩ := h
      rw [Bool.and_eq_true] at hb
      refine ⟨n, hn, ?_⟩
      rw [Bool.and_eq_true, containsS_append, Bool.or_eq_true]
      exact ⟨Or.inl hb.1, hb.2⟩
    · rw [List.any_eq_true]
      refine ⟨d, hd, ?_⟩
      rw [Bool.and_eq_true, containsS_append, containsS_singleton, Bool.or_eq_true]
      exact ⟨Or.inr (by rw [beq_iff_eq]; exact hdname), h⟩

theorem mergeStep_inv (src : Graph) (hwf : GoodGraph src) (delNames : List String)
    (D : List String) (dn : String)
    (hdnD : ¬ D.contains dn = true)
    (hdelD : ∀ x, D.contains x = true → delNames.contains x = true)
    (d : Node) (hd : d ∈ src.nodeList) (hdname : d.name = dn)
    (st : MergeSt) (hinv : MergeInv src delNames D st) :
    ∃ st2, mergeStep delNames st dn = some st2
      ∧ MergeInv src delNames (D ++ [dn]) st2 := by
  subst hdname
  have hDf : D.contains d.name = false := by
    rcases h : D.contains d.name
    · rfl
    · exact absurd h hdnD
  have h1 : st.g.NodeWithName d.name = some d :=
    nodeWithName_sub src hwf st.g _ _ hinv.gn hinv.gi d hd
      (by rw [hDf]; rfl) (by rw [hDf]; rfl)
  obtain ⟨ps2, hfoldP, hPs, hPnd, hPksub, hPcov⟩ :=
    predsFold_inv src hwf delNames D st.g d hd hinv.gn hinv.ge hinv.gi
      (st.g.To d.id) st.preds (fun p hp => hp)
      (by
        intro pa hpa
        obtain ⟨p, hp1, hp2, hp3, d2, e0, hd2, hc2, he0, hsrc0, hdst0, hat0⟩ :=
          hinv.pSound pa hpa
        refine ⟨p, hp1, hp2, hp3, d2, e0, hd2, ?_, he0, hsrc0, hdst0, hat0⟩
        rw [containsS_append, Bool.or_eq_true]
        exact Or.inl hc2)
      hinv.pNodup
  obtain ⟨ss2, hfoldS, hSs, hSnd, hSksub, hScov⟩ :=
    succsFold_inv src hwf delNames D st.g d hd hinv.gn hinv.ge hinv.gi
      (st.g.From d.id) st.succs (fun p hp => hp)
      (by
        intro sid hsid
        obtain ⟨p, hp1, hp2, hp3, d2, e0, hd2, hc2, he0, hsrc0, hdst0⟩ :=
          hinv.sSound sid hsid
        refine ⟨p, hp1, hp2, hp3, d2, e0, hd2, ?_, he0, hsrc0, hdst0⟩
        rw [containsS_append, Bool.or_eq_true]
        exact Or.inl hc2)
      hinv.sNodup
  obtain ⟨hrid, hrnl, hred, hrix, hrent⟩ := removeNode_fields st.g d
  refine ⟨{ g := st.g.RemoveNode d,
            preds := ps2,
            succs := ss2,
            isEntry := st.isEntry || d.entry }, ?_, ?_⟩
  · unfold mergeStep
    simp only [Option.bind_eq_bind] at hfoldP hfoldS
    rw [h1]
    simp only [Option.bind_eq_bind, Option.some_bind]
    rw [hfoldP]
    simp only [Option.bind_eq_bind, Option.some_bind]
    rw [hfoldS]
    simp only [Option.bind_eq_bind, Option.some_bind]
  · refine ⟨?_, ?_, ?_, ?_, ?_, ?_, hPs, ?_, hPnd, hSs, ?_, hSnd⟩
    · rw [hrid]
      exact hinv.gid
    · rw [hrnl, hinv.gn, List.filter_filter]
      apply List.filter_congr
      intro n hn
      rw [containsS_append, containsS_singleton, Bool.not_or,
        name_beq_id src hwf n d hn hd]
      exact (Bool.and_comm _ _)
    · rw [hred, hinv.ge, List.filter_filter]
      apply List.filter_congr
      intro e he
      rw [anyD_append src hwf D d.name d hd rfl e.src.id,
        anyD_append src hwf D d.name d hd rfl e.dst.id, bool_shuffle]
      exact (Bool.and_comm _ _)
    · rw [hrix, hinv.gi, List.filter_filter]
      apply List.filter_congr
      intro q hq
      rw [containsS_append, containsS_singleton, Bool.not_or]
      exact (Bool.and_comm _ _)
    · rw [hrent]
      by_cases hde : d.entry = true
      · rw [if_pos hde]
        rw [hwf.entryFlag d hd hde]
        simp only [Option.some_bind]
        rw [if_pos ?hc]
        case hc =>
          rw [containsS_append, containsS_singleton, Bool.or_eq_true]
          exact Or.inr (by simp)
      · rw [if_neg hde]
        rcases hsrcE : src.entry with _ | e
        · rw [hinv.gent, hsrcE]
          rfl
        · have hem := hwf.entryMem e hsrcE
          have hbe : (e.name == d.name) = false := by
            rcases hb : (e.name == d.name)
            · rfl
            · rw [beq_iff_eq] at hb
              have h2 : e = d := good_name_inj src hwf e hem.1 d hd hb
              rw [h2] at hem
              exact absurd hem.2 hde
          rw [hinv.gent, hsrcE]
          simp only [Option.some_bind]
          rw [containsS_append, containsS_singleton, hbe, Bool.or_false]
    · rw [anyEnt_append src hwf D d.name d hd rfl, hinv.ient]
    · intro p d2 e0 hp hpn hd2 hc2 he0 hs0 ht0
      rw [containsS_append, containsS_singleton, Bool.or_eq_true] at hc2
      rcases hc2 with hc | hc
      · obtain ⟨a, ha⟩ := hinv.pComplete p d2 e0 hp hpn hd2 hc he0 hs0 ht0
        have hk : p.id ∈ st.preds.map Prod.fst := List.mem_map.mpr ⟨(p.id, a), ha, rfl⟩
        obtain ⟨q, hq, hqk⟩ := List.mem_map.mp (hPksub p.id hk)
        refine ⟨q.snd, ?_⟩
        rw [← hqk]
        exact hq
      · rw [beq_iff_eq] at hc
        have hd2d : d2 = d := good_name_inj src hwf d2 hd2 d hd hc
        rw [hd2d] at ht0
        have hpB : (D.contains p.name) = false := by
          rcases hb : D.contains p.name
          · rfl
          · exact absurd (hdelD p.name hb) hpn
        have hpG : p ∈ st.g.nodeList := by
          rw [hinv.gn]
          exact List.mem_filter.mpr ⟨hp, by rw [hpB]; rfl⟩
        have he0G : e0 ∈ st.g.edges := by
          rw [hinv.ge]
          refine List.mem_filter.mpr ⟨he0, ?_⟩
          rw [Bool.and_eq_true]
          constructor
          · rw [Bool.not_eq_true']
            rcases hX : src.nodeList.any
                (fun n => n.id == e0.src.id && D.contains n.name)
            · rfl
            · exfalso
              rw [List.any_eq_true] at hX
              obtain ⟨n, hn, hb⟩ := hX
              rw [Bool.and_eq_true, beq_iff_eq] at hb
              have hnp : n = p := good_node_inj src hwf n hn p hp (by rw [hb.1, hs0])
              rw [hnp] at hb
              rw [hb.2] at hpB
              exact absurd hpB (by simp)
          · rw [Bool.not_eq_true']
            rcases hX : src.nodeList.any
                (fun n => n.id == e0.dst.id && D.contains n.name)
            · rfl
            · exfalso
              rw [List.any_eq_true] at hX
              obtain ⟨n, hn, hb⟩ := hX
              rw [Bool.and_eq_true, beq_iff_eq] at hb
              have hnd2 : n = d := good_node_inj src hwf n hn d hd (by rw [hb.1, ht0])
              rw [hnd2] at hb
              rw [hb.2] at hDf
              exact absurd hDf (by simp)
        have hpTo : p ∈ st.g.To d.id := (To_iff st.g d.id p).mpr ⟨hpG, e0, he0G, hs0, ht0⟩
        obtain ⟨q, hq, hqk⟩ := List.mem_map.mp (hPcov p hpTo hpn)
        refine ⟨q.snd, ?_⟩
        rw [← hqk]
        exact hq
    · intro s d2 e0 hs hsn hd2 hc2 he0 hs0 ht0
      rw [containsS_append, containsS_singleton, Bool.or_eq_true] at hc2
      rcases hc2 with hc | hc
      · exact hSksub s.id (hinv.sComplete s d2 e0 hs hsn hd2 hc he0 hs0 ht0)
      · rw [beq_iff_eq] at hc
        have hd2d : d2 = d := good_name_inj src hwf d2 hd2 d hd hc
        rw [hd2d] at hs0
        have hsB : (D.contains s.name) = false := by
          rcases hb : D.contains s.name
          · rfl
          · exact absurd (hdelD s.name hb) hsn
        have hsG : s ∈ st.g.nodeList := by
          rw [hinv.gn]
          exact List.mem_filter.mpr ⟨hs, by rw [hsB]; rfl⟩
        have he0G : e0 ∈ st.g.edges := by
          rw [hinv.ge]
          refine List.mem_filter.mpr ⟨he0, ?_⟩
          rw [Bool.and_eq_true]
          constructor
          · rw [Bool.not_eq_true']
            rcases hX : src.nodeList.any
                (fun n => n.id == e0.src.id && D.contains n.name)
            · rfl
            · exfalso
              rw [List.any_eq_true] at hX
              obtain ⟨n, hn, hb⟩ := hX
              rw [Bool.and_eq_true, beq_iff_eq] at hb
              have hnd2 : n = d := good_node_inj src hwf n hn d hd (by rw [hb.1, hs0])
              rw [hnd2] at hb
              rw [hb.2] at hDf
              exact absurd hDf (by simp)
          · rw [Bool.not_eq_true']
            rcases hX : src.nodeList.any
                (fun n => n.id == e0.dst.id && D.contains n.name)
            · rfl
            · exfalso
              rw [List.any_eq_true] at hX
              obtain ⟨n, hn, hb⟩ := hX
              rw [Bool.and_eq_true, beq_iff_eq] at hb
              have hns : n = s := good_node_inj src hwf n hn s hs (by rw [hb.1, ht0])
              rw [hns] at hb
              rw [hb.2] at hsB
              exact absurd hsB (by simp)
        have hsFrom : s ∈ st.g.From d.id := (From_iff st.g d.id s).mpr ⟨hsG, e0, he0G, hs0, ht0⟩
        exact hScov s hsFrom hsn

theorem merge_fold_inv (src : Graph) (hwf : GoodGraph src) (delNames : List String)
    (hpresent : ∀ dn, dn ∈ delNames → ∃ d, d ∈ src.nodeList ∧ d.name = dn)
    (hdnd : delNames.Nodup) :
    ∀ (R D : List String), delNames = D ++ R →
      ∀ st, MergeInv src delNames D st →
      ∃ st2, R.foldlM (mergeStep delNames) st = some st2
        ∧ MergeInv src delNames delNames st2
  | [], D, hsplit, st, hinv => by
    have hDeq : delNames = D := by rw [hsplit, List.append_nil]
    subst hDeq
    exact ⟨st, by rw [List.foldlM_nil]; rfl, hinv⟩
  | dn :: R, D, hsplit, st, hinv => by
    have hdnmem : dn ∈ delNames := by
      rw [hsplit]
      exact List.mem_append.mpr (Or.inr (List.mem_cons_self dn R))
    obtain ⟨d, hd, hdname⟩ := hpresent dn hdnmem
    have hdnD : ¬ D.contains dn = true := by
      intro hc
      have hmem := (containsS_iff _ _).mp hc
      have h2 := hdnd
      rw [hsplit] at h2
      obtain ⟨_, _, hdisj⟩ := List.nodup_append.mp h2
      exact hdisj hmem (List.mem_cons_self dn R)
    have hdelD : ∀ x, D.contains x = true → delNames.contains x = true := by
      intro x hx
      rw [containsS_iff] at hx ⊢
      rw [hsplit]
      exact List.mem_append.mpr (Or.inl hx)
    obtain ⟨st2, hstep, hinv2⟩ :=
      mergeStep_inv src hwf delNames D dn hdnD hdelD d hd hdname st hinv
    obtain ⟨st3, hfold, hinv3⟩ :=
      merge_fold_inv src hwf delNames hpresent hdnd R (D ++ [dn])
        (by rw [hsplit, List.append_assoc]; rfl) st2 hinv2
    refine ⟨st3, ?_, hinv3⟩
    rw [List.foldlM_cons, hstep]
    simp only [Option.bind_eq_bind, Option.some_bind]
    exact hfold

theorem mergeInv_init (src : Graph) (delNames : List String) :
    MergeInv src delNames []
      { g := src, preds := [], succs := [], isEntry := false } := by
  have hz : ∀ i, (src.nodeList.any
      (fun n => n.id == i && List.contains [] n.name)) = false := by
    intro i
    rw [← Bool.not_eq_true, List.any_eq_true]
    rintro ⟨n, _, hb⟩
    simp at hb
  refine ⟨rfl, ?_, ?_, ?_, ?_, ?_, ?_, ?_, List.nodup_nil, ?_, ?_, List.nodup_nil⟩
  · exact (List.filter_eq_self.mpr (fun a _ => rfl)).symm
  · symm
    apply List.filter_eq_self.mpr
    intro e _
    rw [hz e.src.id, hz e.dst.id]
    rfl
  · exact (List.filter_eq_self.mpr (fun a _ => rfl)).symm
  · rcases hsrc : src.entry with _ | e
    · rfl
    · rfl
  · symm
    rw [← Bool.not_eq_true, List.any_eq_true]
    rintro ⟨n, _, hb⟩
    simp at hb
  · intro pa hpa
    exact absurd hpa (List.not_mem_nil pa)
  · intro p d e0 _ _ _ hc
    exact fun _ _ _ => absurd hc (by simp)
  · intro sid hsid
    exact absurd hsid (List.not_mem_nil sid)
  · intro s d e0 _ _ _ hc
    exact fun _ _ _ => absurd hc (by simp)

theorem addNode_generic (g : Graph) (n : Node)
    (hhas : g.has n.id = false)
    (hent : n.entry = true → g.entry = none)
    (hname : ¬ n.name = "")
    (hidx : g.index.find? (fun p => p.fst == n.name) = none) :
    ∃ g2, g.AddNode n = some g2
      ∧ g2.nodeList = insertNodeSorted n g.nodeList
      ∧ g2.edges = g.edges
      ∧ g2.entry = (if n.entry = true then some n else g.entry)
      ∧ g2.id = g.id := by
  unfold Graph.AddNode
  rw [hhas, if_neg (by simp)]
  dsimp only
  by_cases he : n.entry = true
  · rw [if_pos he, hent he]
    dsimp only
    rw [if_neg (by simpa using hname)]
    unfold indexLookup
    rw [hidx]
    simp only [Option.map_none']
    refine ⟨_, rfl, rfl, rfl, ?_, rfl⟩
    rw [if_pos he]
  · rw [if_neg he]
    dsimp only
    rw [if_neg (by simpa using hname)]
    unfold indexLookup
    rw [hidx]
    simp only [Option.map_none']
    refine ⟨_, rfl, rfl, rfl, ?_, rfl⟩
    rw [if_neg he]

theorem predsEdges_fold (nn : Node) :
    ∀ (pas : List (Nat × Attrs)) (g : Graph),
      (gIds g).Nodup →
      (∀ pa, pa ∈ pas → ∃ p, p ∈ g.nodeList ∧ p.id = pa.fst) →
      nn ∈ g.nodeList →
      (∀ pa, pa ∈ pas → ¬ pa.fst = nn.id) →
      (pas.map Prod.fst).Nodup →
      (∀ pa, pa ∈ pas → ∀ f, f ∈ g.edges → ¬ (f.src.id = pa.fst ∧ f.dst.id = nn.id)) →
      ∃ g2 A,
        pas.foldlM
          (fun (g : Graph) (pa : Nat × Attrs) => do
            let p ← g.findById pa.fst
            g.SetEdge { src := p, dst := nn, attrs := pa.snd }) g = some g2
        ∧ g2.nodeList = g.nodeList ∧ g2.entry = g.entry ∧ g2.id = g.id
        ∧ g2.edges.Perm (g.edges ++ A)
        ∧ A.map (fun f => (f.src.id, f.attrs)) = pas
        ∧ (∀ f, f ∈ A → f.dst = nn)
  | [], g, _, _, _, _, _, _ =>
    ⟨g, [], by rw [List.foldlM_nil]; rfl, rfl, rfl, rfl, by simp, rfl,
      fun f hf => absurd hf (List.not_mem_nil f)⟩
  | pa :: pas, g, hnd, hex, hnn, hne, hknd, hfr => by
    obtain ⟨p, hp, hpid⟩ := hex pa (List.mem_cons_self pa pas)
    have hfind : g.findById pa.fst = some p := by
      unfold Graph.findById
      apply find?_of_unique _ _ p hp (by rw [beq_iff_eq]; exact hpid)
      intro x hx hpx
      rw [beq_iff_eq] at hpx
      exact List.inj_on_of_nodup_map hnd hx hp (by rw [hpx, hpid])
    have hset : g.SetEdge { src := p, dst := nn, attrs := pa.snd }
        = some { g with edges :=
            insertEdgeSorted { src := p, dst := nn, attrs := pa.snd } g.edges } := by
      apply setEdge_fresh
      · exact has_of_id_mem g p.id (List.mem_map.mpr ⟨p, hp, rfl⟩)
      · exact has_of_id_mem g nn.id (List.mem_map.mpr ⟨nn, hnn, rfl⟩)
      · intro h
        exact hne pa (List.mem_cons_self pa pas) (by rw [← hpid]; exact h)
      · intro f hf hcon
        exact hfr pa (List.mem_cons_self pa pas) f hf
          ⟨by rw [hcon.1, hpid], hcon.2⟩
    have hknd2 : (pas.map Prod.fst).Nodup := (List.nodup_cons.mp (by simpa using hknd)).2
    have hkhd : ¬ pa.fst ∈ pas.map Prod.fst := (List.nodup_cons.mp (by simpa using hknd)).1
    obtain ⟨g2, A, hfold, hn2, he2, hd2, hperm2, hmap2, hdst2⟩ :=
      predsEdges_fold nn pas
        { g with edges := insertEdgeSorted { src := p, dst := nn, attrs := pa.snd } g.edges }
        hnd
        (fun q hq => hex q (List.mem_cons_of_mem pa hq))
        hnn
        (fun q hq => hne q (List.mem_cons_of_mem pa hq))
        hknd2
        (by
          intro q hq f hf hcon
          rcases (List.mem_orderedInsert edgeIdLe).mp hf with h | h
          · apply hkhd
            have hq1 : q.1 = pa.1 := by
              rw [← hcon.1, h]
              exact hpid
            exact List.mem_map.mpr ⟨q, hq, hq1⟩
          · exact hfr q (List.mem_cons_of_mem pa hq) f h hcon)
    refine ⟨g2, { src := p, dst := nn, attrs := pa.snd } :: A, ?_, by rw [hn2],
      by rw [he2], by rw [hd2], ?_, ?_, ?_⟩
    · rw [List.foldlM_cons, hfind]
      simp only [Option.bind_eq_bind, Option.some_bind]
      rw [hset]
      simp only [Option.bind_eq_bind, Option.some_bind]
      exact hfold
    · refine hperm2.trans ?_
      have h1 : (insertEdgeSorted { src := p, dst := nn, attrs := pa.snd } g.edges).Perm
          ({ src := p, dst := nn, attrs := pa.snd } :: g.edges) :=
        List.perm_orderedInsert edgeIdLe _ g.edges
      refine (h1.append_right _).trans ?_
      exact List.perm_middle.symm
    · rw [List.map_cons, hmap2]
      dsimp only
      rw [hpid]
    · intro f hf
      rcases List.mem_cons.mp hf with h | h
      · rw [h]
      · exact hdst2 f h

theorem succsEdges_fold (nn : Node) :
    ∀ (sids : List Nat) (g : Graph),
      (gIds g).Nodup →
      (∀ sid, sid ∈ sids → ∃ s, s ∈ g.nodeList ∧ s.id = sid) →
      nn ∈ g.nodeList →
      (∀ sid, sid ∈ sids → ¬ sid = nn.id) →
      sids.Nodup →
      (∀ sid, sid ∈ sids → ∀ f, f ∈ g.edges → ¬ (f.src.id = nn.id ∧ f.dst.id = sid)) →
      ∃ g2 B,
        sids.foldlM
          (fun (g : Graph) (sid : Nat) => do
            let s ← g.findById sid
            g.SetEdge (g.NewEdge nn s)) g = some g2
        ∧ g2.nodeList = g.nodeList ∧ g2.entry = g.entry ∧ g2.id = g.id
        ∧ g2.edges.Perm (g.edges ++ B)
        ∧ B.map (fun f => f.dst.id) = sids
        ∧ (∀ f, f ∈ B → f.src = nn ∧ f.attrs = [])
  | [], g, _, _, _, _, _, _ =>
    ⟨g, [], by rw [List.foldlM_nil]; rfl, rfl, rfl, rfl, by simp, rfl,
      fun f hf => absurd hf (List.not_mem_nil f)⟩
  | sid :: sids, g, hnd, hex, hnn, hne, hsnd, hfr => by
    obtain ⟨s, hs, hsid⟩ := hex sid (List.mem_cons_self sid sids)
    have hfind : g.findById sid = some s := by
      unfold Graph.findById
      apply find?_of_unique _ _ s hs (by rw [beq_iff_eq]; exact hsid)
      intro x hx hpx
      rw [beq_iff_eq] at hpx
      exact List.inj_on_of_nodup_map hnd hx hs (by rw [hpx, hsid])
    have hset : g.SetEdge (g.NewEdge nn s)
        = some { g with edges := insertEdgeSorted (g.NewEdge nn s) g.edges } := by
      apply setEdge_fresh
      · exact has_of_id_mem g nn.id (List.mem_map.mpr ⟨nn, hnn, rfl⟩)
      · exact has_of_id_mem g s.id (List.mem_map.mpr ⟨s, hs, rfl⟩)
      · intro h
        exact hne sid (List.mem_cons_self sid sids) (by rw [← hsid]; exact h.symm)
      · intro f hf hcon
        exact hfr sid (List.mem_cons_self sid sids) f hf
          ⟨hcon.1, by rw [hcon.2]; exact hsid⟩
    have hsnd2 : sids.Nodup := (List.nodup_cons.mp hsnd).2
    have hshd : ¬ sid ∈ sids := (List.nodup_cons.mp hsnd).1
    obtain ⟨g2, B, hfold, hn2, he2, hd2, hperm2, hmap2, hsrc2⟩ :=
      succsEdges_fold nn sids
        { g with edges := insertEdgeSorted (g.NewEdge nn s) g.edges }
        hnd
        (fun q hq => hex q (List.mem_cons_of_mem sid hq))
        hnn
        (fun q hq => hne q (List.mem_cons_of_mem sid hq))
        hsnd2
        (by
          intro q hq f hf hcon
          rcases (List.mem_orderedInsert edgeIdLe).mp hf with h | h
          · apply hshd
            have hq2 : q = sid := by
              rw [← hcon.2, h]
              exact hsid
            exact hq2 ▸ hq
          · exact hfr q (List.mem_cons_of_mem sid hq) f h hcon)
    refine ⟨g2, g.NewEdge nn s :: B, ?_, by rw [hn2], by rw [he2], by rw [hd2],
      ?_, ?_, ?_⟩
    · rw [List.foldlM_cons, hfind]
      simp only [Option.bind_eq_bind, Option.some_bind]
      rw [hset]
      simp only [Option.bind_eq_bind, Option.some_bind]
      exact hfold
    · refine hperm2.trans ?_
      have h1 : (insertEdgeSorted (g.NewEdge nn s) g.edges).Perm
          (g.NewEdge nn s :: g.edges) :=
        List.perm_orderedInsert edgeIdLe _ g.edges
      refine (h1.append_right _).trans ?_
      exact List.perm_middle.symm
    · rw [List.map_cons, hmap2]
      dsimp only [Graph.NewEdge]
      rw [hsid]
    · intro f hf
      rcases List.mem_cons.mp hf with h | h
      · rw [h]
        exact ⟨rfl, rfl⟩
      · exact hsrc2 f h

theorem merge_assembled (src : Graph) (delNames : List String) (newName : String)
    (hwf : GoodGraph src)
    (hpresent : ∀ dn, dn ∈ delNames → ∃ d, d ∈ src.nodeList ∧ d.name = dn)
    (hdnd : delNames.Nodup)
    (hnewNe : ¬ newName = "")
    (hnewFresh : ∀ n, n ∈ src.nodeList → ¬ n.name = newName) :
    ∃ stF g3 A B, MergeInv src delNames delNames stF
      ∧ Merge src delNames newName = some g3
      ∧ (∀ x, x ∈ g3.nodeList ↔
          (x = { id := src.freshId, name := newName, entry := stF.isEntry }
            ∨ x ∈ stF.g.nodeList))
      ∧ g3.edges.Perm ((stF.g.edges ++ A) ++ B)
      ∧ A.map (fun f => (f.src.id, f.attrs)) = stF.preds
      ∧ (∀ f, f ∈ A → f.dst = { id := src.freshId, name := newName, entry := stF.isEntry })
      ∧ B.map (fun f => f.dst.id) = stF.succs
      ∧ (∀ f, f ∈ B → f.src = { id := src.freshId, name := newName, entry := stF.isEntry }
          ∧ f.attrs = [])
      ∧ g3.entry = (if stF.isEntry = true
          then some { id := src.freshId, name := newName, entry := stF.isEntry }
          else stF.g.entry) := by
  obtain ⟨stF, hfoldM, hinvF⟩ :=
    merge_fold_inv src hwf delNames hpresent hdnd delNames [] rfl
      { g := src, preds := [], succs := [], isEntry := false }
      (mergeInv_init src delNames)
  have hfresh_gt := freshId_gt src
  have hstFsub : ∀ x, x ∈ stF.g.nodeList → x ∈ src.nodeList := by
    intro x hx
    rw [hinvF.gn] at hx
    exact (List.mem_filter.mp hx).1
  have hhas : stF.g.has src.freshId = false := by
    rcases hX : stF.g.has src.freshId with _ | _
    · rfl
    · exfalso
      unfold Graph.has at hX
      rw [List.any_eq_true] at hX
      obtain ⟨m, hm, hb⟩ := hX
      rw [beq_iff_eq] at hb
      exact absurd hb (Nat.ne_of_lt (hfresh_gt m (hstFsub m hm)))
  have hentF : ({ id := src.freshId, name := newName, entry := stF.isEntry } : Node).entry = true → stF.g.entry = none := by
    intro hie
    dsimp only at hie
    have h2 := hinvF.ient
    rw [hie] at h2
    have h3 := h2.symm
    rw [List.any_eq_true] at h3
    obtain ⟨n, hn, hb⟩ := h3
    rw [Bool.and_eq_true] at hb
    rw [hinvF.gent, hwf.entryFlag n hn hb.2]
    simp only [Option.some_bind]
    rw [if_pos hb.1]
  have hidxF : stF.g.index.find?
      (fun p => p.fst == ({ id := src.freshId, name := newName, entry := stF.isEntry } : Node).name) = none := by
    apply List.find?_eq_none.mpr
    intro q hq hqb
    rw [hinvF.gi] at hq
    have hq2 := (List.mem_filter.mp hq).1
    rw [hwf.idxEq] at hq2
    obtain ⟨m, hm, hmq⟩ := List.mem_map.mp hq2
    rw [beq_iff_eq] at hqb
    apply hnewFresh m hm
    rw [← hmq] at hqb
    exact hqb
  obtain ⟨gAdd, hAdd, hAnl, hAed, hAent, hAid⟩ :=
    addNode_generic stF.g { id := src.freshId, name := newName, entry := stF.isEntry }
      hhas hentF (by dsimp only; exact hnewNe) hidxF
  have hmemAdd : ∀ x, x ∈ gAdd.nodeList ↔
      (x = { id := src.freshId, name := newName, entry := stF.isEntry }
        ∨ x ∈ stF.g.nodeList) := by
    intro x
    rw [hAnl]
    exact List.mem_orderedInsert nodeIdLe
  have hndAdd : (gIds gAdd).Nodup := by
    have hperm : (gIds gAdd).Perm
        (({ id := src.freshId, name := newName, entry := stF.isEntry } : Node).id
          :: gIds stF.g) := by
      unfold gIds
      rw [hAnl]
      unfold insertNodeSorted
      exact (List.perm_orderedInsert nodeIdLe _ _).map Node.id
    rw [hperm.nodup_iff]
    rw [List.nodup_cons]
    constructor
    · intro hmem
      obtain ⟨m, hm, hmi⟩ := List.mem_map.mp hmem
      exact absurd hmi (Nat.ne_of_lt (hfresh_gt m (hstFsub m hm)))
    · have hsub : List.Sublist stF.g.nodeList src.nodeList := by
        rw [hinvF.gn]
        exact List.filter_sublist src.nodeList
      exact (hsub.map Node.id).nodup (good_ids_nodup src hwf)
  have hNNmem : ({ id := src.freshId, name := newName, entry := stF.isEntry } : Node) ∈ gAdd.nodeList :=
    (hmemAdd _).mpr (Or.inl rfl)
  obtain ⟨g2, A, hfoldA, hn2, he2, hd2, hpermA, hmapA, hdstA⟩ :=
    predsEdges_fold { id := src.freshId, name := newName, entry := stF.isEntry }
      stF.preds gAdd hndAdd
      (by
        intro pa hpa
        obtain ⟨p, hp1, hp2, hp3, _⟩ := hinvF.pSound pa hpa
        refine ⟨p, ?_, hp2⟩
        refine (hmemAdd p).mpr (Or.inr ?_)
        rw [hinvF.gn]
        refine List.mem_filter.mpr ⟨hp1, ?_⟩
        rcases hb : delNames.contains p.name with _ | _
        · rfl
        · exact absurd hb hp3)
      hNNmem
      (by
        intro pa hpa hc
        obtain ⟨p, hp1, hp2, _⟩ := hinvF.pSound pa hpa
        rw [← hp2] at hc
        exact absurd hc (Nat.ne_of_lt (hfresh_gt p hp1)))
      hinvF.pNodup
      (by
        intro pa hpa f hf hcon
        rw [hAed, hinvF.ge] at hf
        have hf2 := (List.mem_filter.mp hf).1
        obtain ⟨m, hm, hmi⟩ := List.mem_map.mp (hwf.edgeDstMem f hf2)
        rw [hcon.2] at hmi
        exact absurd hmi (Nat.ne_of_lt (hfresh_gt m hm)))
  obtain ⟨g3, B, hfoldB, hn3, he3, hd3, hpermB, hmapB, hsrcB⟩ :=
    succsEdges_fold { id := src.freshId, name := newName, entry := stF.isEntry }
      stF.succs g2 (by unfold gIds; rw [hn2]; exact hndAdd)
      (by
        intro sid hsid
        obtain ⟨p, hp1, hp2, hp3, _⟩ := hinvF.sSound sid hsid
        refine ⟨p, ?_, hp2⟩
        rw [hn2]
        refine (hmemAdd p).mpr (Or.inr ?_)
        rw [hinvF.gn]
        refine List.mem_filter.mpr ⟨hp1, ?_⟩
        rcases hb : delNames.contains p.name with _ | _
        · rfl
        · exact absurd hb hp3)
      (by rw [hn2]; exact hNNmem)
      (by
        intro sid hsid hc
        obtain ⟨p, hp1, hp2, _⟩ := hinvF.sSound sid hsid
        rw [← hp2] at hc
        exact absurd hc (Nat.ne_of_lt (hfresh_gt p hp1)))
      hinvF.sNodup
      (by
        intro sid hsid f hf hcon
        have hfm := hpermA.mem_iff.mp hf
        rcases List.mem_append.mp hfm with h | h
        · rw [hAed, hinvF.ge] at h
          have hf2 := (List.mem_filter.mp h).1
          obtain ⟨m, hm, hmi⟩ := List.mem_map.mp (hwf.edgeSrcMem f hf2)
          rw [hcon.1] at hmi
          exact absurd hmi (Nat.ne_of_lt (hfresh_gt m hm))
        · obtain ⟨p, hp1, hp2, _⟩ := hinvF.sSound sid hsid
          have hfd := hdstA f h
          rw [hfd] at hcon
          dsimp only at hcon
          rw [← hcon.2] at hp2
          exact absurd hp2 (Nat.ne_of_lt (hfresh_gt p hp1)))
  refine ⟨stF, g3, A, B, hinvF, ?_, ?_, ?_, hmapA, hdstA, hmapB, hsrcB, ?_⟩
  · unfold Merge
    rw [copy_good src hwf]
    simp only [Option.bind_eq_bind, Option.some_bind]
    have hnw : src.NewNodeWithName newName
        = some { id := src.freshId, name := newName } := by
      unfold Graph.NewNodeWithName
      rw [if_neg (by simpa using hnewNe)]
    rw [hnw]
    simp only [Option.bind_eq_bind, Option.some_bind]
    rw [hfoldM]
    simp only [Option.bind_eq_bind, Option.some_bind]
    rw [hAdd]
    simp only [Option.bind_eq_bind, Option.some_bind]
    simp only [Option.bind_eq_bind] at hfoldA hfoldB
    rw [hfoldA]
    simp only [Option.bind_eq_bind, Option.some_bind]
    rw [hfoldB]
    simp only [Option.bind_eq_bind, Option.some_bind]
  · intro x
    rw [hn3, hn2]
    exact hmemAdd x
  · refine hpermB.trans ?_
    refine (hpermA.append_right B).trans ?_
    rw [hAed]
  · rw [he3, he2, hAent]

/-- Witness for C3: the hypotheses hold of `dfsWitGraph` (entry `a`,
edge `a -> b`, unreachable `c`), so the traversal numbers its three
nodes with pre values `\x7b0,1,2\x7d` and rev-post values `\x7b0,1,2\x7d`. -/
theorem C3_witness :
    ∃ g2, InitDFSOrder dfsWitGraph = some g2 ∧ skel g2 = skel dfsWitGraph
      ∧ ((gIds dfsWitGraph).map (preOf g2)).Perm
          (intRange 0 dfsWitGraph.nodeList.length)
      ∧ ((gIds dfsWitGraph).map (revPostOf g2)).Perm
          (intRange 0 dfsWitGraph.nodeList.length) :=
  C3_dfs_numbering dfsWitGraph dfsWitNodeA (by decide) (by decide) (by decide)

/-- C2: for every well-formed graph, every duplicate-free set of node
names all present in it, and every fresh nonempty new name, `Merge`
succeeds and returns a graph in which the named nodes are gone and a
single node carrying the new name exists; every edge is either an
untouched external edge of the source, or the unique attributed edge
from an external predecessor of the collapsed set into the new node
(its attributes those of one of that predecessor's original edges into
the set), or the unique attribute-less edge from the new node to an
external successor of the set; internal edges survive in no form; and
the new node is the entry exactly when a collapsed node was. -/
theorem C2_merge (src : Graph) (delNames : List String) (newName : String)
    (hwf : GoodGraph src)
    (hpresent : ∀ dn, dn ∈ delNames → ∃ d, d ∈ src.nodeList ∧ d.name = dn)
    (hdnd : delNames.Nodup)
    (hnewNe : ¬ newName = "")
    (hnewFresh : ∀ n, n ∈ src.nodeList → ¬ n.name = newName) :
    ∃ g3 nn, Merge src delNames newName = some g3
      ∧ nn ∈ g3.nodeList ∧ nn.name = newName
      ∧ (∀ n, n ∈ g3.nodeList → ¬ delNames.contains n.name = true)
      ∧ (∀ n, n ∈ src.nodeList → ¬ delNames.contains n.name = true → n ∈ g3.nodeList)
      ∧ (∀ m, m ∈ g3.nodeList →
          m = nn ∨ (m ∈ src.nodeList ∧ ¬ delNames.contains m.name = true))
      ∧ (∀ m, m ∈ g3.nodeList → m.name = newName → m = nn)
      ∧ (∀ e, e ∈ g3.edges →
          (e ∈ src.edges
            ∧ ¬ src.nodeList.any
                (fun n => n.id == e.src.id && delNames.contains n.name) = true
            ∧ ¬ src.nodeList.any
                (fun n => n.id == e.dst.id && delNames.contains n.name) = true)
          ∨ (e.dst.id = nn.id ∧ PredWitness src delNames delNames (e.src.id, e.attrs))
          ∨ (e.src.id = nn.id ∧ e.attrs = []
              ∧ SuccWitness src delNames delNames e.dst.id))
      ∧ (∀ e, e ∈ src.edges →
          ¬ src.nodeList.any
              (fun n => n.id == e.src.id && delNames.contains n.name) = true →
          ¬ src.nodeList.any
              (fun n => n.id == e.dst.id && delNames.contains n.name) = true →
          e ∈ g3.edges)
      ∧ (∀ p, p ∈ src.nodeList → ¬ delNames.contains p.name = true →
          ((∃ d e0, d ∈ src.nodeList ∧ delNames.contains d.name = true ∧ e0 ∈ src.edges
              ∧ e0.src.id = p.id ∧ e0.dst.id = d.id) →
            g3.edges.countP (fun e => e.src.id == p.id && e.dst.id == nn.id) = 1)
          ∧ (¬ (∃ d e0, d ∈ src.nodeList ∧ delNames.contains d.name = true
              ∧ e0 ∈ src.edges ∧ e0.src.id = p.id ∧ e0.dst.id = d.id) →
            g3.edges.countP (fun e => e.src.id == p.id && e.dst.id == nn.id) = 0))
      ∧ (∀ s, s ∈ src.nodeList → ¬ delNames.contains s.name = true →
          ((∃ d e0, d ∈ src.nodeList ∧ delNames.contains d.name = true ∧ e0 ∈ src.edges
              ∧ e0.src.id = d.id ∧ e0.dst.id = s.id) →
            g3.edges.countP (fun e => e.src.id == nn.id && e.dst.id == s.id) = 1)
          ∧ (¬ (∃ d e0, d ∈ src.nodeList ∧ delNames.contains d.name = true
              ∧ e0 ∈ src.edges ∧ e0.src.id = d.id ∧ e0.dst.id = s.id) →
            g3.edges.countP (fun e => e.src.id == nn.id && e.dst.id == s.id) = 0))
      ∧ ((∃ en, g3.entry = some en ∧ en.id = nn.id)
          ↔ (∃ d, d ∈ src.nodeList ∧ delNames.contains d.name = true
              ∧ d.entry = true)) := by
  obtain ⟨stF, g3, A, B, hinvF, hM, hmem3, hperm3, hmapA, hdstA, hmapB, hsrcB, hent3⟩ :=
    merge_assembled src delNames newName hwf hpresent hdnd hnewNe hnewFresh
  have hfresh_gt := freshId_gt src
  have hnewNotDel : ¬ delNames.contains newName = true := by
    intro hc
    obtain ⟨d, hd, hdn⟩ := hpresent newName ((containsS_iff _ _).mp hc)
    exact hnewFresh d hd hdn
  have hAkeys : A.map (fun f => f.src.id) = stF.preds.map Prod.fst := by
    rw [← hmapA, List.map_map]
    rfl
  refine ⟨g3, { id := src.freshId, name := newName, entry := stF.isEntry },
    hM, (hmem3 _).mpr (Or.inl rfl), rfl, ?_, ?_, ?_, ?_, ?_, ?_, ?_, ?_, ?_⟩
  · intro n hn
    rcases (hmem3 n).mp hn with h | h
    · rw [h]
      exact hnewNotDel
    · rw [hinvF.gn] at h
      have hb := (List.mem_filter.mp h).2
      intro hc
      rw [hc] at hb
      exact absurd hb (by simp)
  · intro n hn hnd2
    refine (hmem3 n).mpr (Or.inr ?_)
    rw [hinvF.gn]
    refine List.mem_filter.mpr ⟨hn, ?_⟩
    rcases hb : delNames.contains n.name with _ | _
    · rfl
    · exact absurd hb hnd2
  · intro m hm
    rcases (hmem3 m).mp hm with h | h
    · exact Or.inl h
    · rw [hinvF.gn] at h
      obtain ⟨h1, h2⟩ := List.mem_filter.mp h
      refine Or.inr ⟨h1, ?_⟩
      intro hc
      rw [hc] at h2
      exact absurd h2 (by simp)
  · intro m hm hname
    rcases (hmem3 m).mp hm with h | h
    · exact h
    · rw [hinvF.gn] at h
      exact absurd hname (hnewFresh m (List.mem_filter.mp h).1)
  · intro e he
    have hm := hperm3.mem_iff.mp he
    rcases List.mem_append.mp hm with h | h
    · rcases List.mem_append.mp h with h2 | h2
      · rw [hinvF.ge] at h2
        obtain ⟨h3, h4⟩ := List.mem_filter.mp h2
        rw [Bool.and_eq_true, Bool.not_eq_true', Bool.not_eq_true'] at h4
        refine Or.inl ⟨h3, ?_, ?_⟩
        · rw [h4.1]
          simp
        · rw [h4.2]
          simp
      · refine Or.inr (Or.inl ⟨?_, ?_⟩)
        · rw [hdstA e h2]
        · apply hinvF.pSound
          rw [← hmapA]
          exact List.mem_map.mpr ⟨e, h2, rfl⟩
    · refine Or.inr (Or.inr ⟨?_, (hsrcB e h).2, ?_⟩)
      · rw [(hsrcB e h).1]
      · apply hinvF.sSound
        rw [← hmapB]
        exact List.mem_map.mpr ⟨e, h, rfl⟩
  · intro e he hs hd
    apply hperm3.mem_iff.mpr
    refine List.mem_append.mpr (Or.inl (List.mem_append.mpr (Or.inl ?_)))
    rw [hinvF.ge]
    refine List.mem_filter.mpr ⟨he, ?_⟩
    rw [Bool.and_eq_true, Bool.not_eq_true', Bool.not_eq_true']
    constructor
    · rcases hb : src.nodeList.any
          (fun n => n.id == e.src.id && delNames.contains n.name) with _ | _
      · rfl
      · exact absurd hb hs
    · rcases hb : src.nodeList.any
          (fun n => n.id == e.dst.id && delNames.contains n.name) with _ | _
      · rfl
      · exact absurd hb hd
  · intro p hp hpdel
    have hcount : g3.edges.countP
        (fun e => e.src.id == p.id
          && e.dst.id == ({ id := src.freshId, name := newName, entry := stF.isEntry } : Node).id)
        = (stF.g.edges.countP (fun e => e.src.id == p.id && e.dst.id == src.freshId)
          + A.countP (fun e => e.src.id == p.id && e.dst.id == src.freshId))
          + B.countP (fun e => e.src.id == p.id && e.dst.id == src.freshId) := by
      rw [hperm3.countP_eq, List.countP_append, List.countP_append]
    have hstF0 : stF.g.edges.countP
        (fun e => e.src.id == p.id && e.dst.id == src.freshId) = 0 := by
      rw [List.countP_eq_zero]
      intro e he hb
      rw [Bool.and_eq_true, beq_iff_eq, beq_iff_eq] at hb
      rw [hinvF.ge] at he
      have he2 := (List.mem_filter.mp he).1
      obtain ⟨m, hm, hmi⟩ := List.mem_map.mp (hwf.edgeDstMem e he2)
      rw [hb.2] at hmi
      exact absurd hmi (Nat.ne_of_lt (hfresh_gt m hm))
    have hB0 : B.countP (fun e => e.src.id == p.id && e.dst.id == src.freshId) = 0 := by
      rw [List.countP_eq_zero]
      intro f hf hb
      rw [Bool.and_eq_true, beq_iff_eq, beq_iff_eq] at hb
      have h2 := (hsrcB f hf).1
      have h3 : f.src.id = src.freshId := by rw [h2]
      rw [hb.1] at h3
      exact absurd h3 (Nat.ne_of_lt (hfresh_gt p hp))
    have hA : A.countP (fun e => e.src.id == p.id && e.dst.id == src.freshId)
        = (stF.preds.map Prod.fst).count p.id := by
      rw [List.count_eq_countP, ← hAkeys, List.countP_map]
      apply List.countP_congr
      intro f hf
      have h2 : (f.dst.id == src.freshId) = true := by
        rw [beq_iff_eq, (hdstA f hf)]
      rw [h2, Bool.and_true]
      constructor
      · intro hb
        simp only [Function.comp_apply]
        rw [beq_iff_eq] at hb
        rw [beq_iff_eq]
        exact hb
      · intro hb
        simp only [Function.comp_apply] at hb
        rw [beq_iff_eq] at hb
        rw [beq_iff_eq]
        exact hb
    constructor
    · rintro ⟨d, e0, hd, hcd, he0, hs0, ht0⟩
      obtain ⟨a, hmem⟩ := hinvF.pComplete p d e0 hp hpdel hd hcd he0 hs0 ht0
      have hk : p.id ∈ stF.preds.map Prod.fst := List.mem_map.mpr ⟨(p.id, a), hmem, rfl⟩
      rw [hcount, hstF0, hB0, hA, List.count_eq_one_of_mem hinvF.pNodup hk]
    · intro hno
      have hk : ¬ p.id ∈ stF.preds.map Prod.fst := by
        intro hk
        obtain ⟨q0, hq0, hq0k⟩ := List.mem_map.mp hk
        obtain ⟨p2, hp2a, hp2b, _, d, e0, hd, hcd, he0, hs0, ht0, _⟩ :=
          hinvF.pSound q0 hq0
        exact hno ⟨d, e0, hd, hcd, he0, by rw [hs0, hp2b, hq0k], ht0⟩
      rw [hcount, hstF0, hB0, hA, List.count_eq_zero_of_not_mem hk]
  · intro s hs hsdel
    have hcount : g3.edges.countP
        (fun e => e.src.id == ({ id := src.freshId, name := newName, entry := stF.isEntry } : Node).id && e.dst.id == s.id)
        = (stF.g.edges.countP (fun e => e.src.id == src.freshId && e.dst.id == s.id)
          + A.countP (fun e => e.src.id == src.freshId && e.dst.id == s.id))
          + B.countP (fun e => e.src.id == src.freshId && e.dst.id == s.id) := by
      rw [hperm3.countP_eq, List.countP_append, List.countP_append]
    have hstF0 : stF.g.edges.countP
        (fun e => e.src.id == src.freshId && e.dst.id == s.id) = 0 := by
      rw [List.countP_eq_zero]
      intro e he hb
      rw [Bool.and_eq_true, beq_iff_eq, beq_iff_eq] at hb
      rw [hinvF.ge] at he
      have he2 := (List.mem_filter.mp he).1
      obtain ⟨m, hm, hmi⟩ := List.mem_map.mp (hwf.edgeSrcMem e he2)
      rw [hb.1] at hmi
      exact absurd hmi (Nat.ne_of_lt (hfresh_gt m hm))
    have hA0 : A.countP (fun e => e.src.id == src.freshId && e.dst.id == s.id) = 0 := by
      rw [List.countP_eq_zero]
      intro f hf hb
      rw [Bool.and_eq_true, beq_iff_eq, beq_iff_eq] at hb
      have h2 : f.dst.id = src.freshId := by rw [hdstA f hf]
      rw [hb.2] at h2
      exact absurd h2 (Nat.ne_of_lt (hfresh_gt s hs))
    have hB : B.countP (fun e => e.src.id == src.freshId && e.dst.id == s.id)
        = stF.succs.count s.id := by
      rw [List.count_eq_countP, ← hmapB, List.countP_map]
      apply List.countP_congr
      intro f hf
      have h2 : (f.src.id == src.freshId) = true := by
        rw [beq_iff_eq, (hsrcB f hf).1]
      rw [h2, Bool.true_and]
      constructor
      · intro hb
        simp only [Function.comp_apply]
        rw [beq_iff_eq] at hb
        rw [beq_iff_eq]
        exact hb
      · intro hb
        simp only [Function.comp_apply] at hb
        rw [beq_iff_eq] at hb
        rw [beq_iff_eq]
        exact hb
    constructor
    · rintro ⟨d, e0, hd, hcd, he0, hs0, ht0⟩
      have hk := hinvF.sComplete s d e0 hs hsdel hd hcd he0 hs0 ht0
      rw [hcount, hstF0, hA0, hB, List.count_eq_one_of_mem hinvF.sNodup hk]
    · intro hno
      have hk : ¬ s.id ∈ stF.succs := by
        intro hk
        obtain ⟨s2, hs2a, hs2b, _, d, e0, hd, hcd, he0, hs0, ht0⟩ :=
          hinvF.sSound s.id hk
        exact hno ⟨d, e0, hd, hcd, he0, hs0, ht0⟩
      rw [hcount, hstF0, hA0, hB, List.count_eq_zero_of_not_mem hk]
  · constructor
    · rintro ⟨en, hen, henid⟩
      by_cases hie : stF.isEntry = true
      · have h2 := hinvF.ient
        rw [hie] at h2
        have h3 := h2.symm
        rw [List.any_eq_true] at h3
        obtain ⟨n, hn, hb⟩ := h3
        rw [Bool.and_eq_true] at hb
        exact ⟨n, hn, hb.1, hb.2⟩
      · exfalso
        rw [hent3, if_neg hie] at hen
        rcases hsrcE : src.entry with _ | e
        · rw [hinvF.gent, hsrcE] at hen
          exact absurd hen (by simp)
        · rw [hinvF.gent, hsrcE] at hen
          simp only [Option.some_bind] at hen
          by_cases hce : delNames.contains e.name = true
          · rw [if_pos hce] at hen
            exact absurd hen (by simp)
          · rw [if_neg hce] at hen
            have hene : en = e := (Option.some_inj.mp hen).symm
            have hmem := (hwf.entryMem e hsrcE).1
            rw [hene] at henid
            exact absurd henid (Nat.ne_of_lt (hfresh_gt e hmem))
    · rintro ⟨d, hd, hcd, hded⟩
      have hie : stF.isEntry = true := by
        rw [hinvF.ient, List.any_eq_true]
        exact ⟨d, hd, by rw [Bool.and_eq_true]; exact ⟨hcd, hded⟩⟩
      refine ⟨{ id := src.freshId, name := newName, entry := stF.isEntry }, ?_, rfl⟩
      rw [hent3, if_pos hie]

/-- Witness for C2: collapsing `\x7bb, c\x7d` of `mrgGraph` into a fresh
node `M` satisfies every conjunct of the merge contract. -/
theorem C2_witness :
    ∃ g3 nn, Merge mrgGraph ["b", "c"] "M" = some g3
      ∧ nn ∈ g3.nodeList ∧ nn.name = "M"
      ∧ (∀ n, n ∈ g3.nodeList → ¬ (["b", "c"] : List String).contains n.name = true)
      ∧ (∀ n, n ∈ mrgGraph.nodeList →
          ¬ (["b", "c"] : List String).contains n.name = true → n ∈ g3.nodeList)
      ∧ (∀ m, m ∈ g3.nodeList →
          m = nn ∨ (m ∈ mrgGraph.nodeList
            ∧ ¬ (["b", "c"] : List String).contains m.name = true))
      ∧ (∀ m, m ∈ g3.nodeList → m.name = "M" → m = nn)
      ∧ (∀ e, e ∈ g3.edges →
          (e ∈ mrgGraph.edges
            ∧ ¬ mrgGraph.nodeList.any
                (fun n => n.id == e.src.id
                  && (["b", "c"] : List String).contains n.name) = true
            ∧ ¬ mrgGraph.nodeList.any
                (fun n => n.id == e.dst.id
                  && (["b", "c"] : List String).contains n.name) = true)
          ∨ (e.dst.id = nn.id
              ∧ PredWitness mrgGraph ["b", "c"] ["b", "c"] (e.src.id, e.attrs))
          ∨ (e.src.id = nn.id ∧ e.attrs = []
              ∧ SuccWitness mrgGraph ["b", "c"] ["b", "c"] e.dst.id))
      ∧ (∀ e, e ∈ mrgGraph.edges →
          ¬ mrgGraph.nodeList.any
              (fun n => n.id == e.src.id
                && (["b", "c"] : List String).contains n.name) = true →
          ¬ mrgGraph.nodeList.any
              (fun n => n.id == e.dst.id
                && (["b", "c"] : List String).contains n.name) = true →
          e ∈ g3.edges)
      ∧ (∀ p, p ∈ mrgGraph.nodeList →
          ¬ (["b", "c"] : List String).contains p.name = true →
          ((∃ d e0, d ∈ mrgGraph.nodeList
              ∧ (["b", "c"] : List String).contains d.name = true
              ∧ e0 ∈ mrgGraph.edges ∧ e0.src.id = p.id ∧ e0.dst.id = d.id) →
            g3.edges.countP (fun e => e.src.id == p.id && e.dst.id == nn.id) = 1)
          ∧ (¬ (∃ d e0, d ∈ mrgGraph.nodeList
              ∧ (["b", "c"] : List String).contains d.name = true
              ∧ e0 ∈ mrgGraph.edges ∧ e0.src.id = p.id ∧ e0.dst.id = d.id) →
            g3.edges.countP (fun e => e.src.id == p.id && e.dst.id == nn.id) = 0))
      ∧ (∀ s, s ∈ mrgGraph.nodeList →
          ¬ (["b", "c"] : List String).contains s.name = true →
          ((∃ d e0, d ∈ mrgGraph.nodeList
              ∧ (["b", "c"] : List String).contains d.name = true
              ∧ e0 ∈ mrgGraph.edges ∧ e0.src.id = d.id ∧ e0.dst.id = s.id) →
            g3.edges.countP (fun e => e.src.id == nn.id && e.dst.id == s.id) = 1)
          ∧ (¬ (∃ d e0, d ∈ mrgGraph.nodeList
              ∧ (["b", "c"] : List String).contains d.name = true
              ∧ e0 ∈ mrgGraph.edges ∧ e0.src.id = d.id ∧ e0.dst.id = s.id) →
            g3.edges.countP (fun e => e.src.id == nn.id && e.dst.id == s.id) = 0))
      ∧ ((∃ en, g3.entry = some en ∧ en.id = nn.id)
          ↔ (∃ d, d ∈ mrgGraph.nodeList
              ∧ (["b", "c"] : List String).contains d.name = true
              ∧ d.entry = true)) :=
  C2_merge mrgGraph ["b", "c"] "M"
    ⟨by decide, by decide, by decide, by decide, by decide, by decide, by decide,
      (by
        intro e he
        injection he with h2
        rw [← h2]
        exact ⟨by decide, by decide⟩),
      by decide, by decide⟩
    (by decide) (by decide) (by decide) (by decide)

end Cfg
